import Mathlib

/-!
Verification of the Style3D `block` BVH pipeline.

This file gives a shallow embedding, in Lean 4, of the GPU BVH construction
and refit pipeline of the repository (files `src/block/aabb.py`,
`src/block/bvh/kernels.py`, `src/block/bvh/bvh.py`) and proves the spec
claims about it.

Modelling conventions:
* AABB coordinates use `ℤ` triples.  The kernels only ever apply
  component-wise `min`/`max` to coordinates (no arithmetic), and `min`/`max`
  on non-NaN floats is exact, associative and commutative, so the integer
  lattice is a faithful model of every property claimed about boxes.
* 32-bit machine integers are modelled as `ℕ`/`ℤ` together with explicit
  range hypotheses (`N ≤ 2^30`, Morton keys `< 2^30`) under which none of
  the kernel arithmetic overflows `int32`, so no wrap-around modelling is
  needed.
* Device loops with data-dependent trip counts are written as fuel
  recursion with a fixed fuel of 64; the proofs show the loops exit on
  their own condition well before the fuel runs out for every input
  admitted by the hypotheses.
* The concurrent bottom-up refit kernel is modelled as an explicit
  interleaving semantics: a scheduler (an arbitrary list of thread ids)
  drives per-thread steps, one loop iteration at a time.  The
  `threadfence` / `atomic_add` pair of the source establishes
  release/acquire ordering between the sibling threads, which makes the
  one-iteration granularity observationally faithful: a second arriver
  always sees the first arriver's completed box write.
* The device radix sort (`wp_radix_sort_pairs_int_device`) is third-party
  code outside this repository; it is modelled relationally from its
  interface in the spec (sorted output, paired permutation, arbitrary
  tie order).
-/

/-! ## Geometry: integer 3-vectors and AABBs (from `src/block/aabb.py`) -/

/-- Component container for a 3-vector of integer coordinates. -/
structure V3 where
  x : ℤ
  y : ℤ
  z : ℤ
deriving DecidableEq, Repr

/-- Component-wise minimum, the model of `wp.min` on `wp.vec3`. -/
def vmin (a b : V3) : V3 := ⟨min a.x b.x, min a.y b.y, min a.z b.z⟩

/-- Component-wise maximum, the model of `wp.max` on `wp.vec3`. -/
def vmax (a b : V3) : V3 := ⟨max a.x b.x, max a.y b.y, max a.z b.z⟩

theorem vmin_comm (a b : V3) : vmin a b = vmin b a := by
  simp [vmin, min_comm]

theorem vmax_comm (a b : V3) : vmax a b = vmax b a := by
  simp [vmax, max_comm]

/-- Axis-aligned bounding box, from `class Aabb` in `src/block/aabb.py`. -/
structure Aabb where
  lower : V3
  upper : V3
deriving DecidableEq, Repr

/-- Merge two AABBs, from `aabb_merge` in `src/block/aabb.py`:
lower is the component-wise min, upper the component-wise max. -/
def aabb_merge (aabb_0 aabb_1 : Aabb) : Aabb :=
  { lower := vmin aabb_0.lower aabb_1.lower
    upper := vmax aabb_0.upper aabb_1.upper }

theorem aabb_merge_comm (a b : Aabb) : aabb_merge a b = aabb_merge b a := by
  simp [aabb_merge, vmin_comm, vmax_comm]

/-! ## Bit-level helpers: count-leading-zeros

The device intrinsic `clz` (from `src/block/intrinsic.py`) returns the
number of leading zero bits of a 32-bit unsigned integer, 32 for input 0.
`bitLen` below is a kernel-reducible bit length: `clz32 x = 32 - bitLen x`. -/

/-- Fuel-driven bit length; with fuel `f` it is exact for inputs below `2^f`. -/
def bitLenF : ℕ → ℕ → ℕ
  | 0, _ => 0
  | f + 1, x => if x = 0 then 0 else bitLenF f (x / 2) + 1

/-- Bit length of a natural number below `2^64`: the least `s` with `x < 2^s`. -/
def bitLen (x : ℕ) : ℕ := bitLenF 64 x

/-- Count leading zeros of a 32-bit value, the model of `clz` from
`src/block/intrinsic.py` (32 when the input is 0). -/
def clz32 (x : ℕ) : ℕ := 32 - bitLen x

theorem bitLenF_zero (f : ℕ) : bitLenF f 0 = 0 := by
  cases f <;> simp [bitLenF]

theorem bitLenF_lt (f : ℕ) : ∀ x : ℕ, x < 2 ^ f → x < 2 ^ bitLenF f x := by
  induction f with
  | zero =>
    intro x hx
    interval_cases x
    simp [bitLenF]
  | succ f ih =>
    intro x hx
    by_cases h0 : x = 0
    · subst h0; simp [bitLenF]
    · have hdiv : x / 2 < 2 ^ f := by
        have h2 : (0:ℕ) < 2 := by norm_num
        rw [Nat.div_lt_iff_lt_mul h2]
        calc x < 2 ^ (f + 1) := hx
        _ = 2 ^ f * 2 := by ring
      have := ih (x / 2) hdiv
      simp only [bitLenF, h0, if_false]
      have hx2 : x < 2 * (x / 2) + 2 := by omega
      calc x < 2 * (x / 2) + 2 := hx2
      _ ≤ 2 * (2 ^ bitLenF f (x / 2) - 1) + 2 := by
            have h1 : 1 ≤ 2 ^ bitLenF f (x / 2) := Nat.one_le_two_pow
            omega
      _ ≤ 2 ^ (bitLenF f (x / 2) + 1) := by
            have h1 : 1 ≤ 2 ^ bitLenF f (x / 2) := Nat.one_le_two_pow
            rw [pow_succ]
            omega

theorem bitLenF_ge (f : ℕ) : ∀ x : ℕ, x < 2 ^ f → x ≠ 0 →
    1 ≤ bitLenF f x ∧ 2 ^ (bitLenF f x - 1) ≤ x := by
  induction f with
  | zero =>
    intro x hx h0
    interval_cases x
    simp at h0
  | succ f ih =>
    intro x hx h0
    simp only [bitLenF, h0, if_false]
    refine ⟨by omega, ?_⟩
    by_cases hd : x / 2 = 0
    · simp [hd, bitLenF_zero]
      omega
    · have hdiv : x / 2 < 2 ^ f := by
        have h2 : (0:ℕ) < 2 := by norm_num
        rw [Nat.div_lt_iff_lt_mul h2]
        calc x < 2 ^ (f + 1) := hx
        _ = 2 ^ f * 2 := by ring
      obtain ⟨h1, h2⟩ := ih (x / 2) hdiv hd
      have : 2 ^ (bitLenF f (x / 2) + 1 - 1) = 2 * 2 ^ (bitLenF f (x / 2) - 1) := by
        rw [Nat.add_sub_cancel]
        have := Nat.sub_add_cancel h1
        calc 2 ^ bitLenF f (x / 2) = 2 ^ (bitLenF f (x / 2) - 1 + 1) := by rw [this]
        _ = 2 * 2 ^ (bitLenF f (x / 2) - 1) := by rw [pow_succ]; ring
      rw [this]
      have hx2 : 2 * (x / 2) ≤ x := by omega
      calc 2 * 2 ^ (bitLenF f (x / 2) - 1) ≤ 2 * (x / 2) := by omega
      _ ≤ x := hx2

theorem bitLen_lt {x : ℕ} (hx : x < 2 ^ 64) : x < 2 ^ bitLen x :=
  bitLenF_lt 64 x hx

theorem bitLen_ge {x : ℕ} (hx : x < 2 ^ 64) (h0 : x ≠ 0) :
    1 ≤ bitLen x ∧ 2 ^ (bitLen x - 1) ≤ x :=
  bitLenF_ge 64 x hx h0

theorem bitLen_zero : bitLen 0 = 0 := bitLenF_zero 64

/-- The bit length is pinned down by the two power bounds. -/
theorem bitLen_unique {d s : ℕ} (hd : d < 2 ^ 64) (hs : 1 ≤ s)
    (h1 : 2 ^ (s - 1) ≤ d) (h2 : d < 2 ^ s) : bitLen d = s := by
  have h0 : d ≠ 0 := by
    intro h; subst h
    have : (0:ℕ) < 2 ^ (s-1) := Nat.pos_pow_of_pos _ (by norm_num)
    omega
  obtain ⟨hb1, hb2⟩ := bitLen_ge hd h0
  have hblt := bitLen_lt hd
  have hle : bitLen d ≤ s := by
    by_contra h
    push_neg at h
    have : s ≤ bitLen d - 1 := by omega
    have : 2 ^ s ≤ 2 ^ (bitLen d - 1) := Nat.pow_le_pow_right (by norm_num) this
    omega
  have hge : s ≤ bitLen d := by
    by_contra h
    push_neg at h
    have : s - 1 ≥ bitLen d := by omega
    have : 2 ^ bitLen d ≤ 2 ^ (s - 1) := Nat.pow_le_pow_right (by norm_num) this
    omega
  omega

/-- Monotone bound: bit length of a value below `2^s` is at most `s`. -/
theorem bitLen_le_of_lt {d s : ℕ} (hd : d < 2 ^ 64) (h2 : d < 2 ^ s) :
    bitLen d ≤ s := by
  by_cases h0 : d = 0
  · subst h0; simp [bitLen_zero]
  · obtain ⟨hb1, hb2⟩ := bitLen_ge hd h0
    by_contra h
    push_neg at h
    have : s ≤ bitLen d - 1 := by omega
    have : 2 ^ s ≤ 2 ^ (bitLen d - 1) := Nat.pow_le_pow_right (by norm_num) this
    omega

/-! ## The xor bit-length order structure

For distinct keys `x ≠ y`, `bitLen (x ^^^ y)` is one plus the position of
the highest differing bit; the common-prefix length of two 64-bit keys is
`64 - bitLen (x ^^^ y)`.  The lemmas below are the standard facts about
longest common prefixes of sorted keys, phrased through `bitLen`. -/

theorem testBit_eq_of_xorLen_le {x y i : ℕ} (hx : x < 2 ^ 64) (hy : y < 2 ^ 64)
    (h : bitLen (x ^^^ y) ≤ i) : x.testBit i = y.testBit i := by
  have hxor : x ^^^ y < 2 ^ 64 := Nat.xor_lt_two_pow hx hy
  have h1 : x ^^^ y < 2 ^ i := by
    calc x ^^^ y < 2 ^ bitLen (x ^^^ y) := bitLen_lt hxor
    _ ≤ 2 ^ i := Nat.pow_le_pow_right (by norm_num) h
  have h2 : (x ^^^ y).testBit i = false := Nat.testBit_lt_two_pow h1
  rw [Nat.testBit_xor] at h2
  simpa using h2

theorem testBit_xor_top {x y : ℕ} (hx : x < 2 ^ 64) (hy : y < 2 ^ 64)
    (hne : x ≠ y) : (x ^^^ y).testBit (bitLen (x ^^^ y) - 1) = true := by
  have hxor : x ^^^ y < 2 ^ 64 := Nat.xor_lt_two_pow hx hy
  have h0 : x ^^^ y ≠ 0 := fun h => hne (Nat.xor_eq_zero.mp h)
  obtain ⟨h1, h2⟩ := bitLen_ge hxor h0
  have h3 := bitLen_lt hxor
  set s := bitLen (x ^^^ y) with hs
  rw [Nat.testBit_to_div_mod]
  have hdiv : (x ^^^ y) / 2 ^ (s - 1) = 1 := by
    apply Nat.div_eq_of_lt_le
    · simpa using h2
    · have : s = s - 1 + 1 := by omega
      calc x ^^^ y < 2 ^ s := h3
      _ = 2 ^ (s - 1 + 1) := by rw [← this]
      _ = (1 + 1) * 2 ^ (s - 1) := by rw [pow_succ]; ring
  simp [hdiv]

theorem testBit_top_ne {x y : ℕ} (hx : x < 2 ^ 64) (hy : y < 2 ^ 64)
    (hne : x ≠ y) :
    x.testBit (bitLen (x ^^^ y) - 1) ≠ y.testBit (bitLen (x ^^^ y) - 1) := by
  have := testBit_xor_top hx hy hne
  rw [Nat.testBit_xor] at this
  intro h
  rw [h] at this
  simp at this

/-- Comparison through the highest differing bit: if that bit of `x` is
clear then `x < y`. -/
theorem lt_of_testBit_top_false {x y : ℕ} (hx : x < 2 ^ 64) (hy : y < 2 ^ 64)
    (hne : x ≠ y) (h : x.testBit (bitLen (x ^^^ y) - 1) = false) : x < y := by
  have htop := testBit_top_ne hx hy hne
  have hyt : y.testBit (bitLen (x ^^^ y) - 1) = true := by
    cases hyt : y.testBit (bitLen (x ^^^ y) - 1) with
    | false => rw [h, hyt] at htop; simp at htop
    | true => rfl
  refine Nat.lt_of_testBit (bitLen (x ^^^ y) - 1) h hyt ?_
  intro j hj
  apply testBit_eq_of_xorLen_le hx hy
  have h0 : x ^^^ y ≠ 0 := fun hz => hne (Nat.xor_eq_zero.mp hz)
  have h1 : 1 ≤ bitLen (x ^^^ y) :=
    (bitLen_ge (Nat.xor_lt_two_pow hx hy) h0).1
  omega

theorem testBit_top_false_of_lt {x y : ℕ} (hx : x < 2 ^ 64) (hy : y < 2 ^ 64)
    (hlt : x < y) : x.testBit (bitLen (x ^^^ y) - 1) = false := by
  have hne : x ≠ y := Nat.ne_of_lt hlt
  cases h : x.testBit (bitLen (x ^^^ y) - 1) with
  | false => rfl
  | true =>
    exfalso
    have hyt : y.testBit (bitLen (x ^^^ y) - 1) = false := by
      have htop := testBit_top_ne hx hy hne
      cases hyt : y.testBit (bitLen (x ^^^ y) - 1) with
      | false => rfl
      | true => rw [h, hyt] at htop; simp at htop
    have hxy : bitLen (y ^^^ x) = bitLen (x ^^^ y) := by rw [Nat.xor_comm]
    have : y < x := by
      apply lt_of_testBit_top_false hy hx (Ne.symm hne)
      rw [hxy]; exact hyt
    omega

/-- Adjacent highest-differing-bit lengths of strictly increasing keys differ. -/
theorem xorLen_ne_of_mono {x y z : ℕ} (hx : x < 2 ^ 64) (hy : y < 2 ^ 64)
    (hz : z < 2 ^ 64) (hxy : x < y) (hyz : y < z) :
    bitLen (x ^^^ y) ≠ bitLen (y ^^^ z) := by
  intro heq
  have h1 : x.testBit (bitLen (x ^^^ y) - 1) = false :=
    testBit_top_false_of_lt hx hy hxy
  have h2 : y.testBit (bitLen (y ^^^ z) - 1) = false :=
    testBit_top_false_of_lt hy hz hyz
  have h3 := testBit_top_ne hx hy (Nat.ne_of_lt hxy)
  rw [h1, heq, h2] at h3
  exact h3 rfl

/-- Triangle property of the highest-differing-bit length on three
strictly increasing keys: the outer length is the maximum of the two
adjacent ones. -/
theorem xorLen_triangle {x y z : ℕ} (hx : x < 2 ^ 64) (hy : y < 2 ^ 64)
    (hz : z < 2 ^ 64) (hxy : x < y) (hyz : y < z) :
    bitLen (x ^^^ z) = max (bitLen (x ^^^ y)) (bitLen (y ^^^ z)) := by
  have hnexy : x ≠ y := Nat.ne_of_lt hxy
  have hneyz : y ≠ z := Nat.ne_of_lt hyz
  have hp1 : 1 ≤ bitLen (x ^^^ y) := (bitLen_ge (Nat.xor_lt_two_pow hx hy)
    (fun h => hnexy (Nat.xor_eq_zero.mp h))).1
  have hp2 : 1 ≤ bitLen (y ^^^ z) := (bitLen_ge (Nat.xor_lt_two_pow hy hz)
    (fun h => hneyz (Nat.xor_eq_zero.mp h))).1
  have hne := xorLen_ne_of_mono hx hy hz hxy hyz
  rcases Nat.lt_or_ge (bitLen (y ^^^ z)) (bitLen (x ^^^ y)) with hlt | hge
  · -- outer top bit is at the higher position, from the first pair
    have hmax : max (bitLen (x ^^^ y)) (bitLen (y ^^^ z)) = bitLen (x ^^^ y) := by
      omega
    rw [hmax]
    have htop : (x ^^^ z).testBit (bitLen (x ^^^ y) - 1) = true := by
      rw [Nat.testBit_xor]
      have hyz' : y.testBit (bitLen (x ^^^ y) - 1) =
          z.testBit (bitLen (x ^^^ y) - 1) :=
        testBit_eq_of_xorLen_le hy hz (by omega)
      have hxy' := testBit_top_ne hx hy hnexy
      rw [hyz'] at hxy'
      cases hx' : x.testBit (bitLen (x ^^^ y) - 1) <;>
        cases hz' : z.testBit (bitLen (x ^^^ y) - 1) <;> simp_all
    have hhi : ∀ i, i ≥ bitLen (x ^^^ y) → (x ^^^ z).testBit i = false := by
      intro i hi
      rw [Nat.testBit_xor]
      have e1 : x.testBit i = y.testBit i := testBit_eq_of_xorLen_le hx hy hi
      have e2 : y.testBit i = z.testBit i :=
        testBit_eq_of_xorLen_le hy hz (by omega)
      rw [e1, e2]
      simp
    exact bitLen_unique (Nat.xor_lt_two_pow hx hz) hp1
      (Nat.testBit_implies_ge htop) (Nat.lt_pow_two_of_testBit _ hhi)
  · -- outer top bit comes from the second pair
    have hlt2 : bitLen (x ^^^ y) < bitLen (y ^^^ z) := by omega
    have hmax : max (bitLen (x ^^^ y)) (bitLen (y ^^^ z)) = bitLen (y ^^^ z) := by
      omega
    rw [hmax]
    have htop : (x ^^^ z).testBit (bitLen (y ^^^ z) - 1) = true := by
      rw [Nat.testBit_xor]
      have hxy' : x.testBit (bitLen (y ^^^ z) - 1) =
          y.testBit (bitLen (y ^^^ z) - 1) :=
        testBit_eq_of_xorLen_le hx hy (by omega)
      have hyz' := testBit_top_ne hy hz hneyz
      rw [← hxy'] at hyz'
      cases hx' : x.testBit (bitLen (y ^^^ z) - 1) <;>
        cases hz' : z.testBit (bitLen (y ^^^ z) - 1) <;> simp_all
    have hhi : ∀ i, i ≥ bitLen (y ^^^ z) → (x ^^^ z).testBit i = false := by
      intro i hi
      rw [Nat.testBit_xor]
      have e1 : x.testBit i = y.testBit i :=
        testBit_eq_of_xorLen_le hx hy (by omega)
      have e2 : y.testBit i = z.testBit i := testBit_eq_of_xorLen_le hy hz hi
      rw [e1, e2]
      simp
    exact bitLen_unique (Nat.xor_lt_two_pow hx hz) hp2
      (Nat.testBit_implies_ge htop) (Nat.lt_pow_two_of_testBit _ hhi)

/-! ## Packing a Morton code and a leaf index into one 64-bit key

The tie-break rule of `common_prefix` in `src/block/bvh/kernels.py`
(compare leaf indices, add 32, when the Morton codes collide) is exactly
the highest-differing-bit comparison of the packed key
`code * 2^32 + index`.  This packing turns the sorted code sequence into a
strictly increasing key sequence. -/

theorem testBit_pack {a b k : ℕ} (hb : b < 2 ^ 32) :
    (a * 2 ^ 32 + b).testBit k =
      if k < 32 then b.testBit k else a.testBit (k - 32) := by
  by_cases hk : k < 32
  · simp only [hk, if_true]
    have hmod : (a * 2 ^ 32 + b) % 2 ^ 32 = b := by omega
    have := Nat.testBit_mod_two_pow (a * 2 ^ 32 + b) 32 k
    rw [hmod] at this
    simp [hk] at this
    exact this.symm
  · simp only [hk, if_false]
    have hdiv : (a * 2 ^ 32 + b) / 2 ^ 32 = a := by omega
    have hsh : (a * 2 ^ 32 + b) >>> 32 = a := by
      rw [Nat.shiftRight_eq_div_pow]
      exact hdiv
    have htb : ((a * 2 ^ 32 + b) >>> 32).testBit (k - 32) =
        (a * 2 ^ 32 + b).testBit (32 + (k - 32)) :=
      Nat.testBit_shiftRight _
    rw [hsh] at htb
    have hk' : 32 + (k - 32) = k := by omega
    rw [hk'] at htb
    exact htb.symm

theorem pack_xor {a a' b b' : ℕ} (hb : b < 2 ^ 32) (hb' : b' < 2 ^ 32) :
    (a * 2 ^ 32 + b) ^^^ (a' * 2 ^ 32 + b') =
      (a ^^^ a') * 2 ^ 32 + (b ^^^ b') := by
  apply Nat.eq_of_testBit_eq
  intro i
  rw [Nat.testBit_xor, testBit_pack hb, testBit_pack hb',
    testBit_pack (Nat.xor_lt_two_pow hb hb')]
  by_cases hi : i < 32 <;> simp [hi, Nat.testBit_xor]

theorem bitLen_pack_hi {a b : ℕ} (ha0 : a ≠ 0) (ha : a < 2 ^ 32)
    (hb : b < 2 ^ 32) : bitLen (a * 2 ^ 32 + b) = 32 + bitLen a := by
  have ha64 : a < 2 ^ 64 := lt_of_lt_of_le ha (by norm_num)
  obtain ⟨h1, h2⟩ := bitLen_ge ha64 ha0
  have h3 := bitLen_lt ha64
  have hbl32 : bitLen a ≤ 32 := bitLen_le_of_lt ha64 ha
  apply bitLen_unique
  · calc a * 2 ^ 32 + b < (a + 1) * 2 ^ 32 := by
          have : (a + 1) * 2 ^ 32 = a * 2 ^ 32 + 2 ^ 32 := by ring
          omega
    _ ≤ 2 ^ 32 * 2 ^ 32 := by
          have : a + 1 ≤ 2 ^ 32 := ha
          exact Nat.mul_le_mul_right _ this
    _ = 2 ^ 64 := by norm_num
  · omega
  · have : 2 ^ (32 + bitLen a - 1) = 2 ^ 32 * 2 ^ (bitLen a - 1) := by
      rw [← pow_add]
      congr 1
      omega
    rw [this]
    calc 2 ^ 32 * 2 ^ (bitLen a - 1) ≤ 2 ^ 32 * a := Nat.mul_le_mul_left _ h2
    _ = a * 2 ^ 32 := by ring
    _ ≤ a * 2 ^ 32 + b := by omega
  · have h4 : 2 ^ (32 + bitLen a) = 2 ^ 32 * 2 ^ bitLen a := by rw [← pow_add]
    rw [h4]
    calc a * 2 ^ 32 + b < (a + 1) * 2 ^ 32 := by
          have : (a + 1) * 2 ^ 32 = a * 2 ^ 32 + 2 ^ 32 := by ring
          omega
    _ ≤ 2 ^ bitLen a * 2 ^ 32 := Nat.mul_le_mul_right _ h3
    _ = 2 ^ 32 * 2 ^ bitLen a := by ring

/-! ## Morton code bit dilation (from `src/block/bvh/kernels.py`) -/

/-- Bit dilation, from `interleave_double_zero` in `src/block/bvh/kernels.py`:
inserts two zero bits between the bits of a 10-bit value using the
magic-mask cascade. -/
def interleave_double_zero (bits : ℕ) : ℕ :=
  let b1 := (bits ||| (bits <<< 16)) &&& 0xFF0000FF
  let b2 := (b1 ||| (b1 <<< 8)) &&& 0x0F00F00F
  let b3 := (b2 ||| (b2 <<< 4)) &&& 0xC30C30C3
  (b3 ||| (b3 <<< 2)) &&& 0x49249249

/-- Integer tail of `morton_encode` in `src/block/bvh/kernels.py`: combine
the three dilated 10-bit quantized coordinates as `(x <<2) + (y <<1) + z`.
The floating-point normalization and clamping that produce the quantized
coordinates are abstracted as inputs (each lies in `[0, 1023]` after the
clamp, which the theorems take as a hypothesis). -/
def morton_combine (qx qy qz : ℕ) : ℕ :=
  (interleave_double_zero qx <<< 2) + (interleave_double_zero qy <<< 1) +
    interleave_double_zero qz

set_option maxRecDepth 4000 in
theorem interleave_lt (q : ℕ) (hq : q < 1024) :
    interleave_double_zero q ≤ 0x9249249 := by
  revert q hq
  decide

/-- A Morton code built from clamped 10-bit coordinates is below `2^30`. -/
theorem morton_combine_lt {qx qy qz : ℕ} (hx : qx < 1024) (hy : qy < 1024)
    (hz : qz < 1024) : morton_combine qx qy qz < 2 ^ 30 := by
  have h1 := interleave_lt qx hx
  have h2 := interleave_lt qy hy
  have h3 := interleave_lt qz hz
  unfold morton_combine
  rw [Nat.shiftLeft_eq, Nat.shiftLeft_eq]
  omega

/-! ## Common prefix length and the delta function -/

/-- Common prefix length between two Morton codes, from `common_prefix` in
`src/block/bvh/kernels.py`: leading-zero count of the code xor, falling
back to the leaf-index xor plus 32 when the codes are equal. -/
def common_prefix_len (m0 m1 i j : ℕ) : ℕ :=
  if m0 ≠ m1 then clz32 (m0 ^^^ m1) else clz32 (i ^^^ j) + 32

/-- The packed 64-bit key: Morton code in the high half, leaf index in the
low half.  A proof device: `common_prefix_len` is exactly the common prefix
length of packed keys. -/
def kkey (codes : ℕ → ℕ) (a : ℕ) : ℕ := codes a * 2 ^ 32 + a

theorem kkey_lt_two_pow {codes : ℕ → ℕ} {a : ℕ} (hc : codes a < 2 ^ 32)
    (ha : a < 2 ^ 32) : kkey codes a < 2 ^ 64 := by
  unfold kkey
  calc codes a * 2 ^ 32 + a < (codes a + 1) * 2 ^ 32 := by
        have : (codes a + 1) * 2 ^ 32 = codes a * 2 ^ 32 + 2 ^ 32 := by ring
        omega
  _ ≤ 2 ^ 32 * 2 ^ 32 := Nat.mul_le_mul_right _ hc
  _ = 2 ^ 64 := by norm_num

/-- Packed keys are strictly increasing along a sorted code sequence. -/
theorem kkey_strict {codes : ℕ → ℕ} {a b : ℕ} (hab : a < b) (hb : b < 2 ^ 32)
    (hc : codes a ≤ codes b) : kkey codes a < kkey codes b := by
  unfold kkey
  rcases Nat.lt_or_ge (codes a) (codes b) with h | h
  · have : codes a * 2 ^ 32 + 2 ^ 32 ≤ codes b * 2 ^ 32 := by
      have := Nat.succ_le_of_lt h
      calc codes a * 2 ^ 32 + 2 ^ 32 = (codes a + 1) * 2 ^ 32 := by ring
      _ ≤ codes b * 2 ^ 32 := Nat.mul_le_mul_right _ this
    omega
  · have heq : codes a = codes b := by omega
    rw [heq]
    omega

/-- Bridge: the source tie-broken common prefix equals the common prefix
length of the packed keys. -/
theorem common_prefix_len_eq_kkey {codes : ℕ → ℕ} {i j : ℕ}
    (hci : codes i < 2 ^ 32) (hcj : codes j < 2 ^ 32)
    (hi : i < 2 ^ 32) (hj : j < 2 ^ 32) :
    common_prefix_len (codes i) (codes j) i j =
      64 - bitLen (kkey codes i ^^^ kkey codes j) := by
  unfold common_prefix_len kkey clz32
  have hxij : i ^^^ j < 2 ^ 32 := Nat.xor_lt_two_pow hi hj
  have hpack : (codes i * 2 ^ 32 + i) ^^^ (codes j * 2 ^ 32 + j) =
      (codes i ^^^ codes j) * 2 ^ 32 + (i ^^^ j) := pack_xor hi hj
  by_cases hne : codes i ≠ codes j
  · rw [if_pos hne]
    have hxc : codes i ^^^ codes j ≠ 0 := fun h => hne (Nat.xor_eq_zero.mp h)
    have hxc32 : codes i ^^^ codes j < 2 ^ 32 := Nat.xor_lt_two_pow hci hcj
    rw [hpack, bitLen_pack_hi hxc hxc32 hxij]
    have : bitLen (codes i ^^^ codes j) ≤ 32 :=
      bitLen_le_of_lt (lt_of_lt_of_le hxc32 (by norm_num)) hxc32
    omega
  · rw [if_neg hne]
    push_neg at hne
    rw [hpack, hne]
    simp only [Nat.xor_self, Nat.zero_mul, Nat.zero_add]
    have : bitLen (i ^^^ j) ≤ 32 :=
      bitLen_le_of_lt (lt_of_lt_of_le hxij (by norm_num)) hxij
    omega

/-! ## The delta function and `determine_range` / `find_split`
(from `src/block/bvh/kernels.py`)

Loop variables are `ℤ` like the `int32` registers of the kernel; under the
hypotheses `N ≤ 2^30` and Morton keys `< 2^30` every intermediate value
stays far inside the `int32` range, so no wrap-around is modelled.  The
two data-dependent loops carry an explicit fuel of 64; the correctness
proofs show the loop guard fails before the fuel can run out. -/

/-- Common prefix length between leaf `i` and leaf `j`, from `delta` in
`src/block/bvh/kernels.py`: `-1` when `j` is out of range. -/
def delta (m0 : ℕ) (codes : ℕ → ℕ) (i : ℕ) (j : ℤ) (num_leaves : ℕ) : ℤ :=
  if 0 ≤ j ∧ j < num_leaves then
    (common_prefix_len m0 (codes j.toNat) i j.toNat : ℤ)
  else -1

/-- Warp's `wp.sign` on integers: `-1` for negative arguments, `1`
otherwise.  In `determine_range` the argument is never zero for keys with
the tie-broken delta (proved below), so the value at zero is irrelevant. -/
def wpSign (x : ℤ) : ℤ := if x < 0 then -1 else 1

/-- The doubling loop of `determine_range`:
`while delta(i, i + lmax*d) > d_min: lmax *= 2`. -/
def lmaxLoop (m0 : ℕ) (codes : ℕ → ℕ) (i num_leaves : ℕ) (d d_min : ℤ) :
    ℕ → ℤ → ℤ
  | 0, lmax => lmax
  | fuel + 1, lmax =>
    if delta m0 codes i ((i : ℤ) + lmax * d) num_leaves > d_min then
      lmaxLoop m0 codes i num_leaves d d_min fuel (lmax * 2)
    else lmax

/-- The binary-search loop of `determine_range`: starting from `l = 0` and
`t = lmax / 2`, add `t` to `l` whenever the delta test passes, halving `t`
each iteration. -/
def binLoop (m0 : ℕ) (codes : ℕ → ℕ) (i num_leaves : ℕ) (d d_min : ℤ) :
    ℕ → ℤ → ℤ → ℤ
  | 0, l, _ => l
  | fuel + 1, l, t =>
    if t ≥ 1 then
      binLoop m0 codes i num_leaves d d_min fuel
        (if delta m0 codes i ((i : ℤ) + (l + t) * d) num_leaves > d_min then
          l + t
        else l)
        (t / 2)
    else l

/-- Range determination for internal node `i`, from `determine_range` in
`src/block/bvh/kernels.py`: direction from the two neighbour deltas,
doubling expansion, then binary search; returns `(min i j, max i j)`. -/
def determine_range (codes : ℕ → ℕ) (i num_leaves : ℕ) : ℤ × ℤ :=
  let m0 := codes i
  let d_l := delta m0 codes i ((i : ℤ) - 1) num_leaves
  let d_r := delta m0 codes i ((i : ℤ) + 1) num_leaves
  let d := wpSign (d_r - d_l)
  let d_min := min d_l d_r
  let lmax := lmaxLoop m0 codes i num_leaves d d_min 64 2
  let l := binLoop m0 codes i num_leaves d d_min 64 0 (lmax / 2)
  let j := (i : ℤ) + l * d
  (min (i : ℤ) j, max (i : ℤ) j)

/-- The split-search loop of `find_split`: while `step > 1`, halve the
step (rounding up) and advance the split while the proposed position is
inside the range and shares a longer prefix with the first key. -/
def splitLoop (first_code : ℕ) (codes : ℕ → ℕ) (first last : ℤ)
    (d_min : ℕ) : ℕ → ℤ → ℤ → ℤ
  | 0, split, _ => split
  | fuel + 1, split, step =>
    if step > 1 then
      splitLoop first_code codes first last d_min fuel
        (if split + (step + 1) / 2 < last ∧
            common_prefix_len first_code (codes (split + (step + 1) / 2).toNat)
              first.toNat (split + (step + 1) / 2).toNat > d_min then
          split + (step + 1) / 2
        else split)
        ((step + 1) / 2)
    else split

/-- Split position inside a range, from `find_split` in
`src/block/bvh/kernels.py`. -/
def find_split (codes : ℕ → ℕ) (first last : ℤ) : ℤ :=
  let last_code := codes last.toNat
  let first_code := codes first.toNat
  let d_min := common_prefix_len first_code last_code first.toNat last.toNat
  splitLoop first_code codes first last d_min 64 first (last - first)

/-! ## The radix tree construction kernel
(`construct_binary_radix_tree_kernel` in `src/block/bvh/kernels.py`)

Each thread `i < N-1` computes its range and split and emits its two
children; leaf children are shifted by `N-1` into the leaf id space.
The kernel's concurrent writes to `parent_nodes` go to pairwise distinct
locations (proved below), so folding the per-thread writes in thread
order is a faithful linearization of any device execution. -/

/-- The two child node ids produced by thread `i` of the radix tree
construction kernel. -/
def karrasNode (codes : ℕ → ℕ) (num_leaves i : ℕ) : ℤ × ℤ :=
  let fl := determine_range codes i num_leaves
  let split := find_split codes fl.1 fl.2
  let left := if fl.1 = split then split + ((num_leaves : ℤ) - 1) else split
  let right := if fl.2 = split + 1 then split + 1 + ((num_leaves : ℤ) - 1)
    else split + 1
  (left, right)

/-- The value written to `left_nodes[i]` by the construction kernel. -/
def left_nodes (codes : ℕ → ℕ) (num_leaves i : ℕ) : ℤ :=
  (karrasNode codes num_leaves i).1

/-- The value written to `right_nodes[i]` by the construction kernel. -/
def right_nodes (codes : ℕ → ℕ) (num_leaves i : ℕ) : ℤ :=
  (karrasNode codes num_leaves i).2

/-- The ordered `parent_nodes` writes of thread `i`: the two child slots,
then `parent_nodes[0] = -1` from thread 0. -/
def threadParentWrites (codes : ℕ → ℕ) (num_leaves i : ℕ) : List (ℕ × ℤ) :=
  [((left_nodes codes num_leaves i).toNat, (i : ℤ)),
   ((right_nodes codes num_leaves i).toNat, (i : ℤ))] ++
    (if i = 0 then [(0, -1)] else [])

/-- Apply a list of array writes left to right. -/
def applyWrites (p : ℕ → ℤ) (ws : List (ℕ × ℤ)) : ℕ → ℤ :=
  ws.foldl (fun q w => Function.update q w.1 w.2) p

/-- The `parent_nodes` array after the construction kernel ran all
internal-node threads, starting from arbitrary previous contents `p0`. -/
def buildParent (codes : ℕ → ℕ) (num_leaves : ℕ) (p0 : ℕ → ℤ) : ℕ → ℤ :=
  (List.range (num_leaves - 1)).foldl
    (fun p i => applyWrites p (threadParentWrites codes num_leaves i)) p0

/-! ## Karras tree correctness: the highest-differing-bit sequence

Throughout this section `codes` is the sorted Morton key array and `n` the
leaf count.  `XL a b` is the bit length of the xor of the packed keys of
leaves `a` and `b` (so the tie-broken common prefix of the kernel equals
`64 - XL a b`), and `DD a = XL a (a+1)` is the adjacent sequence that
determines the radix tree shape. -/

/-- Bit length of the xor of two packed keys. -/
def XL (codes : ℕ → ℕ) (a b : ℕ) : ℕ :=
  bitLen (kkey codes a ^^^ kkey codes b)

/-- The adjacent highest-differing-bit sequence. -/
def DD (codes : ℕ → ℕ) (a : ℕ) : ℕ := XL codes a (a + 1)

section Karras

variable {codes : ℕ → ℕ} {n : ℕ}
variable (hn : n ≤ 2 ^ 30) (hc : ∀ a, a < n → codes a < 2 ^ 30)
variable (hs : ∀ a b, a ≤ b → b < n → codes a ≤ codes b)

include hn hc in
theorem kk64 {a : ℕ} (ha : a < n) : kkey codes a < 2 ^ 64 :=
  kkey_lt_two_pow (lt_of_lt_of_le (hc a ha) (by norm_num))
    (lt_of_lt_of_le (lt_of_lt_of_le ha hn) (by norm_num))

include hn hc hs in
theorem kkmono {a b : ℕ} (hab : a < b) (hb : b < n) :
    kkey codes a < kkey codes b :=
  kkey_strict hab (lt_of_lt_of_le (lt_of_lt_of_le hb hn) (by norm_num))
    (hs a b (le_of_lt hab) hb)

theorem XL_sym (a b : ℕ) : XL codes a b = XL codes b a := by
  unfold XL
  rw [Nat.xor_comm]

theorem XL_self (a : ℕ) : XL codes a a = 0 := by
  unfold XL
  rw [Nat.xor_self]
  exact bitLen_zero

include hn hc in
theorem XL_le_64 {a b : ℕ} (ha : a < n) (hb : b < n) : XL codes a b ≤ 64 :=
  bitLen_le_of_lt (Nat.xor_lt_two_pow (kk64 hn hc ha) (kk64 hn hc hb))
    (Nat.xor_lt_two_pow (kk64 hn hc ha) (kk64 hn hc hb))

include hn hc hs in
theorem XL_pos {a b : ℕ} (ha : a < n) (hb : b < n) (hab : a ≠ b) :
    1 ≤ XL codes a b := by
  have hne : kkey codes a ≠ kkey codes b := by
    rcases Nat.lt_or_ge a b with h | h
    · exact Nat.ne_of_lt (kkmono hn hc hs h hb)
    · have : b < a := by omega
      exact (Nat.ne_of_lt (kkmono hn hc hs this ha)).symm
  exact (bitLen_ge (Nat.xor_lt_two_pow (kk64 hn hc ha) (kk64 hn hc hb))
    (fun h => hne (Nat.xor_eq_zero.mp h))).1

include hn hc hs in
theorem XL_triangle {a b c : ℕ} (hab : a < b) (hbc : b < c) (hcn : c < n) :
    XL codes a c = max (XL codes a b) (XL codes b c) := by
  have hbn : b < n := by omega
  have han : a < n := by omega
  exact xorLen_triangle (kk64 hn hc han) (kk64 hn hc hbn) (kk64 hn hc hcn)
    (kkmono hn hc hs hab hbn) (kkmono hn hc hs hbc hcn)

include hn hc hs in
theorem DD_adj_ne {a : ℕ} (ha : a + 2 < n) : DD codes a ≠ DD codes (a + 1) := by
  unfold DD XL
  exact xorLen_ne_of_mono (kk64 hn hc (by omega)) (kk64 hn hc (by omega))
    (kk64 hn hc ha) (kkmono hn hc hs (by omega) (by omega))
    (kkmono hn hc hs (by omega) ha)

include hn hc hs in
theorem XL_ge_DD {a x b : ℕ} (hax : a ≤ x) (hxb : x < b) (hbn : b < n) :
    DD codes x ≤ XL codes a b := by
  induction b with
  | zero => omega
  | succ b ih =>
    rcases Nat.lt_or_ge x b with h | h
    · have hab : a < b := by omega
      have := ih h (by omega)
      have htri := XL_triangle hn hc hs hab (by omega : b < b + 1) hbn
      rw [htri]
      have hDb : DD codes x ≤ XL codes a b := this
      omega
    · have hxb' : x = b := by omega
      subst hxb'
      rcases Nat.lt_or_ge a x with h2 | h2
      · have htri := XL_triangle hn hc hs h2 (by omega : x < x + 1) hbn
        rw [htri]
        unfold DD
        omega
      · have : a = x := by omega
        subst this
        unfold DD
        omega

include hn hc hs in
theorem XL_attained {a b : ℕ} (hab : a < b) (hbn : b < n) :
    ∃ p, a ≤ p ∧ p < b ∧ XL codes a b = DD codes p := by
  induction b with
  | zero => omega
  | succ b ih =>
    rcases Nat.lt_or_ge a b with h | h
    · obtain ⟨p, hp1, hp2, hp3⟩ := ih h (by omega)
      have htri := XL_triangle hn hc hs h (by omega : b < b + 1) hbn
      rcases Nat.le_total (XL codes a b) (XL codes b (b + 1)) with hle | hle
      · refine ⟨b, by omega, by omega, ?_⟩
        rw [htri]
        unfold DD
        omega
      · refine ⟨p, hp1, by omega, ?_⟩
        rw [htri, hp3]
        unfold DD at hp3 ⊢
        omega
    · have : a = b := by omega
      subst this
      exact ⟨a, le_refl a, by omega, rfl⟩

include hn hc hs in
theorem DD_valley {x y : ℕ} (hxy : x < y) (hyn : y + 1 < n)
    (heq : DD codes x = DD codes y) :
    ∃ z, x < z ∧ z < y ∧ DD codes x < DD codes z := by
  rcases Nat.lt_or_ge (x + 1) y with hgap | hadj
  · -- y > x + 1 : derive a contradiction from assuming no larger value between
    by_contra hno
    push_neg at hno
    -- every strictly-between value is at most DD x, so XL (x+1) y ≤ DD x
    have hXL : XL codes (x + 1) y ≤ DD codes x := by
      obtain ⟨p, hp1, hp2, hp3⟩ := XL_attained hn hc hs hgap (by omega)
      rw [hp3]
      rcases Nat.lt_or_ge x p with h | h
      · exact hno p h hp2
      · have : p = x := by omega
        subst this
        omega
    set s := DD codes x with hsdef
    have hs1 : 1 ≤ s := XL_pos hn hc hs (by omega) (by omega) (by omega)
    -- bit s-1 of key (x+1) is set, bit s-1 of key y is clear
    have hb1 : (kkey codes (x + 1)).testBit (s - 1) = true := by
      have hlt : kkey codes x < kkey codes (x + 1) :=
        kkmono hn hc hs (by omega) (by omega)
      have hf : (kkey codes x).testBit (s - 1) = false :=
        testBit_top_false_of_lt (kk64 hn hc (by omega)) (kk64 hn hc (by omega))
          hlt
      have hne : (kkey codes x).testBit (s - 1) ≠
          (kkey codes (x + 1)).testBit (s - 1) :=
        testBit_top_ne (kk64 hn hc (by omega))
          (kk64 hn hc (by omega)) (Nat.ne_of_lt hlt)
      cases hb : (kkey codes (x + 1)).testBit (s - 1) with
      | false =>
        exfalso
        exact hne (by rw [hf, hb])
      | true => rfl
    have hb2 : (kkey codes y).testBit (s - 1) = false := by
      have hlt : kkey codes y < kkey codes (y + 1) :=
        kkmono hn hc hs (by omega) hyn
      have := testBit_top_false_of_lt (kk64 hn hc (by omega)) (kk64 hn hc hyn)
        hlt
      rw [heq]
      exact this
    -- but keys x+1 and y agree above their xor length, which is at most s
    rcases Nat.lt_or_ge (XL codes (x + 1) y) s with hlt | hge
    · have : (kkey codes (x + 1)).testBit (s - 1) =
          (kkey codes y).testBit (s - 1) :=
        testBit_eq_of_xorLen_le (kk64 hn hc (by omega)) (kk64 hn hc (by omega))
          (by unfold XL at hlt; omega)
      rw [hb1, hb2] at this
      exact Bool.true_eq_false.mp this
    · have hXLeq : XL codes (x + 1) y = s := by omega
      have hlt : kkey codes (x + 1) < kkey codes y :=
        kkmono hn hc hs hgap (by omega)
      have := testBit_top_false_of_lt (kk64 hn hc (by omega))
        (kk64 hn hc (by omega)) hlt
      unfold XL at hXLeq
      rw [hXLeq] at this
      rw [hb1] at this
      exact Bool.true_eq_false.mp this
  · -- adjacent positions always carry different values
    exfalso
    have : y = x + 1 := by omega
    subst this
    exact DD_adj_ne hn hc hs (by omega) heq

end Karras

section Karras

variable {codes : ℕ → ℕ} {n : ℕ}
variable (hn : n ≤ 2 ^ 30) (hc : ∀ a, a < n → codes a < 2 ^ 30)
variable (hs : ∀ a b, a ≤ b → b < n → codes a ≤ codes b)

include hn hc in
/-- The kernel's delta equals `64 - XL` in range and `-1` out of range. -/
theorem delta_eq {i : ℕ} (hi : i < n) (j : ℤ) :
    delta (codes i) codes i j n =
      if 0 ≤ j ∧ j < n then 64 - (XL codes i j.toNat : ℤ) else -1 := by
  unfold delta
  by_cases hin : 0 ≤ j ∧ j < (n : ℤ)
  · rw [if_pos hin, if_pos hin]
    have hj : j.toNat < n := by omega
    have hbr := common_prefix_len_eq_kkey
      (lt_of_lt_of_le (hc i hi) (by norm_num))
      (lt_of_lt_of_le (hc j.toNat hj) (by norm_num))
      (lt_of_lt_of_le (lt_of_lt_of_le hi hn) (by norm_num))
      (lt_of_lt_of_le (lt_of_lt_of_le hj hn) (by norm_num))
    rw [hbr]
    have hle : XL codes i j.toNat ≤ 64 := XL_le_64 hn hc hi hj
    unfold XL
    push_cast [Nat.cast_sub (by unfold XL at hle; omega : bitLen (kkey codes i ^^^ kkey codes j.toNat) ≤ 64)]
    ring
  · rw [if_neg hin, if_neg hin]

end Karras

/-! ## Correctness of the fuel loops -/

/-- The doubling loop returns a power-of-two multiple of its start value
on which the delta test fails, bounded by `2 n`. -/
theorem lmaxLoop_spec (m0 : ℕ) (codes : ℕ → ℕ) (i n : ℕ) (dval dmin : ℤ)
    (hdval : dval = 1 ∨ dval = -1) (hi : i < n) (hdmin : -1 ≤ dmin) :
    ∀ fuel : ℕ, ∀ lmax : ℤ, 1 ≤ lmax → (n : ℤ) ≤ 2 ^ fuel * lmax →
      ∃ k : ℕ,
        lmaxLoop m0 codes i n dval dmin fuel lmax = lmax * 2 ^ k ∧
        ¬ (delta m0 codes i
            ((i : ℤ) + lmaxLoop m0 codes i n dval dmin fuel lmax * dval) n
            > dmin) ∧
        lmaxLoop m0 codes i n dval dmin fuel lmax ≤ max lmax (2 * (n : ℤ)) := by
  have hbig : ∀ l : ℤ, (n : ℤ) ≤ l →
      ¬ (delta m0 codes i ((i : ℤ) + l * dval) n > dmin) := by
    intro l hl
    unfold delta
    have hout : ¬ (0 ≤ (i : ℤ) + l * dval ∧ (i : ℤ) + l * dval < n) := by
      rcases hdval with h | h <;> subst h <;> push_neg <;> intro h1 <;> omega
    rw [if_neg hout]
    omega
  intro fuel
  induction fuel with
  | zero =>
    intro lmax h1 h2
    refine ⟨0, by simp [lmaxLoop], ?_, ?_⟩
    · simp only [lmaxLoop, pow_zero, mul_one]
      exact hbig lmax (by omega)
    · simp only [lmaxLoop]
      omega
  | succ fuel ih =>
    intro lmax h1 h2
    by_cases hp : delta m0 codes i ((i : ℤ) + lmax * dval) n > dmin
    · -- the guard passed: the current offset is in range, so lmax < n
      have hlt : lmax < (n : ℤ) := by
        by_contra hge
        exact hbig lmax (by omega) hp
      have hrec := ih (lmax * 2) (by omega) (by
        have : (2:ℤ) ^ (fuel + 1) * lmax = 2 ^ fuel * (lmax * 2) := by ring
        omega)
      obtain ⟨k, hk1, hk2, hk3⟩ := hrec
      have hstep : lmaxLoop m0 codes i n dval dmin (fuel + 1) lmax =
          lmaxLoop m0 codes i n dval dmin fuel (lmax * 2) := by
        simp only [lmaxLoop, if_pos hp]
      refine ⟨k + 1, ?_, ?_, ?_⟩
      · rw [hstep, hk1]; ring
      · rw [hstep]; exact hk2
      · rw [hstep]
        have : max (lmax * 2) (2 * (n : ℤ)) ≤ max lmax (2 * (n : ℤ)) := by
          rcases max_cases (lmax * 2) (2 * (n : ℤ)) with ⟨he, _⟩ | ⟨he, _⟩ <;>
            rw [he] <;>
            rcases max_cases lmax (2 * (n : ℤ)) with ⟨hf, _⟩ | ⟨hf, _⟩ <;>
            rw [hf] <;> omega
        omega
    · refine ⟨0, ?_, ?_, ?_⟩
      · simp only [lmaxLoop, if_neg hp]; ring
      · simp only [lmaxLoop, if_neg hp, pow_zero, mul_one]
        simpa using hp
      · simp only [lmaxLoop, if_neg hp]
        omega

/-- The binary search loop with zero step returns its accumulator. -/
theorem binLoop_zero (m0 : ℕ) (codes : ℕ → ℕ) (i n : ℕ) (dval dmin : ℤ)
    (fuel : ℕ) (l : ℤ) : binLoop m0 codes i n dval dmin fuel l 0 = l := by
  cases fuel with
  | zero => rfl
  | succ fuel => simp [binLoop]

/-- The binary search loop finds the largest offset passing the
(downward-closed) delta test. -/
theorem binLoop_spec (m0 : ℕ) (codes : ℕ → ℕ) (i n : ℕ) (dval dmin : ℤ)
    (Lstar : ℤ) (hL0 : 0 ≤ Lstar)
    (down : ∀ a b : ℤ, 0 ≤ a → a ≤ b →
      delta m0 codes i ((i : ℤ) + b * dval) n > dmin →
      delta m0 codes i ((i : ℤ) + a * dval) n > dmin)
    (hpL : delta m0 codes i ((i : ℤ) + Lstar * dval) n > dmin)
    (hmax : ∀ l : ℤ, delta m0 codes i ((i : ℤ) + l * dval) n > dmin →
      l ≤ Lstar) :
    ∀ m fuel : ℕ, ∀ l : ℤ, m < fuel →
      delta m0 codes i ((i : ℤ) + l * dval) n > dmin →
      0 ≤ l → l ≤ Lstar → Lstar < l + 2 * 2 ^ m →
      binLoop m0 codes i n dval dmin fuel l (2 ^ m) = Lstar := by
  intro m
  induction m with
  | zero =>
    intro fuel l hfuel hpl hl0 hlL hup
    cases fuel with
    | zero => omega
    | succ fuel =>
      have hg : (1 : ℤ) ≥ 1 := le_refl 1
      simp only [binLoop, pow_zero, if_pos hg]
      have hdiv : (1 : ℤ) / 2 = 0 := by decide
      rw [hdiv, binLoop_zero]
      by_cases hp : delta m0 codes i ((i : ℤ) + (l + 1) * dval) n > dmin
      · rw [if_pos hp]
        have := hmax (l + 1) hp
        omega
      · rw [if_neg hp]
        have : Lstar ≤ l := by
          by_contra hgt
          exact hp (down (l + 1) Lstar (by omega) (by omega) hpL)
        omega
  | succ m ih =>
    intro fuel l hfuel hpl hl0 hlL hup
    cases fuel with
    | zero => omega
    | succ fuel =>
      have hg : (2 : ℤ) ^ (m + 1) ≥ 1 := by
        have := pow_pos (by norm_num : (0:ℤ) < 2) (m + 1)
        omega
      simp only [binLoop, if_pos hg]
      have hdiv : (2 : ℤ) ^ (m + 1) / 2 = 2 ^ m := by
        rw [pow_succ]
        exact Int.mul_ediv_cancel _ (by norm_num)
      rw [hdiv]
      have hpos : (0:ℤ) < 2 ^ (m + 1) := by positivity
      by_cases hp : delta m0 codes i ((i : ℤ) + (l + 2 ^ (m + 1)) * dval) n > dmin
      · rw [if_pos hp]
        have hle := hmax _ hp
        refine ih fuel (l + 2 ^ (m + 1)) (by omega) hp (by omega) hle ?_
        have : (2:ℤ) ^ (m + 1) = 2 * 2 ^ m := by rw [pow_succ]; ring
        omega
      · rw [if_neg hp]
        have hubound : Lstar < l + 2 ^ (m + 1) := by
          by_contra hge
          exact hp (down _ Lstar (by omega) (by omega) hpL)
        refine ih fuel l (by omega) hpl hl0 hlL ?_
        have : (2:ℤ) ^ (m + 1) = 2 * 2 ^ m := by rw [pow_succ]; ring
        omega

/-- Assembling `determine_range` from the two loop lemmas: with the
direction and threshold computed, and `Lstar` the largest offset passing
the delta test, the kernel returns the interval from `i` to
`i + Lstar * dval`. -/
theorem determine_range_spec (codes : ℕ → ℕ) (n i : ℕ) (hi : i < n)
    (hn30 : n ≤ 2 ^ 30) (dval dmin Lstar : ℤ)
    (hdval : dval = 1 ∨ dval = -1)
    (hsign : wpSign (delta (codes i) codes i ((i : ℤ) + 1) n -
      delta (codes i) codes i ((i : ℤ) - 1) n) = dval)
    (hmin : min (delta (codes i) codes i ((i : ℤ) - 1) n)
      (delta (codes i) codes i ((i : ℤ) + 1) n) = dmin)
    (hdmin : -1 ≤ dmin) (hdmin64 : dmin < 64) (hL0 : 0 ≤ Lstar)
    (down : ∀ a b : ℤ, 0 ≤ a → a ≤ b →
      delta (codes i) codes i ((i : ℤ) + b * dval) n > dmin →
      delta (codes i) codes i ((i : ℤ) + a * dval) n > dmin)
    (hpL : delta (codes i) codes i ((i : ℤ) + Lstar * dval) n > dmin)
    (hmax : ∀ l : ℤ, delta (codes i) codes i ((i : ℤ) + l * dval) n > dmin →
      l ≤ Lstar) :
    determine_range codes i n =
      (min (i : ℤ) ((i : ℤ) + Lstar * dval),
       max (i : ℤ) ((i : ℤ) + Lstar * dval)) := by
  obtain ⟨k, hk1, hk2, hk3⟩ := lmaxLoop_spec (codes i) codes i n dval dmin
    hdval hi hdmin 64 2 (by norm_num)
    (by
      have : (n : ℤ) ≤ 2 ^ 30 := by exact_mod_cast hn30
      norm_num
      omega)
  have hkpos : (0:ℤ) < 2 ^ k := pow_pos (by norm_num) k
  have hk30 : k ≤ 30 := by
    by_contra hgt
    have h31 : 31 ≤ k := by omega
    have : (2:ℤ) ^ 31 ≤ 2 ^ k := pow_le_pow_right (by norm_num) h31
    have hn' : (n : ℤ) ≤ 2 ^ 30 := by exact_mod_cast hn30
    have h2 : (2:ℤ) * 2 ^ k ≤ max 2 (2 * (n : ℤ)) := by rw [← hk1]; exact hk3
    rcases max_cases (2:ℤ) (2 * (n : ℤ)) with ⟨he, _⟩ | ⟨he, _⟩ <;>
      rw [he] at h2 <;> norm_num at * <;> omega
  have hLlt : Lstar < 2 * 2 ^ k := by
    by_contra hge
    push_neg at hge
    rw [← hk1] at hge
    exact hk2 (down _ Lstar (by rw [hk1]; omega) hge hpL)
  have hpred0 : delta (codes i) codes i ((i : ℤ) + 0 * dval) n > dmin := by
    have hj : (i : ℤ) + 0 * dval = ((i : ℕ) : ℤ) := by ring
    rw [hj]
    unfold delta
    rw [if_pos (by constructor <;> omega)]
    have ht : ((i : ℤ)).toNat = i := Int.toNat_natCast i
    rw [ht]
    unfold common_prefix_len
    rw [if_neg (by simp)]
    have : clz32 (i ^^^ i) = 32 := by
      rw [Nat.xor_self]
      rfl
    rw [this]
    omega
  have hbin := binLoop_spec (codes i) codes i n dval dmin Lstar hL0 down hpL
    hmax k 64 0 (by omega) hpred0 (le_refl 0) hL0 (by omega)
  simp only [determine_range]
  rw [hsign, hmin, hk1]
  have hdiv : (2 * 2 ^ k : ℤ) / 2 = 2 ^ k :=
    Int.mul_ediv_cancel_left _ (by norm_num)
  rw [hdiv, hbin]

/-- Correctness of the split-search loop: it converges to `p`, the unique
position at which the prefix test flips. -/
theorem splitLoop_spec (fc : ℕ) (codes : ℕ → ℕ) (F L : ℤ) (dnode : ℕ)
    (p : ℤ)
    (htest : ∀ s : ℤ, F < s → s < L →
      (common_prefix_len fc (codes s.toNat) F.toNat s.toNat > dnode ↔ s ≤ p))
    (hpF : F ≤ p) (hpL : p < L) :
    ∀ fuel : ℕ, ∀ split step : ℤ, F ≤ split → split ≤ p → p < split + step →
      step ≤ 2 ^ fuel →
      splitLoop fc codes F L dnode fuel split step = p := by
  intro fuel
  induction fuel with
  | zero =>
    intro split step h1 h2 h3 h4
    simp only [splitLoop]
    omega
  | succ fuel ih =>
    intro split step h1 h2 h3 h4
    have hpow : (2:ℤ) ^ (fuel + 1) = 2 * 2 ^ fuel := by rw [pow_succ]; ring
    have hkpos : (0:ℤ) < 2 ^ fuel := pow_pos (by norm_num) fuel
    by_cases hg : step > 1
    · simp only [splitLoop, if_pos hg]
      have hstep' : 1 ≤ (step + 1) / 2 ∧ step ≤ 2 * ((step + 1) / 2) ∧
          (step + 1) / 2 ≤ 2 ^ fuel := by omega
      by_cases hb : split + (step + 1) / 2 < L ∧
          common_prefix_len fc (codes (split + (step + 1) / 2).toNat)
            F.toNat (split + (step + 1) / 2).toNat > dnode
      · rw [if_pos hb]
        have hns : split + (step + 1) / 2 ≤ p :=
          (htest _ (by omega) hb.1).mp hb.2
        exact ih _ _ (by omega) hns (by omega) hstep'.2.2
      · rw [if_neg hb]
        refine ih _ _ h1 h2 ?_ hstep'.2.2
        by_cases hin : split + (step + 1) / 2 < L
        · have : ¬ (split + (step + 1) / 2 ≤ p) := by
            intro hle
            exact hb ⟨hin, (htest _ (by omega) hin).mpr hle⟩
          omega
        · omega
    · simp only [splitLoop, if_neg hg]
      omega

section Karras

variable {codes : ℕ → ℕ} {n : ℕ}
variable (hn : n ≤ 2 ^ 30) (hc : ∀ a, a < n → codes a < 2 ^ 30)
variable (hs : ∀ a b, a ≤ b → b < n → codes a ≤ codes b)

include hn hc hs in
/-- `find_split` returns the first position of the maximal adjacent
highest-differing-bit value inside the range. -/
theorem find_split_eq {F L p : ℕ} (hFL : F < L) (hLn : L < n)
    (hpF : F ≤ p) (hpL : p < L)
    (hfirst : ∀ x, F ≤ x → x < p → DD codes x < DD codes p)
    (hmaxp : ∀ x, F ≤ x → x < L → DD codes x ≤ DD codes p) :
    find_split codes (F : ℤ) (L : ℤ) = (p : ℤ) := by
  have hXLp : XL codes F L = DD codes p := by
    obtain ⟨q, hq1, hq2, hq3⟩ := XL_attained hn hc hs hFL hLn
    have h1 := hmaxp q hq1 hq2
    have h2 := XL_ge_DD hn hc hs hpF hpL hLn
    omega
  have hDD64 : DD codes p ≤ 64 := by
    unfold DD
    exact XL_le_64 hn hc (by omega) (by omega)
  simp only [find_split, Int.toNat_natCast]
  have hbrFL : common_prefix_len (codes F) (codes L) F L =
      64 - XL codes F L := by
    have := common_prefix_len_eq_kkey
      (lt_of_lt_of_le (hc F (by omega)) (by norm_num))
      (lt_of_lt_of_le (hc L hLn) (by norm_num))
      (lt_of_lt_of_le (lt_of_lt_of_le (show F < n by omega) hn) (by norm_num))
      (lt_of_lt_of_le (lt_of_lt_of_le hLn hn) (by norm_num))
    exact this
  refine splitLoop_spec (codes F) codes (F : ℤ) (L : ℤ)
    (common_prefix_len (codes F) (codes L) F L) (p : ℤ) ?_ (by omega)
    (by omega) 64 (F : ℤ) ((L : ℤ) - (F : ℤ)) (le_refl _) (by omega)
    (by omega) ?_
  · intro s hFs hsL
    have hs0 : 0 ≤ s := by omega
    have htn : s.toNat < n := by omega
    have htF : F < s.toNat := by omega
    have htL : s.toNat < L := by omega
    have hbrFs : common_prefix_len (codes F) (codes s.toNat) F s.toNat =
        64 - XL codes F s.toNat := by
      exact common_prefix_len_eq_kkey
        (lt_of_lt_of_le (hc F (by omega)) (by norm_num))
        (lt_of_lt_of_le (hc s.toNat htn) (by norm_num))
        (lt_of_lt_of_le (lt_of_lt_of_le (show F < n by omega) hn) (by norm_num))
        (lt_of_lt_of_le (lt_of_lt_of_le htn hn) (by norm_num))
    rw [Int.toNat_natCast, hbrFs, hbrFL, hXLp]
    have hXLs64 : XL codes F s.toNat ≤ 64 := XL_le_64 hn hc (by omega) htn
    constructor
    · intro hgt
      have hlt : XL codes F s.toNat < DD codes p := by omega
      by_contra hsp
      push_neg at hsp
      have : DD codes p ≤ XL codes F s.toNat :=
        XL_ge_DD hn hc hs hpF (by omega) htn
      omega
    · intro hsp
      obtain ⟨q, hq1, hq2, hq3⟩ := XL_attained hn hc hs htF htn
      have : DD codes q < DD codes p := hfirst q hq1 (by omega)
      omega
  · have hn64 : (n : ℤ) ≤ 2 ^ 30 := by exact_mod_cast hn
    have : (2:ℤ) ^ 30 ≤ 2 ^ 64 := by norm_num
    omega

include hn hc hs in
/-- `determine_range` at the low end of a dominated range: node `F`
covering `[F, L]` (the root, or a right child). -/
theorem dr_low (hn2 : 2 ≤ n) {F L : ℕ} (hFL : F < L) (hLn : L ≤ n - 1)
    (hbF : F = 0 ∨ ∀ x, F ≤ x → x < L → DD codes x < DD codes (F - 1))
    (hroot : F = 0 → L = n - 1)
    (hcmp : 0 < F → L = n - 1 ∨ DD codes (F - 1) < DD codes L) :
    determine_range codes F n = ((F : ℤ), (L : ℤ)) := by
  have hFn : F < n := by omega
  have hF1n : F + 1 < n := by omega
  -- the two boundary deltas
  have hd_r : delta (codes F) codes F ((F : ℤ) + 1) n =
      64 - (DD codes F : ℤ) := by
    rw [delta_eq hn hc hFn]
    rw [if_pos (by constructor <;> omega)]
    have : ((F : ℤ) + 1).toNat = F + 1 := by omega
    rw [this]
    rfl
  have hDDF64 : DD codes F ≤ 64 := XL_le_64 hn hc hFn hF1n
  have hDDF1 : 1 ≤ DD codes F := XL_pos hn hc hs hFn hF1n (by omega)
  rcases Nat.eq_zero_or_pos F with hF0 | hFpos
  · -- the root: F = 0, L = n - 1
    subst hF0
    have hLn1 : L = n - 1 := hroot rfl
    subst hLn1
    have hd_l : delta (codes 0) codes 0 ((0 : ℕ) + (-1) : ℤ) n = -1 := by
      rw [delta_eq hn hc hFn]
      rw [if_neg (by push_neg; intro h; omega)]
    have hd_l' : delta (codes 0) codes 0 ((0 : ℕ) - 1 : ℤ) n = -1 := by
      have : ((0 : ℕ) - 1 : ℤ) = ((0 : ℕ) + (-1) : ℤ) := by ring
      rw [this, hd_l]
    refine Eq.trans (determine_range_spec codes n 0 hFn hn 1 (-1)
      ((n : ℤ) - 1 - 0) (Or.inl rfl) ?_ ?_ (by omega) (by omega) (by omega)
      ?_ ?_ ?_) ?_
    · rw [hd_l']
      push_cast at hd_r ⊢
      rw [hd_r]
      unfold wpSign
      rw [if_neg (by omega)]
    · rw [hd_l']
      push_cast at hd_r ⊢
      rw [hd_r]
      omega
    · -- downward closure, trivial since the threshold is -1
      intro a b ha hab hpb
      rw [delta_eq hn hc hFn] at hpb ⊢
      by_cases hin : 0 ≤ ((0:ℕ) : ℤ) + a * 1 ∧ ((0:ℕ) : ℤ) + a * 1 < n
      · rw [if_pos hin]
        have hat : (((0:ℕ) : ℤ) + a * 1).toNat < n := by omega
        have : XL codes 0 (((0:ℕ) : ℤ) + a * 1).toNat ≤ 64 :=
          XL_le_64 hn hc hFn hat
        omega
      · exfalso
        rw [if_neg (by push_neg; intro h; push_neg at hin; omega)] at hpb
        omega
    · -- L - F itself passes
      rw [delta_eq hn hc hFn]
      rw [if_pos (by constructor <;> omega)]
      have hat : (((0:ℕ) : ℤ) + ((n : ℤ) - 1 - 0) * 1).toNat < n := by omega
      have : XL codes 0 ((((0:ℕ) : ℤ) + ((n : ℤ) - 1 - 0) * 1)).toNat ≤ 64 :=
        XL_le_64 hn hc hFn hat
      omega
    · -- nothing beyond n - 1 passes
      intro l hpl
      rw [delta_eq hn hc hFn] at hpl
      by_cases hin : 0 ≤ ((0:ℕ) : ℤ) + l * 1 ∧ ((0:ℕ) : ℤ) + l * 1 < n
      · omega
      · rw [if_neg hin] at hpl
        omega
    · have he : ((0:ℕ) : ℤ) + ((n : ℤ) - 1 - 0) * 1 = (n : ℤ) - 1 := by ring
      rw [he]
      have h1 : min ((0:ℕ) : ℤ) ((n : ℤ) - 1) = ((0:ℕ) : ℤ) := by omega
      have h2 : max ((0:ℕ) : ℤ) ((n : ℤ) - 1) = (n : ℤ) - 1 := by omega
      rw [h1, h2, Nat.cast_sub (by omega : 1 ≤ n)]
      norm_num
  · -- a right child: F > 0
    have hbF' : ∀ x, F ≤ x → x < L → DD codes x < DD codes (F - 1) := by
      rcases hbF with h | h
      · omega
      · exact h
    have hF1 : F - 1 < n := by omega
    have hDDF1' : DD codes (F - 1) ≤ 64 := by
      unfold DD
      have : F - 1 + 1 = F := by omega
      rw [this]
      exact XL_le_64 hn hc hF1 hFn
    have hDDFlt : DD codes F < DD codes (F - 1) := hbF' F (le_refl F) hFL
    have hd_l : delta (codes F) codes F ((F : ℤ) - 1) n =
        64 - (DD codes (F - 1) : ℤ) := by
      rw [delta_eq hn hc hFn]
      rw [if_pos (by constructor <;> omega)]
      have ht : ((F : ℤ) - 1).toNat = F - 1 := by omega
      rw [ht]
      have hx : XL codes F (F - 1) = DD codes (F - 1) := by
        unfold DD
        have : F - 1 + 1 = F := by omega
        rw [this]
        exact XL_sym F (F - 1)
      rw [hx]
    refine Eq.trans (determine_range_spec codes n F hFn hn 1
      (64 - (DD codes (F - 1) : ℤ)) ((L : ℤ) - (F : ℤ)) (Or.inl rfl)
      ?_ ?_ (by omega) (by
        have h1 : 1 ≤ DD codes (F - 1) := by omega
        omega) (by omega) ?_ ?_ ?_) ?_
    · rw [hd_l, hd_r]
      unfold wpSign
      rw [if_neg (by omega)]
    · rw [hd_l, hd_r]
      omega
    · -- downward closure via triangle monotonicity
      intro a b ha hab hpb
      rw [delta_eq hn hc hFn] at hpb ⊢
      have hinb : 0 ≤ (F : ℤ) + b * 1 ∧ (F : ℤ) + b * 1 < n := by
        by_contra hin
        rw [if_neg hin] at hpb
        omega
      rw [if_pos hinb] at hpb
      rw [if_pos (by constructor <;> omega)]
      have hbt : ((F : ℤ) + b * 1).toNat = F + b.toNat := by omega
      have hat : ((F : ℤ) + a * 1).toNat = F + a.toNat := by omega
      rw [hbt] at hpb
      rw [hat]
      rcases Nat.eq_zero_or_pos a.toNat with ha0 | hapos
      · rw [ha0]
        have : XL codes F (F + 0) = 0 := XL_self F
        omega
      · rcases Nat.lt_or_ge a.toNat b.toNat with hab' | hab'
        · have htri := XL_triangle hn hc hs
            (show F < F + a.toNat by omega)
            (show F + a.toNat < F + b.toNat by omega)
            (show F + b.toNat < n by omega)
          omega
        · have : a.toNat = b.toNat := by omega
          rw [this]
          exact hpb
    · -- the full range passes
      rw [delta_eq hn hc hFn]
      rw [if_pos (by constructor <;> omega)]
      have ht : ((F : ℤ) + ((L : ℤ) - (F : ℤ)) * 1).toNat = L := by omega
      rw [ht]
      obtain ⟨q, hq1, hq2, hq3⟩ := XL_attained hn hc hs hFL (by omega)
      have := hbF' q hq1 hq2
      omega
    · -- nothing beyond L passes
      intro l hpl
      rw [delta_eq hn hc hFn] at hpl
      have hinl : 0 ≤ (F : ℤ) + l * 1 ∧ (F : ℤ) + l * 1 < n := by
        by_contra hin
        rw [if_neg hin] at hpl
        omega
      rw [if_pos hinl] at hpl
      by_contra hgt
      push_neg at hgt
      have hlt : ((F : ℤ) + l * 1).toNat = F + l.toNat := by omega
      rw [hlt] at hpl
      have hLin : L < F + l.toNat := by omega
      rcases hcmp hFpos with hLn1 | hcm
      · omega
      · have hge : DD codes L ≤ XL codes F (F + l.toNat) :=
          XL_ge_DD hn hc hs (by omega) hLin (by omega)
        omega
    · have he : (F : ℤ) + ((L : ℤ) - (F : ℤ)) * 1 = (L : ℤ) := by ring
      rw [he]
      have h1 : min (F : ℤ) (L : ℤ) = (F : ℤ) := by omega
      have h2 : max (F : ℤ) (L : ℤ) = (L : ℤ) := by omega
      rw [h1, h2]

end Karras

section Karras

variable {codes : ℕ → ℕ} {n : ℕ}
variable (hn : n ≤ 2 ^ 30) (hc : ∀ a, a < n → codes a < 2 ^ 30)
variable (hs : ∀ a b, a ≤ b → b < n → codes a ≤ codes b)

include hn hc hs in
/-- `determine_range` at the high end of a dominated range: node `L`
covering `[F, L]` (a left child). -/
theorem dr_high (hn2 : 2 ≤ n) {F L : ℕ} (hFL : F < L) (hLn : L < n - 1)
    (hbL : ∀ x, F ≤ x → x < L → DD codes x < DD codes L)
    (hbF : F = 0 ∨ ((∀ x, F ≤ x → x < L → DD codes x < DD codes (F - 1)) ∧
      DD codes L < DD codes (F - 1))) :
    determine_range codes L n = ((F : ℤ), (L : ℤ)) := by
  have hLn' : L < n := by omega
  have hL1n : L + 1 < n := by omega
  have hL1 : 1 ≤ L := by omega
  have hDDL64 : DD codes L ≤ 64 := XL_le_64 hn hc hLn' hL1n
  have hDDL1 : 1 ≤ DD codes L := XL_pos hn hc hs hLn' hL1n (by omega)
  have hDDL1' : DD codes (L - 1) < DD codes L := hbL (L - 1) (by omega) (by omega)
  have hd_r : delta (codes L) codes L ((L : ℤ) + 1) n =
      64 - (DD codes L : ℤ) := by
    rw [delta_eq hn hc hLn']
    rw [if_pos (by constructor <;> omega)]
    have : ((L : ℤ) + 1).toNat = L + 1 := by omega
    rw [this]
    rfl
  have hd_l : delta (codes L) codes L ((L : ℤ) - 1) n =
      64 - (DD codes (L - 1) : ℤ) := by
    rw [delta_eq hn hc hLn']
    rw [if_pos (by constructor <;> omega)]
    have ht : ((L : ℤ) - 1).toNat = L - 1 := by omega
    rw [ht]
    have hx : XL codes L (L - 1) = DD codes (L - 1) := by
      unfold DD
      have : L - 1 + 1 = L := by omega
      rw [this]
      exact XL_sym L (L - 1)
    rw [hx]
  have hDDL164 : DD codes (L - 1) ≤ 64 := by omega
  refine Eq.trans (determine_range_spec codes n L hLn' hn (-1)
    (64 - (DD codes L : ℤ)) ((L : ℤ) - (F : ℤ)) (Or.inr rfl)
    ?_ ?_ (by omega) (by omega) (by omega) ?_ ?_ ?_) ?_
  · rw [hd_l, hd_r]
    unfold wpSign
    rw [if_pos (by omega)]
  · rw [hd_l, hd_r]
    omega
  · -- downward closure
    intro a b ha hab hpb
    rw [delta_eq hn hc hLn'] at hpb ⊢
    have hinb : 0 ≤ (L : ℤ) + b * (-1) ∧ (L : ℤ) + b * (-1) < n := by
      by_contra hin
      rw [if_neg hin] at hpb
      omega
    rw [if_pos hinb] at hpb
    rw [if_pos (by constructor <;> omega)]
    have hbt : ((L : ℤ) + b * (-1)).toNat = L - b.toNat := by omega
    have hat : ((L : ℤ) + a * (-1)).toNat = L - a.toNat := by omega
    have hbtoN : b.toNat ≤ L := by omega
    rw [hbt] at hpb
    rw [hat]
    rcases Nat.eq_zero_or_pos a.toNat with ha0 | hapos
    · rw [ha0]
      have he : L - 0 = L := by omega
      rw [he]
      have : XL codes L L = 0 := XL_self L
      omega
    · rcases Nat.lt_or_ge a.toNat b.toNat with hab' | hab'
      · have hsym1 : XL codes L (L - a.toNat) = XL codes (L - a.toNat) L :=
          XL_sym L (L - a.toNat)
        have hsym2 : XL codes L (L - b.toNat) = XL codes (L - b.toNat) L :=
          XL_sym L (L - b.toNat)
        have htri := XL_triangle hn hc hs
          (show L - b.toNat < L - a.toNat by omega)
          (show L - a.toNat < L by omega) hLn'
        omega
      · have : a.toNat = b.toNat := by omega
        rw [this]
        exact hpb
  · -- the full range passes
    rw [delta_eq hn hc hLn']
    rw [if_pos (by constructor <;> omega)]
    have ht : ((L : ℤ) + ((L : ℤ) - (F : ℤ)) * (-1)).toNat = F := by omega
    rw [ht]
    have hsym : XL codes L F = XL codes F L := XL_sym L F
    obtain ⟨q, hq1, hq2, hq3⟩ := XL_attained hn hc hs hFL hLn'
    have := hbL q hq1 hq2
    omega
  · -- nothing before F passes
    intro l hpl
    rw [delta_eq hn hc hLn'] at hpl
    have hinl : 0 ≤ (L : ℤ) + l * (-1) ∧ (L : ℤ) + l * (-1) < n := by
      by_contra hin
      rw [if_neg hin] at hpl
      omega
    rw [if_pos hinl] at hpl
    by_contra hgt
    push_neg at hgt
    have hlt : ((L : ℤ) + l * (-1)).toNat = L - l.toNat := by omega
    have hl0 : 0 ≤ l := by omega
    have hltoN : l.toNat ≤ L := by omega
    have hjF : L - l.toNat < F := by omega
    rw [hlt] at hpl
    have hsym : XL codes L (L - l.toNat) = XL codes (L - l.toNat) L :=
      XL_sym L (L - l.toNat)
    rcases hbF with hF0 | ⟨hdom, hcm⟩
    · omega
    · have hF1 : 1 ≤ F := by omega
      have hge : DD codes (F - 1) ≤ XL codes (L - l.toNat) L :=
        XL_ge_DD hn hc hs (by omega) (by omega) hLn'
      omega
  · have he : (L : ℤ) + ((L : ℤ) - (F : ℤ)) * (-1) = (F : ℤ) := by ring
    rw [he]
    have h1 : min (L : ℤ) (F : ℤ) = (F : ℤ) := by omega
    have h2 : max (L : ℤ) (F : ℤ) = (L : ℤ) := by omega
    rw [h1, h2]

end Karras

/-! ## The canonical radix tree

`canonSub codes side F L` is the radix tree over the sorted-leaf interval
`[F, L]`, built by recursive splitting at the first position of the
maximal adjacent highest-differing-bit value — exactly the Karras tree.
`Side` records whether the subtree's node id is the low or the high end
of its interval (the root and right children use the low end, left
children the high end). -/

/-- A binary tree of node ids: leaves store sorted-leaf positions,
internal nodes their id in `[0, N-1)`. -/
inductive BTree where
  | leaf (k : ℕ)
  | node (i : ℕ) (l : BTree) (r : BTree)
deriving DecidableEq, Repr

/-- Node id of a tree root: leaf `k` lives at id `N - 1 + k`. -/
def nid (n : ℕ) : BTree → ℕ
  | .leaf k => n - 1 + k
  | .node i _ _ => i

/-- All node ids of a tree, root first. -/
def idsT (n : ℕ) : BTree → List ℕ
  | .leaf k => [n - 1 + k]
  | .node i l r => i :: (idsT n l ++ idsT n r)

/-- The tree is represented by the kernel's child arrays: every internal
node's `left_nodes` / `right_nodes` entries are its children's ids. -/
def RepT (codes : ℕ → ℕ) (n : ℕ) : BTree → Prop
  | .leaf k => k < n
  | .node i l r => i < n - 1 ∧
      left_nodes codes n i = (nid n l : ℤ) ∧
      right_nodes codes n i = (nid n r : ℤ) ∧
      RepT codes n l ∧ RepT codes n r

/-- Which end of its interval names a canonical subtree. -/
inductive Side where
  | low
  | high
deriving DecidableEq, Repr

/-- The node id of a canonical range. -/
def sideId : Side → ℕ → ℕ → ℕ
  | .low, F, _ => F
  | .high, _, L => L

/-- Low end of the internal-id interval of a canonical subtree. -/
def intLo : Side → ℕ → ℕ → ℕ
  | .low, F, _ => F
  | .high, F, _ => F + 1

/-- High end of the internal-id interval of a canonical subtree. -/
def intHi : Side → ℕ → ℕ → ℕ
  | .low, _, L => L - 1
  | .high, _, L => L

/-- The boundary-dominance invariant of canonical ranges (with the
side-specific boundary comparison used by `determine_range`). -/
def GoodSide (codes : ℕ → ℕ) (n : ℕ) : Side → ℕ → ℕ → Prop
  | .low, F, L =>
      (F = 0 ∨ ∀ x, F ≤ x → x < L → DD codes x < DD codes (F - 1)) ∧
      (F = 0 → L = n - 1) ∧
      (0 < F → (L = n - 1 ∨ DD codes (F - 1) < DD codes L)) ∧
      (L = n - 1 ∨ ∀ x, F ≤ x → x < L → DD codes x < DD codes L)
  | .high, F, L =>
      L < n - 1 ∧
      (∀ x, F ≤ x → x < L → DD codes x < DD codes L) ∧
      (F = 0 ∨ ((∀ x, F ≤ x → x < L → DD codes x < DD codes (F - 1)) ∧
        DD codes L < DD codes (F - 1)))

/-- The canonical Karras subtree over `[F, L]` (the split position is
clamped into the interval only to make the recursion well founded; the
clamp is the identity whenever the interval is sorted, which the
correctness proof shows). -/
def canonSub (codes : ℕ → ℕ) (side : Side) (F L : ℕ) : BTree :=
  if h : L ≤ F then .leaf F
  else
    let s := (find_split codes (F : ℤ) (L : ℤ)).toNat
    let s' := min (max s F) (L - 1)
    BTree.node (sideId side F L)
      (canonSub codes .high F s')
      (canonSub codes .low (s' + 1) L)
termination_by L - F
decreasing_by
  · omega
  · omega

section Karras

variable {codes : ℕ → ℕ} {n : ℕ}
variable (hn : n ≤ 2 ^ 30) (hc : ∀ a, a < n → codes a < 2 ^ 30)
variable (hs : ∀ a b, a ≤ b → b < n → codes a ≤ codes b)

include hn hc hs in
/-- Existence of the canonical split: the first position of the maximal
adjacent value, which is a strict maximum on both sides. -/
theorem exists_split {F L : ℕ} (hFL : F < L) (hLn : L < n) :
    ∃ p, F ≤ p ∧ p < L ∧
      (∀ x, F ≤ x → x < p → DD codes x < DD codes p) ∧
      (∀ x, F ≤ x → x < L → DD codes x ≤ DD codes p) ∧
      (∀ x, p < x → x < L → DD codes x < DD codes p) := by
  have hex : ∃ q, F ≤ q ∧ q < L ∧ DD codes q = XL codes F L := by
    obtain ⟨q, h1, h2, h3⟩ := XL_attained hn hc hs hFL hLn
    exact ⟨q, h1, h2, h3.symm⟩
  -- take the least such position
  refine ⟨Nat.find hex, ?_⟩
  obtain ⟨hp1, hp2, hp3⟩ := Nat.find_spec hex
  have hub : ∀ x, F ≤ x → x < L → DD codes x ≤ XL codes F L := by
    intro x h1 h2
    exact XL_ge_DD hn hc hs h1 h2 hLn
  refine ⟨hp1, hp2, ?_, ?_, ?_⟩
  · intro x h1 h2
    have hne : DD codes x ≠ XL codes F L := by
      intro heq
      exact Nat.find_min hex h2 ⟨h1, by omega, heq⟩
    have := hub x h1 (by omega)
    omega
  · intro x h1 h2
    have := hub x h1 h2
    omega
  · intro x h1 h2
    have hle := hub x (by omega) h2
    by_contra hge
    push_neg at hge
    have heq : DD codes (Nat.find hex) = DD codes x := by omega
    obtain ⟨z, hz1, hz2, hz3⟩ := DD_valley hn hc hs h1 (by omega) heq
    have := hub z (by omega) (by omega)
    omega

end Karras

theorem canonSub_leaf (codes : ℕ → ℕ) (side : Side) (F : ℕ) :
    canonSub codes side F F = .leaf F := by
  rw [canonSub]
  rw [dif_pos (le_refl F)]

section Karras

variable {codes : ℕ → ℕ} {n : ℕ}
variable (hn : n ≤ 2 ^ 30) (hc : ∀ a, a < n → codes a < 2 ^ 30)
variable (hs : ∀ a b, a ≤ b → b < n → codes a ≤ codes b)

include hn hc hs in
/-- The master induction: on every dominated range the canonical subtree
is represented by the kernel's child arrays, is rooted at the side id,
and its node ids enumerate the internal interval and the leaf interval
exactly once each. -/
theorem canon_master :
    ∀ m F L side, L - F = m → F < L → L ≤ n - 1 →
      GoodSide codes n side F L →
      RepT codes n (canonSub codes side F L) ∧
      nid n (canonSub codes side F L) = sideId side F L ∧
      ∀ v : ℕ, (idsT n (canonSub codes side F L)).count v =
        (if (intLo side F L ≤ v ∧ v ≤ intHi side F L) ∨
            (n - 1 + F ≤ v ∧ v ≤ n - 1 + L) then 1 else 0) := by
  intro m
  induction m using Nat.strong_induction_on with
  | _ m ih =>
  intro F L side hm hFL hLn hgood
  have hn2 : 2 ≤ n := by omega
  obtain ⟨p, hpF, hpL, hfirst, hmaxp, hstrict⟩ :=
    exists_split hn hc hs hFL (by omega)
  have hfs : find_split codes (F : ℤ) (L : ℤ) = (p : ℤ) :=
    find_split_eq hn hc hs hFL (by omega) hpF hpL hfirst hmaxp
  have hs'eq : min (max (find_split codes (F : ℤ) (L : ℤ)).toNat F) (L - 1)
      = p := by
    rw [hfs, Int.toNat_natCast]
    omega
  have hT : canonSub codes side F L =
      BTree.node (sideId side F L) (canonSub codes .high F p)
        (canonSub codes .low (p + 1) L) := by
    conv_lhs => rw [canonSub]
    rw [dif_neg (by omega : ¬ L ≤ F)]
    show BTree.node (sideId side F L)
      (canonSub codes .high F
        (min (max (find_split codes (F : ℤ) (L : ℤ)).toNat F) (L - 1)))
      (canonSub codes .low
        ((min (max (find_split codes (F : ℤ) (L : ℤ)).toNat F) (L - 1)) + 1)
        L) = _
    rw [hs'eq]
  -- the kernel's range for this node
  have hdr : determine_range codes (sideId side F L) n = ((F : ℤ), (L : ℤ)) := by
    cases side with
    | low =>
      obtain ⟨g1, g2, g3, g4⟩ := hgood
      exact dr_low hn hc hs hn2 hFL hLn g1 g2 g3
    | high =>
      obtain ⟨g1, g2, g3⟩ := hgood
      exact dr_high hn hc hs hn2 hFL g1 g2 g3
  -- the left subtree
  have hleftsub : RepT codes n (canonSub codes .high F p) ∧
      nid n (canonSub codes .high F p) = (if F = p then n - 1 + F else p) ∧
      ∀ v : ℕ, (idsT n (canonSub codes .high F p)).count v =
        (if (F + 1 ≤ v ∧ v ≤ p) ∨ (n - 1 + F ≤ v ∧ v ≤ n - 1 + p)
          then 1 else 0) := by
    rcases Nat.eq_or_lt_of_le hpF with hFp | hFp
    · subst hFp
      rw [canonSub_leaf]
      refine ⟨(by omega : F < n), by simp [nid], ?_⟩
      intro v
      simp only [idsT, List.count_cons, List.count_nil, beq_iff_eq]
      split_ifs <;> omega
    · have hph : GoodSide codes n .high F p := by
        refine ⟨by omega, hfirst, ?_⟩
        cases side with
        | low =>
          obtain ⟨g1, g2, g3, g4⟩ := hgood
          rcases g1 with h0 | hdom
          · exact Or.inl h0
          · exact Or.inr ⟨fun x h1 h2 => hdom x h1 (by omega),
              hdom p hpF (by omega)⟩
        | high =>
          obtain ⟨g1, g2, g3⟩ := hgood
          rcases g3 with h0 | ⟨hdom, hcm⟩
          · exact Or.inl h0
          · exact Or.inr ⟨fun x h1 h2 => hdom x h1 (by omega),
              hdom p hpF (by omega)⟩
      obtain ⟨r1, r2, r3⟩ := ih (p - F) (by omega) F p .high rfl hFp
        (by omega) hph
      refine ⟨r1, ?_, ?_⟩
      · rw [r2]
        simp only [sideId]
        rw [if_neg (by omega)]
      · intro v
        rw [r3 v]
        simp only [intLo, intHi]
  -- the right subtree
  have hparentL : L = n - 1 ∨ ∀ x, F ≤ x → x < L → DD codes x < DD codes L := by
    cases side with
    | low => exact hgood.2.2.2
    | high => exact Or.inr hgood.2.1
  have hrightsub : RepT codes n (canonSub codes .low (p + 1) L) ∧
      nid n (canonSub codes .low (p + 1) L) =
        (if p + 1 = L then n - 1 + L else p + 1) ∧
      ∀ v : ℕ, (idsT n (canonSub codes .low (p + 1) L)).count v =
        (if (p + 1 ≤ v ∧ v ≤ L - 1) ∨
            (n - 1 + (p + 1) ≤ v ∧ v ≤ n - 1 + L) then 1 else 0) := by
    rcases Nat.eq_or_lt_of_le (show p + 1 ≤ L by omega) with hPL | hPL
    · rw [← hPL, canonSub_leaf]
      refine ⟨(by omega : p + 1 < n), by simp [nid], ?_⟩
      intro v
      simp only [idsT, List.count_cons, List.count_nil, beq_iff_eq]
      split_ifs <;> omega
    · have hpl : GoodSide codes n .low (p + 1) L := by
        have hpp : p + 1 - 1 = p := by omega
        refine ⟨?_, ?_, ?_, ?_⟩
        · right
          intro x h1 h2
          rw [hpp]
          exact hstrict x (by omega) h2
        · intro h0
          omega
        · intro h1
          by_cases hLn1 : L = n - 1
          · exact Or.inl hLn1
          · right
            rw [hpp]
            rcases hparentL with h | hdom
            · omega
            · exact hdom p hpF hpL
        · by_cases hLn1 : L = n - 1
          · exact Or.inl hLn1
          · right
            intro x h1 h2
            rcases hparentL with h | hdom
            · omega
            · exact hdom x (by omega) h2
      obtain ⟨r1, r2, r3⟩ := ih (L - (p + 1)) (by omega) (p + 1) L .low rfl
        hPL hLn hpl
      refine ⟨r1, ?_, ?_⟩
      · rw [r2]
        simp only [sideId]
        rw [if_neg (by omega)]
      · intro v
        rw [r3 v]
        simp only [intLo, intHi]
  -- the kernel's child slots point at the two subtrees
  have hleftval : left_nodes codes n (sideId side F L) =
      (nid n (canonSub codes .high F p) : ℤ) := by
    simp only [left_nodes, karrasNode]
    rw [hdr]
    simp only []
    rw [hfs, hleftsub.2.1]
    by_cases hFp : F = p
    · rw [if_pos (by exact_mod_cast hFp), if_pos hFp]
      push_cast
      omega
    · rw [if_neg (by exact_mod_cast hFp), if_neg hFp]
  have hrightval : right_nodes codes n (sideId side F L) =
      (nid n (canonSub codes .low (p + 1) L) : ℤ) := by
    simp only [right_nodes, karrasNode]
    rw [hdr]
    simp only []
    rw [hfs, hrightsub.2.1]
    by_cases hPL : p + 1 = L
    · rw [if_pos (by exact_mod_cast hPL.symm), if_pos hPL]
      push_cast
      omega
    · rw [if_neg ?_, if_neg hPL]
      · push_cast
        omega
      · intro hcast
        exact hPL (by exact_mod_cast hcast.symm)
  refine ⟨?_, ?_, ?_⟩
  · rw [hT]
    refine ⟨?_, hleftval, hrightval, hleftsub.1, hrightsub.1⟩
    cases side with
    | low =>
      simp only [sideId]
      omega
    | high =>
      simp only [sideId]
      have := hgood.1
      omega
  · rw [hT]
    rfl
  · intro v
    rw [hT]
    simp only [idsT, List.count_cons, List.count_append, beq_iff_eq]
    rw [hleftsub.2.2 v, hrightsub.2.2 v]
    cases side with
    | low =>
      simp only [sideId, intLo, intHi]
      split_ifs <;> omega
    | high =>
      simp only [sideId, intLo, intHi]
      have := hgood.1
      split_ifs <;> omega

end Karras

/-! ## From the canonical tree to the parent array

The construction kernel's concurrent writes go to the child slots of the
tree.  The bookkeeping below shows every thread's two child ids are the
children of its unique occurrence in the canonical tree, each non-root id
receives exactly one write, and id 0 receives only thread 0's final
`parent_nodes[0] = -1`. -/

/-- The internal nodes of a tree with their children's ids. -/
def intNodes (n : ℕ) : BTree → List (ℕ × ℕ × ℕ)
  | .leaf _ => []
  | .node i l r => (i, nid n l, nid n r) :: (intNodes n l ++ intNodes n r)

theorem intNodes_mem {codes : ℕ → ℕ} {n : ℕ} :
    ∀ T : BTree, RepT codes n T → ∀ i a b : ℕ, (i, a, b) ∈ intNodes n T →
      i < n - 1 ∧ left_nodes codes n i = (a : ℤ) ∧
        right_nodes codes n i = (b : ℤ) := by
  intro T
  induction T with
  | leaf k =>
    intro _ i a b hmem
    simp [intNodes] at hmem
  | node j l r ihl ihr =>
    intro hrep i a b hmem
    obtain ⟨h1, h2, h3, h4, h5⟩ := hrep
    simp only [intNodes, List.mem_cons, List.mem_append] at hmem
    rcases hmem with he | hm | hm
    · rw [Prod.mk.injEq, Prod.mk.injEq] at he
      obtain ⟨e1, e2, e3⟩ := he
      subst e1
      subst e2
      subst e3
      exact ⟨h1, h2, h3⟩
    · exact ihl h4 i a b hm
    · exact ihr h5 i a b hm

theorem intNodes_fst_count {n : ℕ} :
    ∀ T : BTree, ∀ i, i < n - 1 →
      ((intNodes n T).map (fun t => t.1)).count i = (idsT n T).count i := by
  intro T
  induction T with
  | leaf k =>
    intro i hi
    simp only [intNodes, idsT, List.map_nil, List.count_nil,
      List.count_cons, List.count_nil, beq_iff_eq]
    rw [if_neg (by omega)]
  | node j l r ihl ihr =>
    intro i hi
    simp only [intNodes, idsT, List.map_cons, List.map_append,
      List.count_cons, List.count_append, beq_iff_eq]
    rw [ihl i hi, ihr i hi]

theorem count_child_slots {n : ℕ} :
    ∀ T : BTree, ∀ v : ℕ,
      ((intNodes n T).flatMap (fun t => [t.2.1, t.2.2])).count v +
        (if v = nid n T then 1 else 0) = (idsT n T).count v := by
  intro T
  induction T with
  | leaf k =>
    intro v
    have hlf : nid n (BTree.leaf k) = n - 1 + k := rfl
    simp only [intNodes, idsT, List.flatMap_nil, List.count_nil,
      List.count_cons, beq_iff_eq, hlf]
    split_ifs <;> omega
  | node j l r ihl ihr =>
    intro v
    have h1 := ihl v
    have h2 := ihr v
    have hnn : nid n (BTree.node j l r) = j := rfl
    simp only [intNodes, idsT, List.flatMap_cons, List.flatMap_append,
      List.count_cons, List.count_append, List.count_nil, beq_iff_eq, hnn]
    split_ifs at h1 h2 ⊢ <;> omega

/-- The child-slot tuple the construction kernel produces for thread `i`. -/
def gSlot (codes : ℕ → ℕ) (n i : ℕ) : ℕ × ℕ × ℕ :=
  (i, (left_nodes codes n i).toNat, (right_nodes codes n i).toNat)

theorem count_range_eq (a k : ℕ) : (List.range k).count a =
    if a < k then 1 else 0 := by
  by_cases h : a < k
  · rw [if_pos h]
    have h1 : 0 < (List.range k).count a :=
      List.count_pos_iff.mpr (List.mem_range.mpr h)
    have h2 : (List.range k).count a ≤ 1 :=
      List.nodup_iff_count_le_one.mp (List.nodup_range k) a
    omega
  · rw [if_neg h]
    exact List.count_eq_zero.mpr (fun hm => h (List.mem_range.mp hm))

/-- Counting tuples in a list whose elements are determined by their key. -/
theorem count_by_key (g : ℕ → ℕ × ℕ × ℕ) (hg : ∀ i, (g i).1 = i) :
    ∀ (l : List (ℕ × ℕ × ℕ)) (t : ℕ × ℕ × ℕ), (∀ u ∈ l, u = g u.1) →
      l.count t =
        if t = g t.1 then (l.map (fun u => u.1)).count t.1 else 0 := by
  intro l
  induction l with
  | nil =>
    intro t _
    simp
  | cons u rest ih =>
    intro t hl
    have hu : u = g u.1 := hl u (List.mem_cons_self u rest)
    have hrest := ih t (fun w hw => hl w (List.mem_cons_of_mem u hw))
    simp only [List.count_cons, List.map_cons, beq_iff_eq]
    by_cases ht : t = g t.1
    · rw [if_pos ht, hrest, if_pos ht]
      by_cases hkey : t.1 = u.1
      · have hut : u = t := by rw [ht, hu, hkey]
        rw [if_pos hut, if_pos hkey.symm]
      · have hut : u ≠ t := fun he => hkey (by rw [he])
        rw [if_neg hut, if_neg (fun he => hkey he.symm)]
    · rw [if_neg ht, hrest, if_neg ht]
      have hut : u ≠ t := by
        intro he
        apply ht
        rw [← he]
        exact hu
      rw [if_neg hut]

section Karras

variable {codes : ℕ → ℕ} {n : ℕ}
variable (hn : n ≤ 2 ^ 30) (hc : ∀ a, a < n → codes a < 2 ^ 30)
variable (hs : ∀ a b, a ≤ b → b < n → codes a ≤ codes b)

include hn hc hs in
/-- The canonical root tree of a build with at least two leaves. -/
theorem root_tree (hn2 : 2 ≤ n) :
    RepT codes n (canonSub codes .low 0 (n - 1)) ∧
    nid n (canonSub codes .low 0 (n - 1)) = 0 ∧
    ∀ v, (idsT n (canonSub codes .low 0 (n - 1))).count v =
      if v ≤ 2 * n - 2 then 1 else 0 := by
  have hgood : GoodSide codes n .low 0 (n - 1) := by
    refine ⟨Or.inl rfl, fun _ => rfl, fun h => absurd h (lt_irrefl 0), Or.inl rfl⟩
  obtain ⟨r1, r2, r3⟩ := canon_master hn hc hs (n - 1) 0 (n - 1) .low rfl
    (by omega) (le_refl _) hgood
  refine ⟨r1, r2, ?_⟩
  intro v
  rw [r3 v]
  simp only [intLo, intHi]
  split_ifs <;> omega

/-- Counting in tuple lists is independent of the two available boolean
equality instances. -/
theorem count_prod_beq (t : ℕ × ℕ × ℕ) : ∀ l : List (ℕ × ℕ × ℕ),
    List.count t l = @List.count _ instBEqOfDecidableEq t l := by
  intro l
  induction l with
  | nil => rfl
  | cons u rest ih =>
    simp only [List.count_cons, beq_iff_eq, ih]
    congr 1
    by_cases h : u = t <;> simp [h, instBEqOfDecidableEq]

include hn hc hs in
/-- The kernel's child tuples are a permutation of the canonical tree's
internal nodes. -/
theorem intNodes_perm (hn2 : 2 ≤ n) :
    (intNodes n (canonSub codes .low 0 (n - 1))).Perm
      ((List.range (n - 1)).map (gSlot codes n)) := by
  obtain ⟨hrep, hroot, hcnt⟩ := root_tree hn hc hs hn2
  have hg1 : ∀ i, (gSlot codes n i).1 = i := fun i => rfl
  have hdet : ∀ u ∈ intNodes n (canonSub codes .low 0 (n - 1)),
      u = gSlot codes n u.1 := by
    intro u hu
    obtain ⟨u1, u2, u3⟩ := u
    obtain ⟨h1, h2, h3⟩ := intNodes_mem _ hrep u1 u2 u3 hu
    unfold gSlot
    simp only [Prod.mk.injEq]
    refine ⟨trivial, ?_, ?_⟩
    · rw [h2, Int.toNat_natCast]
    · rw [h3, Int.toNat_natCast]
  have hdet2 : ∀ u ∈ (List.range (n - 1)).map (gSlot codes n),
      u = gSlot codes n u.1 := by
    intro u hu
    obtain ⟨i, hi, he⟩ := List.mem_map.mp hu
    rw [← he, hg1 i]
  rw [List.perm_iff_count]
  intro t
  rw [← count_prod_beq, ← count_prod_beq]
  rw [count_by_key (gSlot codes n) hg1 _ t hdet,
    count_by_key (gSlot codes n) hg1 _ t hdet2]
  by_cases ht : t = gSlot codes n t.1
  · rw [if_pos ht, if_pos ht]
    have hmm : (((List.range (n - 1)).map (gSlot codes n)).map
        (fun u => u.1)) = List.range (n - 1) := by
      rw [List.map_map]
      have : ((fun u : ℕ × ℕ × ℕ => u.1) ∘ gSlot codes n) = id := by
        funext i
        rfl
      rw [this, List.map_id]
    rw [hmm, count_range_eq]
    by_cases hlt : t.1 < n - 1
    · rw [if_pos hlt, intNodes_fst_count _ t.1 hlt, hcnt t.1]
      rw [if_pos (by omega)]
    · rw [if_neg hlt]
      rw [List.count_eq_zero]
      intro hmem
      obtain ⟨u, hu, he⟩ := List.mem_map.mp hmem
      obtain ⟨u1, u2, u3⟩ := u
      obtain ⟨h1, _, _⟩ := intNodes_mem _ hrep u1 u2 u3 hu
      simp only at he
      omega
  · rw [if_neg ht, if_neg ht]

include hn hc hs in
/-- Every node id other than the root receives exactly one child-slot
write from the construction kernel; the root receives none. -/
theorem kernel_slot_count (hn2 : 2 ≤ n) :
    ∀ v : ℕ, ((List.range (n - 1)).flatMap
        (fun i => [(left_nodes codes n i).toNat,
          (right_nodes codes n i).toNat])).count v =
      if 1 ≤ v ∧ v ≤ 2 * n - 2 then 1 else 0 := by
  intro v
  obtain ⟨hrep, hroot, hcnt⟩ := root_tree hn hc hs hn2
  have hperm := intNodes_perm hn hc hs hn2
  have hcc := @count_child_slots n (canonSub codes .low 0 (n - 1)) v
  rw [hroot] at hcc
  -- rewrite both flat counts as sums over permuted lists
  have e1 : ((List.range (n - 1)).flatMap
      (fun i => [(left_nodes codes n i).toNat,
        (right_nodes codes n i).toNat])).count v =
      ((intNodes n (canonSub codes .low 0 (n - 1))).flatMap
        (fun t => [t.2.1, t.2.2])).count v := by
    rw [List.count_flatMap, List.count_flatMap]
    have hmapeq : (List.range (n - 1)).map
        ((fun l => List.count v l) ∘ (fun i => [(left_nodes codes n i).toNat,
          (right_nodes codes n i).toNat])) =
        ((List.range (n - 1)).map (gSlot codes n)).map
          ((fun l => List.count v l) ∘ (fun t : ℕ × ℕ × ℕ => [t.2.1, t.2.2])) := by
      rw [List.map_map]
      rfl
    rw [hmapeq]
    exact (((hperm.map _)).sum_eq).symm
  rw [e1]
  rw [hcnt v] at hcc
  split_ifs at hcc ⊢ <;> omega

end Karras

/-! ## Evaluating the parent-array fold -/

theorem thread_step_val (codes : ℕ → ℕ) (n i : ℕ) (v : ℕ)
    (hv : v = (left_nodes codes n i).toNat ∨ v = (right_nodes codes n i).toNat)
    (hvz : i = 0 → v ≠ 0) :
    ∀ q : ℕ → ℤ, applyWrites q (threadParentWrites codes n i) v = (i : ℤ) := by
  intro q
  by_cases hi : i = 0
  · subst hi
    have hv0 : v ≠ 0 := hvz rfl
    unfold threadParentWrites applyWrites
    rw [if_pos rfl]
    simp only [List.cons_append, List.nil_append, List.foldl_cons,
      List.foldl_nil, Function.update_apply]
    split_ifs <;> omega
  · simp only [threadParentWrites, if_neg hi, List.append_nil,
      applyWrites, List.foldl_cons, List.foldl_nil, Function.update_apply]
    split_ifs <;> omega

theorem thread_zero_val (codes : ℕ → ℕ) (n : ℕ) :
    ∀ q : ℕ → ℤ, applyWrites q (threadParentWrites codes n 0) 0 = -1 := by
  intro q
  unfold threadParentWrites applyWrites
  rw [if_pos rfl]
  simp only [List.cons_append, List.nil_append, List.foldl_cons,
    List.foldl_nil, Function.update_apply]
  simp

theorem thread_skip (codes : ℕ → ℕ) (n i : ℕ) (v : ℕ)
    (h1 : v ≠ (left_nodes codes n i).toNat)
    (h2 : v ≠ (right_nodes codes n i).toNat) (h3 : i = 0 → v ≠ 0) :
    ∀ q : ℕ → ℤ, applyWrites q (threadParentWrites codes n i) v = q v := by
  intro q
  by_cases hi : i = 0
  · subst hi
    have hv0 : v ≠ 0 := h3 rfl
    unfold threadParentWrites applyWrites
    rw [if_pos rfl]
    simp only [List.cons_append, List.nil_append, List.foldl_cons,
      List.foldl_nil, Function.update_apply]
    split_ifs <;> omega
  · simp only [threadParentWrites, if_neg hi, List.append_nil,
      applyWrites, List.foldl_cons, List.foldl_nil, Function.update_apply]
    split_ifs <;> omega

theorem fold_skip (codes : ℕ → ℕ) (n : ℕ) (v : ℕ) :
    ∀ (l : List ℕ) (p : ℕ → ℤ),
      (∀ i ∈ l, ∀ q, applyWrites q (threadParentWrites codes n i) v = q v) →
      (l.foldl (fun p i => applyWrites p (threadParentWrites codes n i)) p) v
        = p v := by
  intro l
  induction l with
  | nil => intro p _; rfl
  | cons j rest ih =>
    intro p h
    simp only [List.foldl_cons]
    rw [ih _ (fun i hi q => h i (List.mem_cons_of_mem j hi) q)]
    exact h j (List.mem_cons_self j rest) p

theorem fold_hit (codes : ℕ → ℕ) (n : ℕ) (v : ℕ) (i0 : ℕ) (val : ℤ)
    (hval : ∀ q, applyWrites q (threadParentWrites codes n i0) v = val) :
    ∀ (l : List ℕ) (p : ℕ → ℤ), i0 ∈ l → l.Nodup →
      (∀ i ∈ l, i ≠ i0 →
        ∀ q, applyWrites q (threadParentWrites codes n i) v = q v) →
      (l.foldl (fun p i => applyWrites p (threadParentWrites codes n i)) p) v
        = val := by
  intro l
  induction l with
  | nil => intro p h; simp at h
  | cons j rest ih =>
    intro p hmem hnd hothers
    simp only [List.foldl_cons]
    by_cases hj : j = i0
    · subst hj
      have hnot : j ∉ rest := (List.nodup_cons.mp hnd).1
      rw [fold_skip codes n v rest _ ?_]
      · exact hval p
      · intro i hi q
        exact hothers i (List.mem_cons_of_mem j hi)
          (fun he => hnot (he ▸ hi)) q
    · have hmem' : i0 ∈ rest := by
        rcases List.mem_cons.mp hmem with h | h
        · exact absurd h.symm hj
        · exact h
      exact ih _ hmem' (List.nodup_cons.mp hnd).2
        (fun i hi hne q => hothers i (List.mem_cons_of_mem j hi) hne q)

theorem count_two_blocks {k i i' v : ℕ} (f : ℕ → List ℕ) (hi : i < k)
    (hi' : i' < k) (hne : i ≠ i') (m1 : v ∈ f i) (m2 : v ∈ f i') :
    2 ≤ ((List.range k).flatMap f).count v := by
  rw [List.count_flatMap]
  have p1 : (List.range k).Perm (i :: (List.range k).erase i) :=
    List.perm_cons_erase (List.mem_range.mpr hi)
  have e1 : ((List.range k).map (List.count v ∘ f)).sum =
      ((i :: (List.range k).erase i).map (List.count v ∘ f)).sum :=
    (p1.map (List.count v ∘ f)).sum_eq
  rw [e1]
  simp only [List.map_cons, List.sum_cons, Function.comp_apply]
  have hc1 : 0 < (f i).count v := List.count_pos_iff.mpr m1
  have hi'' : i' ∈ (List.range k).erase i :=
    (List.mem_erase_of_ne hne.symm).mpr (List.mem_range.mpr hi')
  have hc2 : (f i').count v ≤
      (((List.range k).erase i).map (List.count v ∘ f)).sum :=
    List.single_le_sum (fun x _ => Nat.zero_le x) _
      (List.mem_map.mpr ⟨i', hi'', rfl⟩)
  have hc3 : 0 < (f i').count v := List.count_pos_iff.mpr m2
  omega

section Karras

variable {codes : ℕ → ℕ} {n : ℕ}
variable (hn : n ≤ 2 ^ 30) (hc : ∀ a, a < n → codes a < 2 ^ 30)
variable (hs : ∀ a b, a ≤ b → b < n → codes a ≤ codes b)

include hn hc hs in
/-- After the construction kernel, the parent entry of each child slot of
thread `i` is `i`, regardless of the array's previous contents. -/
theorem buildParent_child (hn2 : 2 ≤ n) {i : ℕ} (hi : i < n - 1) {v : ℕ}
    (hv : v = (left_nodes codes n i).toNat ∨
      v = (right_nodes codes n i).toNat) (p0 : ℕ → ℤ) :
    buildParent codes n p0 v = (i : ℤ) := by
  have hcount := kernel_slot_count hn hc hs hn2 v
  have hmem : v ∈ (List.range (n - 1)).flatMap
      (fun j => [(left_nodes codes n j).toNat,
        (right_nodes codes n j).toNat]) := by
    refine List.mem_flatMap.mpr ⟨i, List.mem_range.mpr hi, ?_⟩
    rcases hv with h | h <;> simp [h]
  have hpos : 0 < ((List.range (n - 1)).flatMap
      (fun j => [(left_nodes codes n j).toNat,
        (right_nodes codes n j).toNat])).count v :=
    List.count_pos_iff.mpr hmem
  have hv12 : 1 ≤ v ∧ v ≤ 2 * n - 2 := by
    by_contra hcon
    rw [if_neg hcon] at hcount
    omega
  rw [if_pos hv12] at hcount
  unfold buildParent
  refine fold_hit codes n v i (i : ℤ)
    (thread_step_val codes n i v hv (fun _ => by omega)) _ p0
    (List.mem_range.mpr hi) (List.nodup_range (n - 1)) ?_
  intro i' hi' hne q
  refine thread_skip codes n i' v ?_ ?_ (fun _ => by omega) q
  · intro he
    have m1 : v ∈ [(left_nodes codes n i).toNat,
        (right_nodes codes n i).toNat] := by
      rcases hv with h | h <;> simp [h]
    have m2 : v ∈ [(left_nodes codes n i').toNat,
        (right_nodes codes n i').toNat] := by simp [he]
    have h2 := count_two_blocks
      (fun j => [(left_nodes codes n j).toNat, (right_nodes codes n j).toNat])
      hi (List.mem_range.mp hi') hne.symm m1 m2
    omega
  · intro he
    have m1 : v ∈ [(left_nodes codes n i).toNat,
        (right_nodes codes n i).toNat] := by
      rcases hv with h | h <;> simp [h]
    have m2 : v ∈ [(left_nodes codes n i').toNat,
        (right_nodes codes n i').toNat] := by simp [he]
    have h2 := count_two_blocks
      (fun j => [(left_nodes codes n j).toNat, (right_nodes codes n j).toNat])
      hi (List.mem_range.mp hi') hne.symm m1 m2
    omega

include hn hc hs in
/-- After the construction kernel, `parent_nodes[0] = -1`: only thread 0's
final write touches id 0. -/
theorem buildParent_zero (hn2 : 2 ≤ n) (p0 : ℕ → ℤ) :
    buildParent codes n p0 0 = -1 := by
  have hcount := kernel_slot_count hn hc hs hn2 0
  rw [if_neg (by omega)] at hcount
  have hnot : (0 : ℕ) ∉ (List.range (n - 1)).flatMap
      (fun j => [(left_nodes codes n j).toNat,
        (right_nodes codes n j).toNat]) :=
    List.count_eq_zero.mp hcount
  unfold buildParent
  refine fold_hit codes n 0 0 (-1) (thread_zero_val codes n) _ p0
    (List.mem_range.mpr (by omega)) (List.nodup_range (n - 1)) ?_
  intro i' hi' hne q
  refine thread_skip codes n i' 0 ?_ ?_ (fun he => absurd he hne) q
  · intro he
    exact hnot (List.mem_flatMap.mpr ⟨i', hi', by simp [he]⟩)
  · intro he
    exact hnot (List.mem_flatMap.mpr ⟨i', hi', by simp [he]⟩)

include hn hc hs in
/-- Every non-root node id is some thread's child slot. -/
theorem slot_cover (hn2 : 2 ≤ n) {v : ℕ} (h1 : 1 ≤ v) (h2 : v ≤ 2 * n - 2) :
    ∃ i, i < n - 1 ∧ (v = (left_nodes codes n i).toNat ∨
      v = (right_nodes codes n i).toNat) := by
  have hcount := kernel_slot_count hn hc hs hn2 v
  rw [if_pos ⟨h1, h2⟩] at hcount
  have hmem : v ∈ (List.range (n - 1)).flatMap
      (fun j => [(left_nodes codes n j).toNat,
        (right_nodes codes n j).toNat]) :=
    List.count_pos_iff.mp (by omega)
  obtain ⟨i, hi, hmem2⟩ := List.mem_flatMap.mp hmem
  refine ⟨i, List.mem_range.mp hi, ?_⟩
  simp only [List.mem_cons, List.mem_singleton] at hmem2
  rcases hmem2 with h | h | h
  · exact Or.inl h
  · exact Or.inr h
  · simp at h

include hn hc hs in
/-- The kernel's child slots are genuine node ids: non-negative (so the
`Int.toNat` view is lossless) and in range. -/
theorem child_slots_range (hn2 : 2 ≤ n) {i : ℕ} (hi : i < n - 1) :
    1 ≤ left_nodes codes n i ∧ left_nodes codes n i ≤ 2 * (n : ℤ) - 2 ∧
    1 ≤ right_nodes codes n i ∧ right_nodes codes n i ≤ 2 * (n : ℤ) - 2 := by
  have hperm := intNodes_perm hn hc hs hn2
  obtain ⟨hrep, hroot, hcnt⟩ := root_tree hn hc hs hn2
  have hmem : gSlot codes n i ∈ intNodes n (canonSub codes .low 0 (n - 1)) := by
    refine hperm.mem_iff.mpr ?_
    exact List.mem_map.mpr ⟨i, List.mem_range.mpr hi, rfl⟩
  obtain ⟨h1, h2, h3⟩ := intNodes_mem _ hrep i
    ((left_nodes codes n i).toNat) ((right_nodes codes n i).toNat) hmem
  have hcl := kernel_slot_count hn hc hs hn2 (left_nodes codes n i).toNat
  have hcr := kernel_slot_count hn hc hs hn2 (right_nodes codes n i).toNat
  have hml : (left_nodes codes n i).toNat ∈ (List.range (n - 1)).flatMap
      (fun j => [(left_nodes codes n j).toNat,
        (right_nodes codes n j).toNat]) :=
    List.mem_flatMap.mpr ⟨i, List.mem_range.mpr hi, by simp⟩
  have hmr : (right_nodes codes n i).toNat ∈ (List.range (n - 1)).flatMap
      (fun j => [(left_nodes codes n j).toNat,
        (right_nodes codes n j).toNat]) :=
    List.mem_flatMap.mpr ⟨i, List.mem_range.mpr hi, by simp⟩
  have hposl := List.count_pos_iff.mpr hml
  have hposr := List.count_pos_iff.mpr hmr
  have hbl : 1 ≤ (left_nodes codes n i).toNat ∧
      (left_nodes codes n i).toNat ≤ 2 * n - 2 := by
    by_contra hcon
    rw [if_neg hcon] at hcl
    omega
  have hbr : 1 ≤ (right_nodes codes n i).toNat ∧
      (right_nodes codes n i).toNat ≤ 2 * n - 2 := by
    by_contra hcon
    rw [if_neg hcon] at hcr
    omega
  refine ⟨by rw [h2]; omega, by rw [h2]; omega,
    by rw [h3]; omega, by rw [h3]; omega⟩

end Karras

/-! ## Claim C2: parent/child invariants of the construction kernel -/

/-- **C2.** For every `n ≥ 2` and every sorted Morton-key array (the
all-equal case included), after `construct_binary_radix_tree_kernel` runs
over all internal-node threads, starting from any previous array contents:
`parent[0] = -1`; every other node id `v ∈ [1, 2n-1)` has
`parent[v] ∈ [0, n-1)` and `v` is one of that parent's two child slots; and
every internal node `i` is the recorded parent of both of its child slots. -/
theorem claim_C2 (codes : ℕ → ℕ) (n : ℕ) (hn : n ≤ 2 ^ 30)
    (hc : ∀ a, a < n → codes a < 2 ^ 30)
    (hs : ∀ a b, a ≤ b → b < n → codes a ≤ codes b)
    (hn2 : 2 ≤ n) (p0 : ℕ → ℤ) :
    buildParent codes n p0 0 = -1 ∧
    (∀ v : ℕ, 1 ≤ v → v < 2 * n - 1 →
      0 ≤ buildParent codes n p0 v ∧ buildParent codes n p0 v < (n : ℤ) - 1 ∧
      ((v : ℤ) = left_nodes codes n (buildParent codes n p0 v).toNat ∨
       (v : ℤ) = right_nodes codes n (buildParent codes n p0 v).toNat)) ∧
    (∀ i : ℕ, i < n - 1 →
      buildParent codes n p0 (left_nodes codes n i).toNat = (i : ℤ) ∧
      buildParent codes n p0 (right_nodes codes n i).toNat = (i : ℤ)) := by
  refine ⟨buildParent_zero hn hc hs hn2 p0, ?_, ?_⟩
  · intro v h1 h2
    obtain ⟨i, hi, hv⟩ := slot_cover hn hc hs hn2 h1 (by omega)
    have hp := buildParent_child hn hc hs hn2 hi hv p0
    have hcr := child_slots_range hn hc hs hn2 hi
    rw [hp]
    simp only [Int.toNat_natCast]
    refine ⟨by omega, by omega, ?_⟩
    rcases hv with h | h
    · exact Or.inl (by omega)
    · exact Or.inr (by omega)
  · intro i hi
    exact ⟨buildParent_child hn hc hs hn2 hi (Or.inl rfl) p0,
      buildParent_child hn hc hs hn2 hi (Or.inr rfl) p0⟩

/-- Witness for C2: the all-equal key array of length 4, acting on the
zero-initialised parent array. -/
theorem claim_C2_witness :
    ((4 : ℕ) ≤ 2 ^ 30 ∧ (∀ a, a < 4 → (fun _ : ℕ => 7) a < 2 ^ 30) ∧
     (∀ a b : ℕ, a ≤ b → b < 4 → (fun _ : ℕ => 7) a ≤ (fun _ : ℕ => 7) b) ∧
     2 ≤ 4) ∧
    (buildParent (fun _ => 7) 4 (fun _ => 0) 0 = -1 ∧
    (∀ v : ℕ, 1 ≤ v → v < 2 * 4 - 1 →
      0 ≤ buildParent (fun _ => 7) 4 (fun _ => 0) v ∧
      buildParent (fun _ => 7) 4 (fun _ => 0) v < (4 : ℤ) - 1 ∧
      ((v : ℤ) = left_nodes (fun _ => 7) 4
          (buildParent (fun _ => 7) 4 (fun _ => 0) v).toNat ∨
       (v : ℤ) = right_nodes (fun _ => 7) 4
          (buildParent (fun _ => 7) 4 (fun _ => 0) v).toNat)) ∧
    (∀ i : ℕ, i < 4 - 1 →
      buildParent (fun _ => 7) 4 (fun _ => 0)
        (left_nodes (fun _ => 7) 4 i).toNat = (i : ℤ) ∧
      buildParent (fun _ => 7) 4 (fun _ => 0)
        (right_nodes (fun _ => 7) 4 i).toNat = (i : ℤ))) :=
  ⟨⟨by norm_num, fun _ _ => by norm_num, fun _ _ _ _ => le_refl 7,
    by norm_num⟩,
   claim_C2 (fun _ => 7) 4 (by norm_num) (fun _ _ => by norm_num)
     (fun _ _ _ _ => le_refl 7) (by norm_num) (fun _ => 0)⟩

/-! ## Claim C4: the compaction kernel (`compact_bvh_nodes_kernel`) -/

/-- Compact linear BVH record, from `@wp.struct class BvhNode` in
`src/block/bvh/kernels.py`. -/
structure BvhNode where
  aabb : Aabb
  left_or_leaf : ℤ
  escape_index : ℤ
deriving DecidableEq, Repr

/-- The record thread `tid` of `compact_bvh_nodes_kernel` writes to
`bvh_nodes[tid]`, as a function of the kernel's input arrays. -/
def compact_bvh_node (num_leaves : ℕ) (aabbs : ℕ → Aabb)
    (left_arr : ℕ → ℤ) (leaf_indices : ℕ → ℤ) (escape_arr : ℕ → ℤ)
    (tid : ℕ) : BvhNode :=
  { aabb := aabbs tid
    escape_index := escape_arr tid
    left_or_leaf :=
      if tid < num_leaves - 1 then left_arr tid
      else -leaf_indices (tid - (num_leaves - 1)) - 1 }

/-- **C4.** After `compact_bvh_nodes_kernel`, every node record `t` of
`[0, 2N-1)` copies `box[t]` and `escape[t]`, its link field is `left[t]` for
internal `t` and `-(leaf_perm[t-(N-1)]) - 1` for leaves, and — given that
internal left children are positive node ids and leaf permutation entries
are non-negative, as the build pipeline guarantees — a record is a leaf iff
its link is negative, with the original leaf index recovered as
`-link - 1`. -/
theorem claim_C4 (num_leaves : ℕ) (aabbs : ℕ → Aabb)
    (left_arr leaf_indices escape_arr : ℕ → ℤ)
    (hleft : ∀ t, t < num_leaves - 1 → 1 ≤ left_arr t)
    (hleaf : ∀ k, k < num_leaves → 0 ≤ leaf_indices k) :
    ∀ t, t < 2 * num_leaves - 1 →
      (compact_bvh_node num_leaves aabbs left_arr leaf_indices escape_arr
        t).aabb = aabbs t ∧
      (compact_bvh_node num_leaves aabbs left_arr leaf_indices escape_arr
        t).escape_index = escape_arr t ∧
      (compact_bvh_node num_leaves aabbs left_arr leaf_indices escape_arr
        t).left_or_leaf = (if t < num_leaves - 1 then left_arr t
          else -leaf_indices (t - (num_leaves - 1)) - 1) ∧
      ((compact_bvh_node num_leaves aabbs left_arr leaf_indices escape_arr
        t).left_or_leaf < 0 ↔ num_leaves - 1 ≤ t) ∧
      (num_leaves - 1 ≤ t →
        -(compact_bvh_node num_leaves aabbs left_arr leaf_indices escape_arr
          t).left_or_leaf - 1 = leaf_indices (t - (num_leaves - 1))) := by
  intro t ht
  refine ⟨rfl, rfl, rfl, ?_, ?_⟩
  · unfold compact_bvh_node
    simp only
    split_ifs with h
    · have := hleft t h
      constructor
      · intro hneg; omega
      · intro hle; omega
    · have := hleaf (t - (num_leaves - 1)) (by omega)
      constructor
      · intro _; omega
      · intro _; omega
  · intro hle
    unfold compact_bvh_node
    simp only
    rw [if_neg (by omega)]
    ring

/-- Witness for C4: two leaves, identity permutation, concrete boxes. -/
theorem claim_C4_witness :
    ((∀ t, t < 2 - 1 → (1:ℤ) ≤ (fun _ : ℕ => (1:ℤ)) t) ∧
     (∀ k, k < 2 → (0:ℤ) ≤ (fun j : ℕ => (j:ℤ)) k)) ∧
    (∀ t, t < 2 * 2 - 1 →
      (compact_bvh_node 2 (fun _ => ⟨⟨0,0,0⟩,⟨1,1,1⟩⟩) (fun _ => 1)
        (fun j => (j:ℤ)) (fun _ => -1) t).aabb =
          (fun _ : ℕ => (⟨⟨0,0,0⟩,⟨1,1,1⟩⟩ : Aabb)) t ∧
      (compact_bvh_node 2 (fun _ => ⟨⟨0,0,0⟩,⟨1,1,1⟩⟩) (fun _ => 1)
        (fun j => (j:ℤ)) (fun _ => -1) t).escape_index =
          (fun _ : ℕ => (-1:ℤ)) t ∧
      (compact_bvh_node 2 (fun _ => ⟨⟨0,0,0⟩,⟨1,1,1⟩⟩) (fun _ => 1)
        (fun j => (j:ℤ)) (fun _ => -1) t).left_or_leaf =
          (if t < 2 - 1 then (fun _ : ℕ => (1:ℤ)) t
            else -(fun j : ℕ => (j:ℤ)) (t - (2 - 1)) - 1) ∧
      ((compact_bvh_node 2 (fun _ => ⟨⟨0,0,0⟩,⟨1,1,1⟩⟩) (fun _ => 1)
        (fun j => (j:ℤ)) (fun _ => -1) t).left_or_leaf < 0 ↔ 2 - 1 ≤ t) ∧
      (2 - 1 ≤ t →
        -(compact_bvh_node 2 (fun _ => ⟨⟨0,0,0⟩,⟨1,1,1⟩⟩) (fun _ => 1)
          (fun j => (j:ℤ)) (fun _ => -1) t).left_or_leaf - 1 =
            (fun j : ℕ => (j:ℤ)) (t - (2 - 1)))) :=
  ⟨⟨fun _ _ => le_refl 1, fun k _ => Int.natCast_nonneg k⟩,
   claim_C4 2 (fun _ => ⟨⟨0,0,0⟩,⟨1,1,1⟩⟩) (fun _ => 1) (fun j => (j:ℤ))
     (fun _ => -1) (fun _ _ => le_refl 1) (fun k _ => Int.natCast_nonneg k)⟩

/-! ## Claim C6: the sorted leaf permutation -/

/-- The (key, index) pair list handed to the device radix sort by
`Bvh.rebuild`: Morton keys `m 0 .. m (n-1)` paired with the identity
permutation (which `init_leaf_indices_and_bounds_kernel` wrote). -/
def sortInput (m : ℕ → ℕ) (n : ℕ) : List (ℕ × ℕ) :=
  (List.range n).map (fun k => (m k, k))

/-- Modelled from the spec (§4.3): `wp_radix_sort_pairs_int_device` is a
third-party primitive outside this repository.  Its interface contract:
the output pair list is a permutation of the input pairs, with keys in
non-decreasing order; "ties may be broken arbitrarily by the sort". -/
def IsRadixSortOutput (inp out : List (ℕ × ℕ)) : Prop :=
  out.Perm inp ∧ out.Pairwise (fun p q => p.1 ≤ q.1)

/-- **C6 (amended).** After rebuild, the sorted pair list is a permutation
of `[0,N)` on its index component, every output pair still carries the
Morton key of its own leaf, and keys are non-decreasing along the output.
(The claim's final clause — equal keys appear in original-index order — is
false: the sorter's contract allows arbitrary tie order, see the
counterexample.) -/
theorem claim_C6 (m : ℕ → ℕ) (n : ℕ) (out : List (ℕ × ℕ))
    (h : IsRadixSortOutput (sortInput m n) out) :
    (out.map Prod.snd).Perm (List.range n) ∧
    (∀ p ∈ out, p.1 = m p.2) ∧
    out.Pairwise (fun p q => p.1 ≤ q.1) := by
  obtain ⟨hperm, hsorted⟩ := h
  refine ⟨?_, ?_, hsorted⟩
  · have hmap := hperm.map Prod.snd
    have h2 : (sortInput m n).map Prod.snd = List.range n := by
      have hc : (Prod.snd ∘ fun k : ℕ => (m k, k)) = fun k => k := rfl
      simp only [sortInput, List.map_map, hc]
      exact List.map_id _
    rw [h2] at hmap
    exact hmap
  · intro p hp
    have hp' : p ∈ sortInput m n := hperm.mem_iff.mp hp
    simp only [sortInput, List.mem_map, List.mem_range] at hp'
    obtain ⟨k, _, he⟩ := hp'
    rw [← he]

/-- Counterexample for C6's tie-break clause: with two equal keys the
sorter's contract admits the output that lists leaf 1 before leaf 0,
violating "ties broken by original leaf index". -/
theorem claim_C6_cex :
    IsRadixSortOutput (sortInput (fun _ => 5) 2) [(5, 1), (5, 0)] ∧
    ¬ ([((5:ℕ), (1:ℕ)), (5, 0)].Pairwise (fun p q => p.1 = q.1 → p.2 < q.2)) := by
  refine ⟨⟨?_, ?_⟩, ?_⟩ <;> decide

/-- Witness for C6: a concrete admissible sorter output on two equal keys. -/
theorem claim_C6_witness :
    IsRadixSortOutput (sortInput (fun _ => 5) 2) [(5, 1), (5, 0)] ∧
    (([((5:ℕ), (1:ℕ)), (5, 0)].map Prod.snd).Perm (List.range 2) ∧
     (∀ p ∈ [((5:ℕ), (1:ℕ)), (5, 0)], p.1 = (fun _ : ℕ => 5) p.2) ∧
     [((5:ℕ), (1:ℕ)), (5, 0)].Pairwise (fun p q => p.1 ≤ q.1)) :=
  ⟨⟨by decide, by decide⟩,
   claim_C6 (fun _ => 5) 2 [(5, 1), (5, 0)] ⟨by decide, by decide⟩⟩

/-! ## Claim C8: constructor validation (`Bvh.__init__`) -/

/-- A Warp device as the constructor consults it: an identity (for the
equality check) and whether it is a CUDA device. -/
structure WpDevice where
  dev_id : ℕ
  is_cuda : Bool
deriving DecidableEq, Repr

/-- The buffer sizes `Bvh.__init__` allocates after its checks pass. -/
structure BvhBuffers where
  num_leaves : ℕ
  num_internal_nodes : ℕ
  num_total_nodes : ℕ
deriving DecidableEq, Repr

/-- `Bvh.__init__` up to its first kernel launch, from
`src/block/bvh/bvh.py` lines 91–145: three sequential `ValueError` checks
(length mismatch, device mismatch, non-CUDA device), then the buffer
allocations sized from `N`.  An error propagates before any allocation. -/
def bvh_init (len_lower len_upper : ℕ) (dev_lower dev_upper : WpDevice) :
    Except String BvhBuffers :=
  if len_lower ≠ len_upper then
    Except.error "lower_bounds and upper_bounds must have the same length"
  else if dev_lower ≠ dev_upper then
    Except.error "lower_bounds and upper_bounds must be on the same device"
  else if dev_lower.is_cuda = false then
    Except.error "Bvh requires a CUDA device"
  else
    Except.ok ⟨len_lower, max 0 (len_lower - 1), max 0 (2 * len_lower - 1)⟩

/-- **C8.** The constructor raises exactly when the lengths differ, the
devices differ, or the device is not CUDA; in every such case it returns
the error without constructing any buffer state, and otherwise it
constructs the buffer state sized from `N` (so validation happens
synchronously, before any allocation or launch). -/
theorem claim_C8 (ll lu : ℕ) (dl du : WpDevice) :
    ((∃ msg, bvh_init ll lu dl du = Except.error msg) ↔
      (ll ≠ lu ∨ dl ≠ du ∨ dl.is_cuda = false)) ∧
    (∀ st, bvh_init ll lu dl du = Except.ok st →
      ll = lu ∧ dl = du ∧ dl.is_cuda = true ∧
      st = ⟨ll, max 0 (ll - 1), max 0 (2 * ll - 1)⟩) := by
  unfold bvh_init
  constructor
  · constructor
    · intro ⟨msg, hmsg⟩
      by_contra hcon
      push_neg at hcon
      obtain ⟨h1, h2, h3⟩ := hcon
      rw [if_neg (by simpa using h1), if_neg (by simpa using h2),
        if_neg (by simpa using h3)] at hmsg
      exact Except.noConfusion hmsg
    · intro h
      split_ifs with g1 g2 g3
      · exact ⟨_, rfl⟩
      · exact ⟨_, rfl⟩
      · exact ⟨_, rfl⟩
      · exfalso
        rcases h with h | h | h
        · exact g1 h
        · exact g2 h
        · simp [h] at g3
  · intro st hst
    split_ifs at hst with g1 g2 g3
    · refine ⟨by simpa using g1, by simpa using g2, by simpa using g3, ?_⟩
      exact (Except.ok.injEq _ _).mp hst |>.symm
  
/-! ## Claim C10: `refit` has no build precondition -/

/-- What a `Bvh.refit` call does, from `src/block/bvh/bvh.py` lines
282–349: an early `return` when `num_leaves = 0`, otherwise a flags reset
and the two kernel launches.  The body contains no `raise` statement and
consults no record of whether a build succeeded, so the outcome cannot be
an error; the `built` argument (whether a successful build has happened)
is unused exactly because the source never reads any such state. -/
def refit_result (built : Bool) (num_leaves : ℕ) : Except String Bool :=
  if num_leaves = 0 then Except.ok false else Except.ok true

/-- **C10 (amended).** `refit` never raises: for every build state —
including `built = false` — it returns successfully, running the refit
kernels when `N > 0` and doing nothing when `N = 0`.  (The claimed
`PreconditionViolated` error does not exist: see the counterexample, and
note the constructor always builds, so an unbuilt `Bvh` is unreachable
through the public API.) -/
theorem claim_C10 (built : Bool) (num_leaves : ℕ) :
    refit_result built num_leaves =
      Except.ok (decide (num_leaves ≠ 0)) := by
  unfold refit_result
  split_ifs with h <;> simp [h]

/-- Counterexample for C10: calling refit on a never-built Bvh with one
leaf succeeds (returns `ok`), instead of failing with
`PreconditionViolated`. -/
theorem claim_C10_cex : refit_result false 1 = Except.ok true := rfl

/-! ## The escape-index kernel (`assign_escape_indices_kernel`)

Thread `tid` initializes `escape_index = -1`, `current_index = 0`,
overrides them with `right_nodes[tid]` / `left_nodes[tid]` when
`tid < num_internal_nodes`, writes `escape_indices[current_index]`, and then
walks `current_index = right_nodes[current_index]` while
`current_index < num_internal_nodes`, writing `escape_indices` at each new
position.  The loop is modelled with fuel `2 * num_leaves`; the proofs show
the walk exits on its own condition within `2*N - 1` steps for the
topology the pipeline produces. -/

/-- The writes of the kernel's `while` loop, one entry per iteration. -/
def escWalk (nin : ℕ) (right_arr : ℕ → ℤ) (esc : ℤ) : ℕ → ℤ → List (ℕ × ℤ)
  | 0, _ => []
  | fuel + 1, cur =>
    if cur < (nin : ℤ) then
      ((right_arr cur.toNat).toNat, esc) ::
        escWalk nin right_arr esc fuel (right_arr cur.toNat)
    else []

/-- The ordered `escape_indices` writes of thread `tid`. -/
def escapeThreadWrites (num_leaves : ℕ) (left_arr right_arr : ℕ → ℤ)
    (tid : ℕ) : List (ℕ × ℤ) :=
  ((if tid < num_leaves - 1 then left_arr tid else 0).toNat,
    if tid < num_leaves - 1 then right_arr tid else -1) ::
    escWalk (num_leaves - 1) right_arr
      (if tid < num_leaves - 1 then right_arr tid else -1)
      (2 * num_leaves)
      (if tid < num_leaves - 1 then left_arr tid else 0)

/-- The `escape_indices` array after the kernel ran all `num_leaves`
threads, starting from arbitrary previous contents `e0`. -/
def buildEscape (num_leaves : ℕ) (left_arr right_arr : ℕ → ℤ)
    (e0 : ℕ → ℤ) : ℕ → ℤ :=
  (List.range num_leaves).foldl
    (fun e tid =>
      applyWrites e (escapeThreadWrites num_leaves left_arr right_arr tid))
    e0

/-- The right spine of a tree: the root and, recursively, the right spine
of the right child. -/
def rightSpine (n : ℕ) : BTree → List ℕ
  | .leaf k => [n - 1 + k]
  | .node i _ r => i :: rightSpine n r

/-- The escape assignment a depth-first traversal demands: every node of
the tree paired with the id of the next node visited after skipping that
node's subtree (`e` for nodes whose subtree ends where the whole tree's
block ends). -/
def specWrites (n : ℕ) : BTree → ℤ → List (ℕ × ℤ)
  | .leaf k, e => [(n - 1 + k, e)]
  | .node i l r, e =>
      (i, e) :: (specWrites n l ((nid n r : ℤ)) ++ specWrites n r e)

/-- `E` assigns every node of the tree its depth-first successor after
skipping that node's subtree (`e` past the end of the whole block). -/
def EscCorrect (n : ℕ) (E : ℕ → ℤ) : BTree → ℤ → Prop
  | .leaf k, e => E (n - 1 + k) = e
  | .node i l r, e =>
      E i = e ∧ EscCorrect n E l ((nid n r : ℤ)) ∧ EscCorrect n E r e

/-- The internal nodes of a tree, with their child subtrees. -/
def intTrees : BTree → List (ℕ × BTree × BTree)
  | .leaf _ => []
  | .node i l r => (i, l, r) :: (intTrees l ++ intTrees r)

/-- Node count of a tree. -/
def szT : BTree → ℕ
  | .leaf _ => 1
  | .node _ l r => szT l + szT r + 1

/-- One step of the stackless depth-first traversal: descend to the left
child at an internal node, follow the escape link at a leaf. -/
def travStep (n : ℕ) (left_arr E : ℕ → ℤ) (cur : ℤ) : ℤ :=
  if cur < (n : ℤ) - 1 then left_arr cur.toNat else E cur.toNat

/-- Run the stackless traversal: `(visited nodes, final cursor)`. -/
def travRun (n : ℕ) (left_arr E : ℕ → ℤ) : ℕ → ℤ → List ℤ × ℤ
  | 0, cur => ([], cur)
  | fuel + 1, cur =>
    if cur = -1 then ([], cur)
    else
      (cur :: (travRun n left_arr E fuel (travStep n left_arr E cur)).1,
        (travRun n left_arr E fuel (travStep n left_arr E cur)).2)

theorem applyWrites_skip_all (v : ℕ) :
    ∀ (ws : List (ℕ × ℤ)) (q : ℕ → ℤ), (∀ w ∈ ws, w.1 ≠ v) →
      applyWrites q ws v = q v := by
  intro ws
  induction ws with
  | nil => intro q _; rfl
  | cons w rest ih =>
    intro q h
    simp only [applyWrites, List.foldl_cons] at *
    rw [ih _ (fun u hu => h u (List.mem_cons_of_mem w hu))]
    rw [Function.update_apply,
      if_neg (fun he => h w (List.mem_cons_self w rest) he.symm)]

theorem applyWrites_agree (v : ℕ) (val : ℤ) :
    ∀ (ws : List (ℕ × ℤ)) (q : ℕ → ℤ),
      (∃ w ∈ ws, w.1 = v) → (∀ w ∈ ws, w.1 = v → w.2 = val) →
      applyWrites q ws v = val := by
  intro ws
  induction ws with
  | nil =>
    intro q h _
    simp at h
  | cons w rest ih =>
    intro q hex hval
    simp only [applyWrites, List.foldl_cons] at *
    by_cases hr : ∃ w' ∈ rest, w'.1 = v
    · exact ih _ hr (fun u hu he => hval u (List.mem_cons_of_mem w hu) he)
    · push_neg at hr
      have hw : w.1 = v := by
        obtain ⟨u, hu, he⟩ := hex
        rcases List.mem_cons.mp hu with h | h
        · exact h ▸ he
        · exact absurd he (hr u h)
      have hskip : applyWrites (Function.update q w.1 w.2) rest v =
          Function.update q w.1 w.2 v := applyWrites_skip_all v rest _ hr
      simp only [applyWrites] at hskip
      rw [hskip, hw, Function.update_apply, if_pos rfl]
      exact hval w (List.mem_cons_self w rest) hw

theorem gfold_skip_all (W : ℕ → List (ℕ × ℤ)) (v : ℕ) :
    ∀ (l : List ℕ) (p : ℕ → ℤ), (∀ i ∈ l, ∀ w ∈ W i, w.1 ≠ v) →
      (l.foldl (fun p i => applyWrites p (W i)) p) v = p v := by
  intro l
  induction l with
  | nil => intro p _; rfl
  | cons j rest ih =>
    intro p h
    simp only [List.foldl_cons]
    rw [ih _ (fun i hi => h i (List.mem_cons_of_mem j hi))]
    exact applyWrites_skip_all v (W j) p (h j (List.mem_cons_self j rest))

theorem gfold_agree (W : ℕ → List (ℕ × ℤ)) (v : ℕ) (val : ℤ) :
    ∀ (l : List ℕ) (p : ℕ → ℤ),
      (∃ i ∈ l, ∃ w ∈ W i, w.1 = v) →
      (∀ i ∈ l, ∀ w ∈ W i, w.1 = v → w.2 = val) →
      (l.foldl (fun p i => applyWrites p (W i)) p) v = val := by
  intro l
  induction l with
  | nil =>
    intro p h _
    simp at h
  | cons j rest ih =>
    intro p hex hval
    simp only [List.foldl_cons]
    by_cases hr : ∃ i ∈ rest, ∃ w ∈ W i, w.1 = v
    · exact ih _ hr (fun i hi => hval i (List.mem_cons_of_mem j hi))
    · push_neg at hr
      have hj : ∃ w ∈ W j, w.1 = v := by
        obtain ⟨i, hi, u, hu, he⟩ := hex
        rcases List.mem_cons.mp hi with h | h
        · exact ⟨u, h ▸ hu, he⟩
        · exact absurd he (hr i h u hu)
      rw [gfold_skip_all W v rest _ hr]
      exact applyWrites_agree v val (W j) p hj
        (hval j (List.mem_cons_self j rest))

theorem rightSpine_len {n : ℕ} : ∀ T : BTree, (rightSpine n T).length ≤ szT T := by
  intro T
  induction T with
  | leaf k => simp [rightSpine, szT]
  | node i l r ihl ihr =>
    simp only [rightSpine, szT, List.length_cons]
    omega

theorem rightSpine_pos {n : ℕ} : ∀ T : BTree, 1 ≤ (rightSpine n T).length := by
  intro T
  cases T <;> simp [rightSpine]

theorem rightSpine_head {n : ℕ} :
    ∀ T : BTree, ∃ rest, rightSpine n T = nid n T :: rest := by
  intro T
  cases T with
  | leaf k => exact ⟨[], rfl⟩
  | node i l r => exact ⟨rightSpine n r, rfl⟩

theorem intTrees_sub : ∀ T : BTree, ∀ t ∈ intTrees T,
    szT t.2.1 + szT t.2.2 < szT T := by
  intro T
  induction T with
  | leaf k => intro t ht; simp [intTrees] at ht
  | node i l r ihl ihr =>
    intro t ht
    simp only [intTrees, List.mem_cons, List.mem_append] at ht
    rcases ht with he | hm | hm
    · subst he
      simp only [szT]
      omega
    · have := ihl t hm
      simp only [szT]
      omega
    · have := ihr t hm
      simp only [szT]
      omega

theorem intTrees_rep {codes : ℕ → ℕ} {n : ℕ} :
    ∀ T : BTree, RepT codes n T → ∀ t ∈ intTrees T,
      t.1 < n - 1 ∧ left_nodes codes n t.1 = (nid n t.2.1 : ℤ) ∧
      right_nodes codes n t.1 = (nid n t.2.2 : ℤ) ∧
      RepT codes n t.2.1 ∧ RepT codes n t.2.2 := by
  intro T
  induction T with
  | leaf k => intro _ t ht; simp [intTrees] at ht
  | node i l r ihl ihr =>
    intro hrep t ht
    obtain ⟨h1, h2, h3, h4, h5⟩ := hrep
    simp only [intTrees, List.mem_cons, List.mem_append] at ht
    rcases ht with he | hm | hm
    · subst he
      exact ⟨h1, h2, h3, h4, h5⟩
    · exact ihl h4 t hm
    · exact ihr h5 t hm

theorem intTrees_fst {n : ℕ} :
    ∀ T : BTree, (intTrees T).map (fun t => t.1) =
      (intNodes n T).map (fun t => t.1) := by
  intro T
  induction T with
  | leaf k => rfl
  | node i l r ihl ihr =>
    simp only [intTrees, intNodes, List.map_cons, List.map_append, ihl, ihr]

theorem specWrites_keys {n : ℕ} :
    ∀ (T : BTree) (e : ℤ), (specWrites n T e).map Prod.fst = idsT n T := by
  intro T
  induction T with
  | leaf k => intro e; rfl
  | node i l r ihl ihr =>
    intro e
    simp only [specWrites, idsT, List.map_cons, List.map_append, ihl, ihr]

theorem specWrites_nonneg {n : ℕ} :
    ∀ (T : BTree) (e : ℤ), 0 ≤ e → ∀ w ∈ specWrites n T e, 0 ≤ w.2 := by
  intro T
  induction T with
  | leaf k =>
    intro e he w hw
    simp only [specWrites, List.mem_singleton] at hw
    subst hw
    exact he
  | node i l r ihl ihr =>
    intro e he w hw
    simp only [specWrites, List.mem_cons, List.mem_append] at hw
    rcases hw with he' | hm | hm
    · subst he'
      exact he
    · exact ihl (nid n r : ℤ) (Int.natCast_nonneg _) w hm
    · exact ihr e he w hm

theorem specWrites_neg_spine {n : ℕ} :
    ∀ T : BTree, ∀ w ∈ specWrites n T (-1), w.2 = -1 →
      w.1 ∈ rightSpine n T := by
  intro T
  induction T with
  | leaf k =>
    intro w hw _
    simp only [specWrites, List.mem_singleton] at hw
    subst hw
    simp [rightSpine]
  | node i l r ihl ihr =>
    intro w hw hneg
    simp only [specWrites, List.mem_cons, List.mem_append] at hw
    rcases hw with he | hm | hm
    · subst he
      simp [rightSpine]
    · have := specWrites_nonneg l (nid n r : ℤ) (Int.natCast_nonneg _) w hm
      omega
    · exact List.mem_cons_of_mem i (ihr w hm hneg)

theorem spine_mem_spec {n : ℕ} :
    ∀ (T : BTree) (e : ℤ), ∀ u ∈ rightSpine n T, (u, e) ∈ specWrites n T e := by
  intro T
  induction T with
  | leaf k =>
    intro e u hu
    simp only [rightSpine, List.mem_singleton] at hu
    subst hu
    simp [specWrites]
  | node i l r ihl ihr =>
    intro e u hu
    simp only [rightSpine, List.mem_cons] at hu
    rcases hu with he | hm
    · subst he
      simp [specWrites]
    · simp only [specWrites, List.mem_cons, List.mem_append]
      exact Or.inr (Or.inr (ihr e u hm))

theorem escCorrect_of_pointwise {n : ℕ} :
    ∀ (T : BTree) (e : ℤ) (E : ℕ → ℤ),
      (∀ w ∈ specWrites n T e, E w.1 = w.2) → EscCorrect n E T e := by
  intro T
  induction T with
  | leaf k =>
    intro e E h
    exact h (n - 1 + k, e) (by simp [specWrites])
  | node i l r ihl ihr =>
    intro e E h
    refine ⟨h (i, e) (by simp [specWrites]), ?_, ?_⟩
    · refine ihl (nid n r : ℤ) E (fun w hw => h w ?_)
      simp only [specWrites, List.mem_cons, List.mem_append]
      exact Or.inr (Or.inl hw)
    · refine ihr e E (fun w hw => h w ?_)
      simp only [specWrites, List.mem_cons, List.mem_append]
      exact Or.inr (Or.inr hw)

theorem keys_nodup_unique :
    ∀ (lst : List (ℕ × ℤ)), (lst.map Prod.fst).Nodup →
      ∀ w ∈ lst, ∀ w' ∈ lst, w.1 = w'.1 → w = w' := by
  intro lst
  induction lst with
  | nil => intro _ w hw; simp at hw
  | cons u rest ih =>
    intro hnd w hw w' hw' he
    simp only [List.map_cons, List.nodup_cons, List.mem_map] at hnd
    obtain ⟨hnotin, hnd'⟩ := hnd
    rcases List.mem_cons.mp hw with h1 | h1 <;>
      rcases List.mem_cons.mp hw' with h2 | h2
    · rw [h1, h2]
    · exfalso
      exact hnotin ⟨w', h2, by rw [← he, h1]⟩
    · exfalso
      exact hnotin ⟨w, h1, by rw [he, h2]⟩
    · exact ih hnd' w h1 w' h2 he

theorem szT_canon (codes : ℕ → ℕ) :
    ∀ m F L side, L - F = m → szT (canonSub codes side F L) = 2 * (L - F) + 1 := by
  intro m
  induction m using Nat.strong_induction_on with
  | _ m ih =>
  intro F L side hm
  by_cases hLF : L ≤ F
  · rw [canonSub, dif_pos hLF]
    have h0 : L - F = 0 := by omega
    rw [h0]
    rfl
  · have hT : canonSub codes side F L =
        BTree.node (sideId side F L)
          (canonSub codes .high F
            (min (max (find_split codes (F : ℤ) (L : ℤ)).toNat F) (L - 1)))
          (canonSub codes .low
            (min (max (find_split codes (F : ℤ) (L : ℤ)).toNat F) (L - 1) + 1)
            L) := by
      conv_lhs => rw [canonSub]
      rw [dif_neg hLF]
    rw [hT]
    simp only [szT]
    have h1 : F ≤ min (max (find_split codes (F : ℤ) (L : ℤ)).toNat F) (L - 1) := by
      omega
    have h2 : min (max (find_split codes (F : ℤ) (L : ℤ)).toNat F) (L - 1) ≤
        L - 1 := by omega
    rw [ih _ (by omega) F _ .high rfl, ih _ (by omega) _ L .low rfl]
    omega

theorem escWalk_spine {codes : ℕ → ℕ} {n : ℕ} :
    ∀ T : BTree, RepT codes n T → ∀ (e : ℤ) (fuel : ℕ),
      (rightSpine n T).length ≤ fuel + 1 →
      ((nid n T : ℤ).toNat, e) ::
        escWalk (n - 1) (right_nodes codes n) e fuel ((nid n T : ℤ)) =
        (rightSpine n T).map (fun u => (u, e)) := by
  intro T
  induction T with
  | leaf k =>
    intro hrep e fuel _
    simp only [nid, rightSpine, List.map_cons, List.map_nil]
    congr 1
    cases fuel with
    | zero => rfl
    | succ f =>
      rw [escWalk, if_neg (by omega)]
  | node i l r ihl ihr =>
    intro hrep e fuel hfuel
    obtain ⟨h1, h2, h3, h4, h5⟩ := hrep
    cases fuel with
    | zero =>
      exfalso
      have := @rightSpine_pos n r
      simp only [rightSpine, List.length_cons] at hfuel
      omega
    | succ f =>
      simp only [nid, rightSpine, List.map_cons]
      congr 1
      rw [escWalk, if_pos (by omega : ((i : ℕ) : ℤ) < ((n - 1 : ℕ) : ℤ))]
      rw [Int.toNat_natCast, h3]
      exact ihr h5 e f
        (by simp only [rightSpine, List.length_cons] at hfuel; omega)

theorem escapeThread_internal {codes : ℕ → ℕ} {n : ℕ} :
    ∀ T : BTree, RepT codes n T → szT T ≤ 2 * n - 1 →
      ∀ t ∈ intTrees T,
        escapeThreadWrites n (left_nodes codes n) (right_nodes codes n) t.1 =
          (rightSpine n t.2.1).map (fun u => (u, (nid n t.2.2 : ℤ))) := by
  intro T hrep hsz t ht
  obtain ⟨h1, h2, h3, h4, h5⟩ := intTrees_rep T hrep t ht
  unfold escapeThreadWrites
  rw [if_pos h1, if_pos h1, h2, h3]
  refine escWalk_spine t.2.1 h4 ((nid n t.2.2 : ℕ) : ℤ) (2 * n) ?_
  have hb1 := @rightSpine_len n t.2.1
  have hb2 := intTrees_sub T t ht
  omega

theorem escapeThread_last {codes : ℕ → ℕ} {n : ℕ} :
    ∀ T : BTree, RepT codes n T → nid n T = 0 → szT T ≤ 2 * n - 1 →
      escapeThreadWrites n (left_nodes codes n) (right_nodes codes n) (n - 1) =
        (rightSpine n T).map (fun u => (u, (-1 : ℤ))) := by
  intro T hrep hnid hsz
  unfold escapeThreadWrites
  rw [if_neg (lt_irrefl (n - 1)), if_neg (lt_irrefl (n - 1))]
  have h0 : (0 : ℤ) = ((nid n T : ℕ) : ℤ) := by rw [hnid]; rfl
  rw [h0]
  refine escWalk_spine T hrep (-1) (2 * n) ?_
  have := @rightSpine_len n T
  omega

theorem perm_shuffle {α : Type} [DecidableEq α] (A B C D : List α) :
    (A ++ (B ++ (C ++ D))).Perm ((B ++ C) ++ (A ++ D)) := by
  rw [List.perm_iff_count]
  intro a
  simp only [List.count_append]
  omega

theorem writes_perm_spec {n : ℕ} :
    ∀ (T : BTree) (e : ℤ),
      ((rightSpine n T).map (fun u => (u, e)) ++
        (intTrees T).flatMap
          (fun t => (rightSpine n t.2.1).map
            (fun u => (u, (nid n t.2.2 : ℤ))))).Perm
        (specWrites n T e) := by
  intro T
  induction T with
  | leaf k =>
    intro e
    simp [rightSpine, intTrees, specWrites]
  | node i l r ihl ihr =>
    intro e
    simp only [rightSpine, intTrees, specWrites, List.map_cons,
      List.flatMap_cons, List.flatMap_append, List.cons_append]
    refine List.Perm.cons _ ?_
    refine (perm_shuffle _ _ _ _).trans ?_
    exact List.Perm.append (ihl _) (ihr _)

theorem travRun_tree {codes : ℕ → ℕ} {n : ℕ} :
    ∀ T : BTree, RepT codes n T → ∀ (e : ℤ) (E : ℕ → ℤ),
      EscCorrect n E T e → ∀ fuel, szT T ≤ fuel →
      travRun n (left_nodes codes n) E fuel ((nid n T : ℤ)) =
        ((idsT n T).map (fun v => (v : ℤ)) ++
          (travRun n (left_nodes codes n) E (fuel - szT T) e).1,
         (travRun n (left_nodes codes n) E (fuel - szT T) e).2) := by
  intro T
  induction T with
  | leaf k =>
    intro hrep e E hesc fuel hfuel
    have hk : k < n := hrep
    cases fuel with
    | zero => simp [szT] at hfuel
    | succ f =>
      simp only [nid, idsT, szT, List.map_cons, List.map_nil,
        List.cons_append, List.nil_append, Nat.add_sub_cancel]
      rw [travRun, if_neg (by omega : ¬ ((n - 1 + k : ℕ) : ℤ) = -1)]
      have hstep : travStep n (left_nodes codes n) E ((n - 1 + k : ℕ) : ℤ)
          = e := by
        unfold travStep
        rw [if_neg (by omega : ¬ ((n - 1 + k : ℕ) : ℤ) < (n : ℤ) - 1)]
        rw [Int.toNat_natCast]
        exact hesc
      rw [hstep]
      simp
  | node i l r ihl ihr =>
    intro hrep e E hesc fuel hfuel
    obtain ⟨h1, h2, h3, h4, h5⟩ := hrep
    obtain ⟨he1, he2, he3⟩ := hesc
    cases fuel with
    | zero => simp [szT] at hfuel
    | succ f =>
      simp only [nid, idsT, List.map_cons, List.map_append, List.cons_append]
      rw [travRun, if_neg (by omega : ¬ ((i : ℕ) : ℤ) = -1)]
      have hstep : travStep n (left_nodes codes n) E ((i : ℕ) : ℤ)
          = ((nid n l : ℕ) : ℤ) := by
        unfold travStep
        rw [if_pos (by omega : ((i : ℕ) : ℤ) < (n : ℤ) - 1)]
        rw [Int.toNat_natCast]
        exact h2
      rw [hstep]
      have hfl : szT l ≤ f := by simp only [szT] at hfuel; omega
      rw [ihl h4 ((nid n r : ℕ) : ℤ) E he2 f hfl]
      have hfr : szT r ≤ f - szT l := by simp only [szT] at hfuel; omega
      rw [ihr h5 e E he3 (f - szT l) hfr]
      have harr : f - szT l - szT r = (f + 1) - szT (BTree.node i l r) := by
        simp only [szT]
        omega
      rw [harr]
      simp [List.append_assoc]

theorem escape_pointwise {codes : ℕ → ℕ} {n : ℕ} (hn : n ≤ 2 ^ 30)
    (hc : ∀ a, a < n → codes a < 2 ^ 30)
    (hs : ∀ a b, a ≤ b → b < n → codes a ≤ codes b)
    (hn2 : 2 ≤ n) (e0 : ℕ → ℤ) :
    ∀ w ∈ specWrites n (canonSub codes .low 0 (n - 1)) (-1),
      buildEscape n (left_nodes codes n) (right_nodes codes n) e0 w.1 =
        w.2 := by
  obtain ⟨hrep, hroot, hcnt⟩ := root_tree hn hc hs hn2
  have hsz : szT (canonSub codes .low 0 (n - 1)) ≤ 2 * n - 1 := by
    have := szT_canon codes (n - 1) 0 (n - 1) .low (by omega)
    omega
  have hnd : ((specWrites n (canonSub codes .low 0 (n - 1)) (-1)).map
      Prod.fst).Nodup := by
    rw [specWrites_keys]
    refine List.nodup_iff_count_le_one.mpr (fun v => ?_)
    rw [hcnt v]
    split_ifs <;> omega
  have hperm := @writes_perm_spec n (canonSub codes .low 0 (n - 1)) (-1)
  have hlast := escapeThread_last (canonSub codes .low 0 (n - 1)) hrep
    hroot hsz
  have hint := escapeThread_internal (canonSub codes .low 0 (n - 1)) hrep hsz
  -- every thread's writes are members of the spec list
  have hsub : ∀ tid, tid < n →
      ∀ w' ∈ escapeThreadWrites n (left_nodes codes n)
        (right_nodes codes n) tid,
        w' ∈ specWrites n (canonSub codes .low 0 (n - 1)) (-1) := by
    intro tid htid w' hw'
    by_cases hi : tid < n - 1
    · have hmem : tid ∈ (intTrees (canonSub codes .low 0 (n - 1))).map
          (fun t => t.1) := by
        rw [intTrees_fst]
        have hp := (intNodes_perm hn hc hs hn2).map (fun t : ℕ × ℕ × ℕ => t.1)
        rw [List.map_map] at hp
        have hid : (List.range (n - 1)).map
            ((fun t : ℕ × ℕ × ℕ => t.1) ∘ gSlot codes n) = List.range (n - 1) :=
          List.map_id (List.range (n - 1))
        rw [hid] at hp
        exact hp.symm.mem_iff.mp (List.mem_range.mpr hi)
      obtain ⟨t, ht, hteq⟩ := List.mem_map.mp hmem
      rw [← hteq] at hw'
      rw [hint t ht] at hw'
      refine hperm.mem_iff.mp (List.mem_append.mpr (Or.inr ?_))
      exact List.mem_flatMap.mpr ⟨t, ht, hw'⟩
    · have htid' : tid = n - 1 := by omega
      rw [htid', hlast] at hw'
      exact hperm.mem_iff.mp (List.mem_append.mpr (Or.inl hw'))
  intro w hw
  unfold buildEscape
  refine gfold_agree _ w.1 w.2 (List.range n) e0 ?_ ?_
  · -- some thread writes w
    have hw' := hperm.symm.mem_iff.mp hw
    rcases List.mem_append.mp hw' with hm | hm
    · refine ⟨n - 1, List.mem_range.mpr (by omega), w, ?_, rfl⟩
      rw [hlast]
      exact hm
    · obtain ⟨t, ht, hm2⟩ := List.mem_flatMap.mp hm
      have h1 := (intTrees_rep _ hrep t ht).1
      refine ⟨t.1, List.mem_range.mpr (by omega), w, ?_, rfl⟩
      rw [hint t ht]
      exact hm2
  · intro tid htid w' hw' hkey
    have hws := hsub tid (List.mem_range.mp htid) w' hw'
    have := keys_nodup_unique _ hnd w' hws w hw hkey
    rw [this]

/-! ## Claim C3: escape indices drive a complete stackless DFS -/

/-- **C3.** After `assign_escape_indices_kernel` runs all `N` threads
(`N ≥ 1`) over the topology the construction kernel produced, starting
from any previous `escape_indices` contents: every node of the canonical
tree holds the id of the next node a depth-first traversal visits after
skipping that node's subtree (`EscCorrect`, with `-1` past the end);
a node's escape is `-1` exactly when it lies on the right spine of the
root; and the stackless DFS from node 0 — left child at an internal node,
escape link at a leaf — visits all `2N-1` node ids in preorder, each
exactly once, and terminates at `-1`. -/
theorem claim_C3 (codes : ℕ → ℕ) (n : ℕ) (hn : n ≤ 2 ^ 30)
    (hc : ∀ a, a < n → codes a < 2 ^ 30)
    (hs : ∀ a b, a ≤ b → b < n → codes a ≤ codes b)
    (hn1 : 1 ≤ n) (e0 : ℕ → ℤ) :
    EscCorrect n (buildEscape n (left_nodes codes n) (right_nodes codes n) e0)
      (canonSub codes .low 0 (n - 1)) (-1) ∧
    (∀ v, v < 2 * n - 1 →
      (buildEscape n (left_nodes codes n) (right_nodes codes n) e0 v = -1 ↔
        v ∈ rightSpine n (canonSub codes .low 0 (n - 1)))) ∧
    (∀ v, v < 2 * n - 1 →
      (idsT n (canonSub codes .low 0 (n - 1))).count v = 1) ∧
    travRun n (left_nodes codes n)
      (buildEscape n (left_nodes codes n) (right_nodes codes n) e0)
      (2 * n) 0 =
      ((idsT n (canonSub codes .low 0 (n - 1))).map (fun v => (v : ℤ)),
        -1) := by
  by_cases hn2 : 2 ≤ n
  · obtain ⟨hrep, hroot, hcnt⟩ := root_tree hn hc hs hn2
    have hszeq := szT_canon codes (n - 1) 0 (n - 1) .low (by omega)
    have hpt := escape_pointwise hn hc hs hn2 e0
    have hesc := escCorrect_of_pointwise (canonSub codes .low 0 (n - 1))
      (-1) _ hpt
    refine ⟨hesc, ?_, ?_, ?_⟩
    · intro v hv
      constructor
      · intro hEv
        have hvin : v ∈ idsT n (canonSub codes .low 0 (n - 1)) := by
          have := hcnt v
          rw [if_pos (by omega)] at this
          exact List.count_pos_iff.mp (by omega)
        rw [← specWrites_keys (canonSub codes .low 0 (n - 1)) (-1)] at hvin
        obtain ⟨w, hw, hweq⟩ := List.mem_map.mp hvin
        have hval := hpt w hw
        rw [hweq, hEv] at hval
        have := specWrites_neg_spine (canonSub codes .low 0 (n - 1)) w hw
          hval.symm
        rw [hweq] at this
        exact this
      · intro hsp
        exact hpt (v, -1)
          (spine_mem_spec (canonSub codes .low 0 (n - 1)) (-1) v hsp)
    · intro v hv
      rw [hcnt v, if_pos (by omega)]
    · have h0 : (0 : ℤ) =
          ((nid n (canonSub codes .low 0 (n - 1)) : ℕ) : ℤ) := by
        rw [hroot]
        rfl
      rw [h0, travRun_tree (canonSub codes .low 0 (n - 1)) hrep (-1) _ hesc
        (2 * n) (by omega)]
      have hone : 2 * n - szT (canonSub codes .low 0 (n - 1)) = 1 := by
        omega
      rw [hone]
      have hrem : travRun n (left_nodes codes n)
          (buildEscape n (left_nodes codes n) (right_nodes codes n) e0)
          1 (-1) = ([], -1) := rfl
      rw [hrem]
      simp
  · have hne : n = 1 := by omega
    subst hne
    have hT : canonSub codes .low 0 (1 - 1) = .leaf 0 := by
      rw [canonSub, dif_pos (le_refl 0)]
    have hw : escapeThreadWrites 1 (left_nodes codes 1)
        (right_nodes codes 1) 0 = [(0, -1)] := rfl
    have hE0 : buildEscape 1 (left_nodes codes 1) (right_nodes codes 1)
        e0 0 = -1 := by
      show applyWrites e0 (escapeThreadWrites 1 (left_nodes codes 1)
        (right_nodes codes 1) 0) 0 = -1
      rw [hw]
      simp [applyWrites]
    rw [hT]
    refine ⟨hE0, ?_, ?_, ?_⟩
    · intro v hv
      have hv0 : v = 0 := by omega
      subst hv0
      simp only [rightSpine]
      constructor
      · intro _
        simp
      · intro _
        exact hE0
    · intro v hv
      have hv0 : v = 0 := by omega
      subst hv0
      simp [idsT]
    · have hstep : travStep 1 (left_nodes codes 1)
          (buildEscape 1 (left_nodes codes 1) (right_nodes codes 1) e0)
          0 = -1 := by
        unfold travStep
        split_ifs with h
        · exact absurd h (by omega)
        · exact hE0
      show travRun 1 (left_nodes codes 1) _ (1 + 1) 0 = _
      rw [travRun, if_neg (by omega : ¬ (0 : ℤ) = -1), hstep]
      simp [travRun, idsT]

/-- Witness for C3: two leaves with distinct keys, arbitrary previous
escape contents `fun _ => 7`. -/
theorem claim_C3_witness :
    ((2 : ℕ) ≤ 2 ^ 30 ∧ 1 ≤ 2) ∧
    (EscCorrect 2 (buildEscape 2 (left_nodes (fun a => a) 2)
        (right_nodes (fun a => a) 2) (fun _ => 7))
      (canonSub (fun a => a) .low 0 (2 - 1)) (-1) ∧
    (∀ v, v < 2 * 2 - 1 →
      (buildEscape 2 (left_nodes (fun a => a) 2)
          (right_nodes (fun a => a) 2) (fun _ => 7) v = -1 ↔
        v ∈ rightSpine 2 (canonSub (fun a => a) .low 0 (2 - 1)))) ∧
    (∀ v, v < 2 * 2 - 1 →
      (idsT 2 (canonSub (fun a => a) .low 0 (2 - 1))).count v = 1) ∧
    travRun 2 (left_nodes (fun a => a) 2)
      (buildEscape 2 (left_nodes (fun a => a) 2)
        (right_nodes (fun a => a) 2) (fun _ => 7))
      (2 * 2) 0 =
      ((idsT 2 (canonSub (fun a => a) .low 0 (2 - 1))).map
        (fun v => (v : ℤ)), -1)) :=
  ⟨⟨by norm_num, by norm_num⟩,
   claim_C3 (fun a => a) 2 (by norm_num)
     (fun a ha => lt_of_lt_of_le ha (by norm_num))
     (fun a b hab _ => hab) (by norm_num) (fun _ => 7)⟩

/-! ## Claim C9: the writes of the escape kernel's last thread -/

/-- **C9 (amended).** The escape-index kernel is launched with one thread
per leaf; the thread `N-1` (the only thread with `tid ≥ N-1`) does write:
its writes are exactly the right spine of the root paired with `-1` — in
particular it writes the root's escape entry `escape[0] = -1` itself,
rather than relying on prior initialization. -/
theorem claim_C9 (codes : ℕ → ℕ) (n : ℕ) (hn : n ≤ 2 ^ 30)
    (hc : ∀ a, a < n → codes a < 2 ^ 30)
    (hs : ∀ a b, a ≤ b → b < n → codes a ≤ codes b) (hn2 : 2 ≤ n) :
    escapeThreadWrites n (left_nodes codes n) (right_nodes codes n)
      (n - 1) =
      (rightSpine n (canonSub codes .low 0 (n - 1))).map
        (fun u => (u, (-1 : ℤ))) ∧
    (0, (-1 : ℤ)) ∈ escapeThreadWrites n (left_nodes codes n)
      (right_nodes codes n) (n - 1) := by
  obtain ⟨hrep, hroot, hcnt⟩ := root_tree hn hc hs hn2
  have hsz : szT (canonSub codes .low 0 (n - 1)) ≤ 2 * n - 1 := by
    have := szT_canon codes (n - 1) 0 (n - 1) .low (by omega)
    omega
  have hfirst := escapeThread_last (canonSub codes .low 0 (n - 1)) hrep
    hroot hsz
  refine ⟨hfirst, ?_⟩
  obtain ⟨rest, hrs⟩ := @rightSpine_head n (canonSub codes .low 0 (n - 1))
  rw [hfirst, hrs, hroot]
  simp

/-- Counterexample for C9: with two leaves (keys 0,1), thread 1 — the one
thread with `tid ≥ N-1` — writes the root's and the rightmost leaf's
escape entries; it does not write nothing, and the root's `-1` comes from
this kernel's write. -/
theorem claim_C9_cex :
    escapeThreadWrites 2 (left_nodes (fun a => a) 2)
      (right_nodes (fun a => a) 2) 1 = [(0, -1), (2, -1)] := by
  rfl

/-- Witness for C9: the two-leaf instance. -/
theorem claim_C9_witness :
    ((2 : ℕ) ≤ 2 ^ 30 ∧ 2 ≤ 2) ∧
    (escapeThreadWrites 2 (left_nodes (fun a => a + a) 2)
      (right_nodes (fun a => a + a) 2) (2 - 1) =
      (rightSpine 2 (canonSub (fun a => a + a) .low 0 (2 - 1))).map
        (fun u => (u, (-1 : ℤ))) ∧
    (0, (-1 : ℤ)) ∈ escapeThreadWrites 2 (left_nodes (fun a => a + a) 2)
      (right_nodes (fun a => a + a) 2) (2 - 1)) :=
  ⟨⟨by norm_num, by norm_num⟩,
   claim_C9 (fun a => a + a) 2 (by norm_num)
     (fun a ha => by show a + a < 2 ^ 30; omega)
     (fun a b hab _ => by show a + a ≤ b + b; omega) (by norm_num)⟩

/-! ## The bottom-up refit kernel (`assign_bounding_boxes_kernel`)

One thread per leaf.  Thread `tid` writes its leaf box, then climbs the
parent chain; at each parent it performs `wp.atomic_add(flags, parent, 1)`
and returns when the old value is not 1, otherwise merges its box with the
sibling's, writes the parent box and continues.  The kernel is concurrent;
it is modelled by an interleaving semantics in which a scheduler (an
arbitrary list of thread ids) picks which thread performs its next atomic
step.  One step is one loop iteration (atomic read-modify-write, sibling
read, box write): the `threadfence()` before the atomic and the atomic
read-modify-write itself give release/acquire ordering, so the second
thread to arrive at a parent observes the first arriver's completed box
write, which makes this granularity observationally faithful.
`wcount` is a ghost write counter per box slot. -/

/-- The arrays the refit kernel reads (one record per launch). -/
structure RefitEnv where
  n : ℕ
  la : ℕ → ℤ
  ra : ℕ → ℤ
  pa : ℕ → ℤ
  leaf_arr : ℕ → ℤ
  lowb : ℕ → V3
  upb : ℕ → V3

/-- Where a refit thread stands: before its first step, inside the climb
(`cur`, `parent_index`, its private `aabb` register), or returned. -/
inductive ThreadPhase where
  | start
  | run (cur : ℕ) (par : ℤ) (box : Aabb)
  | halt
deriving DecidableEq, Repr

/-- Shared state of the refit kernel plus per-thread phases and the ghost
write counter. -/
structure RefitState where
  flags : ℕ → ℕ
  boxes : ℕ → Aabb
  wcount : ℕ → ℕ
  phase : ℕ → ThreadPhase

/-- One atomic step of thread `tid`, straight from the kernel body. -/
def threadStep (env : RefitEnv) (st : RefitState) (tid : ℕ) : RefitState :=
  match st.phase tid with
  | .start =>
      let cur := env.n - 1 + tid
      let box : Aabb := ⟨env.lowb (env.leaf_arr tid).toNat,
        env.upb (env.leaf_arr tid).toNat⟩
      { flags := st.flags
        boxes := Function.update st.boxes cur box
        wcount := Function.update st.wcount cur (st.wcount cur + 1)
        phase := Function.update st.phase tid (.run cur (env.pa cur) box) }
  | .run cur par box =>
      if par = -1 then
        { st with phase := Function.update st.phase tid .halt }
      else if st.flags par.toNat = 1 then
        let box' := if (cur : ℤ) = env.la par.toNat then
            aabb_merge box (st.boxes (env.ra par.toNat).toNat)
          else if (cur : ℤ) = env.ra par.toNat then
            aabb_merge box (st.boxes (env.la par.toNat).toNat)
          else box
        { flags := Function.update st.flags par.toNat
            (st.flags par.toNat + 1)
          boxes := Function.update st.boxes par.toNat box'
          wcount := Function.update st.wcount par.toNat
            (st.wcount par.toNat + 1)
          phase := Function.update st.phase tid
            (.run par.toNat (env.pa par.toNat) box') }
      else
        { flags := Function.update st.flags par.toNat
            (st.flags par.toNat + 1)
          boxes := st.boxes
          wcount := st.wcount
          phase := Function.update st.phase tid .halt }
  | .halt => st

/-- Run a schedule (a list of thread ids, each taking one step in turn). -/
def runSched (env : RefitEnv) (sched : List ℕ) (st : RefitState) :
    RefitState :=
  sched.foldl (threadStep env) st

/-- The state when the kernel launches: flags zeroed (refit resets them),
box buffer holding arbitrary previous contents, ghost counters zero. -/
def initState (b0 : ℕ → Aabb) : RefitState :=
  ⟨fun _ => 0, b0, fun _ => 0, fun _ => .start⟩

/-- The correct bounding box of a subtree: its leaf box for a leaf (read
through the leaf permutation), the merge of the children otherwise. -/
def sbox (env : RefitEnv) : BTree → Aabb
  | .leaf k => ⟨env.lowb (env.leaf_arr k).toNat, env.upb (env.leaf_arr k).toNat⟩
  | .node _ l r => aabb_merge (sbox env l) (sbox env r)

/-- All subtrees of a tree (the tree itself included). -/
def subTs : BTree → List BTree
  | .leaf k => [.leaf k]
  | .node i l r => .node i l r :: (subTs l ++ subTs r)

/-- (parent id, child subtree) pairs of a tree. -/
def chPairs : BTree → List (ℕ × BTree)
  | .leaf _ => []
  | .node i l r => (i, l) :: (i, r) :: (chPairs l ++ chPairs r)

theorem idsT_eq_subTs {n : ℕ} :
    ∀ T : BTree, idsT n T = (subTs T).map (nid n) := by
  intro T
  induction T with
  | leaf k => rfl
  | node i l r ihl ihr =>
    simp only [idsT, subTs, List.map_cons, List.map_append, ihl, ihr, nid]

theorem subTs_self : ∀ T : BTree, T ∈ subTs T := by
  intro T
  cases T with
  | leaf k => simp [subTs]
  | node i l r => simp [subTs]

theorem subTs_children : ∀ T S : BTree, S ∈ subTs T →
    ∀ i l r, S = .node i l r → l ∈ subTs T ∧ r ∈ subTs T := by
  intro T
  induction T with
  | leaf k =>
    intro S hS i l r he
    simp only [subTs, List.mem_singleton] at hS
    rw [hS] at he
    exact absurd he (by simp)
  | node j a b iha ihb =>
    intro S hS i l r he
    simp only [subTs, List.mem_cons, List.mem_append] at hS
    rcases hS with h | h | h
    · rw [h] at he
      injection he with e1 e2 e3
      subst e2
      subst e3
      constructor
      · simp only [subTs, List.mem_cons, List.mem_append]
        exact Or.inr (Or.inl (subTs_self _))
      · simp only [subTs, List.mem_cons, List.mem_append]
        exact Or.inr (Or.inr (subTs_self _))
    · obtain ⟨c1, c2⟩ := iha S h i l r he
      constructor <;> simp only [subTs, List.mem_cons, List.mem_append]
      · exact Or.inr (Or.inl c1)
      · exact Or.inr (Or.inl c2)
    · obtain ⟨c1, c2⟩ := ihb S h i l r he
      constructor <;> simp only [subTs, List.mem_cons, List.mem_append]
      · exact Or.inr (Or.inr c1)
      · exact Or.inr (Or.inr c2)

theorem subTs_ids_sublist {n : ℕ} :
    ∀ T S : BTree, S ∈ subTs T → (idsT n S).Sublist (idsT n T) := by
  intro T
  induction T with
  | leaf k =>
    intro S hS
    simp only [subTs, List.mem_singleton] at hS
    rw [hS]
  | node j a b iha ihb =>
    intro S hS
    simp only [subTs, List.mem_cons, List.mem_append] at hS
    rcases hS with h | h | h
    · rw [h]
    · refine List.Sublist.trans (iha S h) ?_
      simp only [idsT]
      exact (List.sublist_append_left _ _).cons _
    · refine List.Sublist.trans (ihb S h) ?_
      simp only [idsT]
      exact (List.sublist_append_right _ _).cons _

theorem nid_mem_ids {n : ℕ} : ∀ S : BTree, nid n S ∈ idsT n S := by
  intro S
  cases S <;> simp [idsT, nid]

theorem child_in_chPairs : ∀ T S : BTree, S ∈ subTs T →
    ∀ i l r, S = .node i l r → (i, l) ∈ chPairs T ∧ (i, r) ∈ chPairs T := by
  intro T
  induction T with
  | leaf k =>
    intro S hS i l r he
    simp only [subTs, List.mem_singleton] at hS
    rw [hS] at he
    exact absurd he (by simp)
  | node j a b iha ihb =>
    intro S hS i l r he
    simp only [subTs, List.mem_cons, List.mem_append] at hS
    rcases hS with h | h | h
    · rw [h] at he
      injection he with e1 e2 e3
      subst e1
      subst e2
      subst e3
      constructor <;> simp [chPairs]
    · obtain ⟨c1, c2⟩ := iha S h i l r he
      constructor <;> simp only [chPairs, List.mem_cons, List.mem_append]
      · exact Or.inr (Or.inr (Or.inl c1))
      · exact Or.inr (Or.inr (Or.inl c2))
    · obtain ⟨c1, c2⟩ := ihb S h i l r he
      constructor <;> simp only [chPairs, List.mem_cons, List.mem_append]
      · exact Or.inr (Or.inr (Or.inr c1))
      · exact Or.inr (Or.inr (Or.inr c2))

theorem chPairs_parent : ∀ T : BTree, ∀ p ∈ chPairs T,
    ∃ a b, BTree.node p.1 a b ∈ subTs T ∧ (p.2 = a ∨ p.2 = b) := by
  intro T
  induction T with
  | leaf k => intro p hp; simp [chPairs] at hp
  | node j a b iha ihb =>
    intro p hp
    simp only [chPairs, List.mem_cons, List.mem_append] at hp
    rcases hp with h | h | h | h
    · rw [h]
      exact ⟨a, b, subTs_self _, Or.inl rfl⟩
    · rw [h]
      exact ⟨a, b, subTs_self _, Or.inr rfl⟩
    · obtain ⟨x, y, hm, hor⟩ := iha p h
      refine ⟨x, y, ?_, hor⟩
      simp only [subTs, List.mem_cons, List.mem_append]
      exact Or.inr (Or.inl hm)
    · obtain ⟨x, y, hm, hor⟩ := ihb p h
      refine ⟨x, y, ?_, hor⟩
      simp only [subTs, List.mem_cons, List.mem_append]
      exact Or.inr (Or.inr hm)

theorem non_root_child : ∀ T S : BTree, S ∈ subTs T → S ≠ T →
    ∃ j a b, BTree.node j a b ∈ subTs T ∧ (S = a ∨ S = b) := by
  intro T
  induction T with
  | leaf k =>
    intro S hS hne
    simp only [subTs, List.mem_singleton] at hS
    exact absurd hS hne
  | node j a b iha ihb =>
    intro S hS hne
    simp only [subTs, List.mem_cons, List.mem_append] at hS
    rcases hS with h | h | h
    · exact absurd h hne
    · by_cases hSa : S = a
      · exact ⟨j, a, b, subTs_self _, Or.inl hSa⟩
      · obtain ⟨j', x, y, hm, hor⟩ := iha S h hSa
        refine ⟨j', x, y, ?_, hor⟩
        simp only [subTs, List.mem_cons, List.mem_append]
        exact Or.inr (Or.inl hm)
    · by_cases hSb : S = b
      · exact ⟨j, a, b, subTs_self _, Or.inr hSb⟩
      · obtain ⟨j', x, y, hm, hor⟩ := ihb S h hSb
        refine ⟨j', x, y, ?_, hor⟩
        simp only [subTs, List.mem_cons, List.mem_append]
        exact Or.inr (Or.inr hm)

theorem chPairs_count {n : ℕ} : ∀ (T : BTree) (v : ℕ),
    ((chPairs T).map (fun p => nid n p.2)).count v + (if v = nid n T then 1 else 0)
      = (idsT n T).count v := by
  intro T
  induction T with
  | leaf k =>
    intro v
    by_cases h : v = n - 1 + k <;>
      simp [chPairs, idsT, nid, List.count_cons, h]
  | node j a b iha ihb =>
    intro v
    have ha := iha v
    have hb := ihb v
    have hnn : nid n (BTree.node j a b) = j := rfl
    have hna : (fun p : ℕ × BTree => nid n p.2) = fun p => nid n p.2 := rfl
    simp only [chPairs, List.map_cons, List.map_append, idsT, hnn]
    rw [List.count_cons, List.count_cons, List.count_append,
      List.count_cons, List.count_append]
    simp only [beq_iff_eq]
    split_ifs at ha hb ⊢ <;> omega

/-- A tree node is complete when its box value is final: a leaf once its
thread has initialized, an internal node once its flag reached 2. -/
def completeF (flags : ℕ → ℕ) (phase : ℕ → ThreadPhase) : BTree → Prop
  | .leaf k => phase k ≠ .start
  | .node i _ _ => flags i = 2

/-- Node id `v` is currently carried: some live thread's cursor is at `v`. -/
def carriedF (phase : ℕ → ThreadPhase) (n v : ℕ) : Prop :=
  ∃ tid, tid < n ∧ ∃ par box, phase tid = .run v par box

theorem completeF_phase_ne {flags phase tid val}
    (h : phase tid ≠ ThreadPhase.start) (hv : val ≠ ThreadPhase.start) :
    ∀ S, completeF flags (Function.update phase tid val) S ↔
      completeF flags phase S := by
  intro S
  cases S with
  | leaf k =>
    by_cases hk : k = tid
    · subst hk
      simp only [completeF, Function.update_apply, if_pos rfl]
      exact ⟨fun _ => h, fun _ => hv⟩
    · simp only [completeF, Function.update_apply, if_neg hk]
  | node i l r => simp only [completeF]

theorem completeF_phase_init {flags phase tid val}
    (h : phase tid = ThreadPhase.start) (hv : val ≠ ThreadPhase.start) :
    ∀ S, completeF flags (Function.update phase tid val) S ↔
      (completeF flags phase S ∨ S = .leaf tid) := by
  intro S
  cases S with
  | leaf k =>
    by_cases hk : k = tid
    · subst hk
      simp only [completeF, Function.update_apply, if_pos rfl]
      constructor
      · intro _
        exact Or.inr trivial
      · intro _
        exact hv
    · simp only [completeF, Function.update_apply, if_neg hk]
      constructor
      · intro hh
        exact Or.inl hh
      · intro hh
        rcases hh with hh | hh
        · exact hh
        · injection hh with hh'
          exact absurd hh' hk
  | node i l r =>
    simp only [completeF]
    constructor
    · intro hh
      exact Or.inl hh
    · intro hh
      rcases hh with hh | hh
      · exact hh
      · exact absurd hh (by simp)

theorem completeF_flags_ne2 {flags phase} {j w : ℕ} (hw : w ≠ 2)
    (hold : flags j ≠ 2) :
    ∀ S, completeF (Function.update flags j w) phase S ↔
      completeF flags phase S := by
  intro S
  cases S with
  | leaf k => simp only [completeF]
  | node i l r =>
    by_cases hij : i = j
    · subst hij
      simp only [completeF, Function.update_apply, if_pos rfl]
      constructor
      · intro hh
        exact absurd hh hw
      · intro hh
        exact absurd hh hold
    · simp only [completeF, Function.update_apply, if_neg hij]

theorem completeF_flags_two {flags phase} {j : ℕ} :
    ∀ S, completeF (Function.update flags j 2) phase S ↔
      (completeF flags phase S ∨ ∃ l r, S = .node j l r) := by
  intro S
  cases S with
  | leaf k =>
    simp only [completeF]
    constructor
    · intro hh
      exact Or.inl hh
    · intro hh
      rcases hh with hh | ⟨l, r, hh⟩
      · exact hh
      · exact absurd hh (by simp)
  | node i l r =>
    by_cases hij : i = j
    · subst hij
      simp only [completeF, Function.update_apply, if_pos rfl]
      constructor
      · intro _
        exact Or.inr ⟨l, r, rfl⟩
      · intro _
        rfl
    · simp only [completeF, Function.update_apply, if_neg hij]
      constructor
      · intro hh
        exact Or.inl hh
      · intro hh
        rcases hh with hh | ⟨l', r', hh⟩
        · exact hh
        · injection hh with h1
          exact absurd h1 hij

theorem carriedF_intro {phase : ℕ → ThreadPhase} {n tid : ℕ}
    (htid : tid < n) (v : ℕ) (par : ℤ) (box : Aabb) :
    carriedF (Function.update phase tid (.run v par box)) n v := by
  exact ⟨tid, htid, par, box, by simp⟩

theorem carriedF_elim {phase : ℕ → ThreadPhase} {n tid u : ℕ}
    {val : ThreadPhase}
    (h : carriedF (Function.update phase tid val) n u) :
    (∃ par box, val = .run u par box ∧ tid < n) ∨
    (∃ tid', tid' < n ∧ tid' ≠ tid ∧ ∃ par box,
      phase tid' = .run u par box) := by
  obtain ⟨tid', h1, par, box, h2⟩ := h
  by_cases he : tid' = tid
  · subst he
    rw [Function.update_apply, if_pos rfl] at h2
    exact Or.inl ⟨par, box, h2, h1⟩
  · rw [Function.update_apply, if_neg he] at h2
    exact Or.inr ⟨tid', h1, he, par, box, h2⟩

theorem carriedF_mono {phase : ℕ → ThreadPhase} {n tid u : ℕ}
    {val : ThreadPhase}
    (h : ∃ tid', tid' < n ∧ tid' ≠ tid ∧ ∃ par box,
      phase tid' = .run u par box) :
    carriedF (Function.update phase tid val) n u := by
  obtain ⟨tid', h1, h2, par, box, h3⟩ := h
  exact ⟨tid', h1, par, box, by rw [Function.update_apply, if_neg h2]; exact h3⟩

theorem subTs_sz : ∀ T S : BTree, S ∈ subTs T → szT S ≤ szT T := by
  intro T
  induction T with
  | leaf k =>
    intro S hS
    simp only [subTs, List.mem_singleton] at hS
    rw [hS]
  | node j a b iha ihb =>
    intro S hS
    simp only [subTs, List.mem_cons, List.mem_append] at hS
    rcases hS with h | h | h
    · rw [h]
    · have := iha S h
      simp only [szT]
      omega
    · have := ihb S h
      simp only [szT]
      omega

theorem root_not_child : ∀ (T : BTree) {i : ℕ} {l r : BTree},
    BTree.node i l r ∈ subTs T → l ≠ T ∧ r ≠ T := by
  intro T i l r hm
  have hsz := subTs_sz T _ hm
  simp only [szT] at hsz
  constructor
  · intro he
    rw [he] at hsz
    have h1 : 1 ≤ szT r := by cases r <;> simp [szT]
    omega
  · intro he
    rw [he] at hsz
    have h1 : 1 ≤ szT l := by cases l <;> simp [szT]
    omega

theorem map_nodup_inj {α β : Type} :
    ∀ (l : List α) (f : α → β), (l.map f).Nodup →
      ∀ x ∈ l, ∀ y ∈ l, f x = f y → x = y := by
  intro l f
  induction l with
  | nil => intro _ x hx; simp at hx
  | cons u rest ih =>
    intro hnd x hx y hy he
    simp only [List.map_cons, List.nodup_cons, List.mem_map] at hnd
    obtain ⟨hnotin, hnd'⟩ := hnd
    rcases List.mem_cons.mp hx with h1 | h1 <;>
      rcases List.mem_cons.mp hy with h2 | h2
    · rw [h1, h2]
    · exact absurd ⟨y, h2, by rw [← he, h1]⟩ hnotin
    · exact absurd ⟨x, h1, by rw [he, h2]⟩ hnotin
    · exact ih hnd' x h1 y h2 he

theorem subTs_id_inj {n : ℕ} {T : BTree} (hnd : (idsT n T).Nodup) :
    ∀ S ∈ subTs T, ∀ S' ∈ subTs T, nid n S = nid n S' → S = S' := by
  rw [idsT_eq_subTs] at hnd
  exact map_nodup_inj (subTs T) (nid n) hnd

theorem chPairs_nodup {n : ℕ} {T : BTree} (hnd : (idsT n T).Nodup) :
    ((chPairs T).map (fun p => nid n p.2)).Nodup := by
  refine List.nodup_iff_count_le_one.mpr (fun v => ?_)
  have h1 := @chPairs_count n T v
  have h2 := List.nodup_iff_count_le_one.mp hnd v
  omega

theorem chPairs_inj {n : ℕ} {T : BTree} (hnd : (idsT n T).Nodup) :
    ∀ p ∈ chPairs T, ∀ p' ∈ chPairs T, nid n p.2 = nid n p'.2 → p = p' :=
  map_nodup_inj (chPairs T) (fun p => nid n p.2) (chPairs_nodup hnd)

/-- `ph` is a running phase whose cursor is `v`. -/
def isRunAt : ThreadPhase → ℕ → Prop
  | .run c _ _, v => c = v
  | _, _ => False

instance isRunAt_dec : ∀ (ph : ThreadPhase) (v : ℕ), Decidable (isRunAt ph v)
  | .run c _ _, v => (inferInstance : Decidable (c = v))
  | .start, _ => (inferInstance : Decidable False)
  | .halt, _ => (inferInstance : Decidable False)

theorem isRunAt_iff (ph : ThreadPhase) (v : ℕ) :
    isRunAt ph v ↔ ∃ par box, ph = .run v par box := by
  cases ph with
  | start => simp [isRunAt]
  | run c p b =>
    constructor
    · intro h
      exact ⟨p, b, by rw [h]⟩
    · intro ⟨par, box, he⟩
      injection he with h1 h2 h3
  | halt => simp [isRunAt]

instance carriedF_dec (phase : ℕ → ThreadPhase) (n v : ℕ) :
    Decidable (carriedF phase n v) :=
  decidable_of_iff (∃ tid ∈ List.range n, isRunAt (phase tid) v)
    (by simp only [List.mem_range, isRunAt_iff, carriedF])

instance completeF_dec (flags : ℕ → ℕ) (phase : ℕ → ThreadPhase) :
    ∀ S : BTree, Decidable (completeF flags phase S)
  | .leaf k => (inferInstance : Decidable (phase k ≠ .start))
  | .node i _ _ => (inferInstance : Decidable (flags i = 2))

/-- The interleaving invariant of the refit kernel over topology `T`:
every live thread carries a completed subtree whose box it has written;
at most one thread is at a node; each internal flag counts its delivered
children (complete and no longer carried); completed boxes hold the
subtree merge; the ghost write counter is 1 exactly on completed nodes;
and a carried node is complete. -/
structure RefitInv (env : RefitEnv) (T : BTree) (st : RefitState) : Prop where
  run_ok : ∀ tid, tid < env.n → ∀ cur par box,
    st.phase tid = .run cur par box →
    ∃ S, S ∈ subTs T ∧ nid env.n S = cur ∧ par = env.pa cur ∧
      box = sbox env S ∧ st.boxes cur = sbox env S ∧
      completeF st.flags st.phase S
  uniq : ∀ tid, tid < env.n → ∀ tid', tid' < env.n →
    ∀ cur par box par' box', st.phase tid = .run cur par box →
      st.phase tid' = .run cur par' box' → tid = tid'
  flags_eq : ∀ i l r, BTree.node i l r ∈ subTs T →
    st.flags i =
      (if completeF st.flags st.phase l ∧
          ¬ carriedF st.phase env.n (nid env.n l) then 1 else 0) +
      (if completeF st.flags st.phase r ∧
          ¬ carriedF st.phase env.n (nid env.n r) then 1 else 0)
  boxes_ok : ∀ S ∈ subTs T, completeF st.flags st.phase S →
    st.boxes (nid env.n S) = sbox env S
  wcount_ok : ∀ S ∈ subTs T, st.wcount (nid env.n S) =
    if completeF st.flags st.phase S then 1 else 0
  carried_compl : ∀ S ∈ subTs T, carriedF st.phase env.n (nid env.n S) →
    completeF st.flags st.phase S

theorem inv_init (env : RefitEnv) (T : BTree) (b0 : ℕ → Aabb) :
    RefitInv env T (initState b0) := by
  refine ⟨?_, ?_, ?_, ?_, ?_, ?_⟩
  · intro tid _ cur par box h
    exact absurd h (by simp [initState])
  · intro tid _ tid' _ cur par box par' box' h
    exact absurd h (by simp [initState])
  · intro i l r _
    have hl : ¬ completeF (initState b0).flags (initState b0).phase l := by
      cases l <;> simp [completeF, initState]
    have hr : ¬ completeF (initState b0).flags (initState b0).phase r := by
      cases r <;> simp [completeF, initState]
    rw [if_neg (fun hh => hl hh.1), if_neg (fun hh => hr hh.1)]
    rfl
  · intro S _ hS
    exfalso
    cases S <;> simp [completeF, initState] at hS
  · intro S _
    have hS : ¬ completeF (initState b0).flags (initState b0).phase S := by
      cases S <;> simp [completeF, initState]
    rw [if_neg hS]
    rfl
  · intro S _ hS
    exact absurd hS (by simp [carriedF, initState])

theorem threadStep_start (env : RefitEnv) (st : RefitState) (tid : ℕ)
    (h : st.phase tid = .start) :
    threadStep env st tid =
      { flags := st.flags
        boxes := Function.update st.boxes (env.n - 1 + tid)
          ⟨env.lowb (env.leaf_arr tid).toNat, env.upb (env.leaf_arr tid).toNat⟩
        wcount := Function.update st.wcount (env.n - 1 + tid)
          (st.wcount (env.n - 1 + tid) + 1)
        phase := Function.update st.phase tid
          (.run (env.n - 1 + tid) (env.pa (env.n - 1 + tid))
            ⟨env.lowb (env.leaf_arr tid).toNat,
              env.upb (env.leaf_arr tid).toNat⟩) } := by
  unfold threadStep
  rw [h]

theorem threadStep_halt (env : RefitEnv) (st : RefitState) (tid : ℕ)
    (h : st.phase tid = .halt) : threadStep env st tid = st := by
  unfold threadStep
  rw [h]

theorem threadStep_run_root (env : RefitEnv) (st : RefitState) (tid : ℕ)
    (cur : ℕ) (box : Aabb) (h : st.phase tid = .run cur (-1) box) :
    threadStep env st tid =
      { st with phase := Function.update st.phase tid .halt } := by
  unfold threadStep
  rw [h]
  exact if_pos rfl

theorem threadStep_run_win (env : RefitEnv) (st : RefitState) (tid : ℕ)
    (cur : ℕ) (par : ℤ) (box : Aabb) (h : st.phase tid = .run cur par box)
    (hpar : par ≠ -1) (hflag : st.flags par.toNat = 1) :
    threadStep env st tid =
      { flags := Function.update st.flags par.toNat (st.flags par.toNat + 1)
        boxes := Function.update st.boxes par.toNat
          (if (cur : ℤ) = env.la par.toNat then
            aabb_merge box (st.boxes (env.ra par.toNat).toNat)
          else if (cur : ℤ) = env.ra par.toNat then
            aabb_merge box (st.boxes (env.la par.toNat).toNat)
          else box)
        wcount := Function.update st.wcount par.toNat
          (st.wcount par.toNat + 1)
        phase := Function.update st.phase tid
          (.run par.toNat (env.pa par.toNat)
            (if (cur : ℤ) = env.la par.toNat then
              aabb_merge box (st.boxes (env.ra par.toNat).toNat)
            else if (cur : ℤ) = env.ra par.toNat then
              aabb_merge box (st.boxes (env.la par.toNat).toNat)
            else box)) } := by
  unfold threadStep
  rw [h]
  exact (if_neg hpar).trans (if_pos hflag)

theorem threadStep_run_lose (env : RefitEnv) (st : RefitState) (tid : ℕ)
    (cur : ℕ) (par : ℤ) (box : Aabb) (h : st.phase tid = .run cur par box)
    (hpar : par ≠ -1) (hflag : st.flags par.toNat ≠ 1) :
    threadStep env st tid =
      { flags := Function.update st.flags par.toNat (st.flags par.toNat + 1)
        boxes := st.boxes
        wcount := st.wcount
        phase := Function.update st.phase tid .halt } := by
  unfold threadStep
  rw [h]
  exact (if_neg hpar).trans (if_neg hflag)

theorem carriedF_update_iff {phase : ℕ → ThreadPhase} {n tid u : ℕ}
    {val : ThreadPhase}
    (hold : ∀ p b, phase tid ≠ .run u p b)
    (hnew : ∀ p b, val ≠ .run u p b) :
    carriedF (Function.update phase tid val) n u ↔ carriedF phase n u := by
  constructor
  · intro hc
    rcases carriedF_elim hc with ⟨p, b, he, _⟩ | ⟨tid', h1, h2, p, b, h3⟩
    · exact absurd he (hnew p b)
    · exact ⟨tid', h1, p, b, h3⟩
  · intro ⟨tid', h1, p, b, h3⟩
    have hne : tid' ≠ tid := fun he => hold p b (he ▸ h3)
    exact carriedF_mono ⟨tid', h1, hne, p, b, h3⟩

section RefitProof

variable {env : RefitEnv} {T : BTree}
variable (hnd : (idsT env.n T).Nodup)
variable (hch : ∀ i l r, BTree.node i l r ∈ subTs T →
  env.la i = ((nid env.n l : ℕ) : ℤ) ∧ env.ra i = ((nid env.n r : ℕ) : ℤ))
variable (hpa_root : env.pa (nid env.n T) = -1)
variable (hpa_child : ∀ i l r, BTree.node i l r ∈ subTs T →
  env.pa (nid env.n l) = (i : ℤ) ∧ env.pa (nid env.n r) = (i : ℤ))
variable (hleafmem : ∀ k, k < env.n → BTree.leaf k ∈ subTs T)

include hnd hleafmem in
theorem inv_step_start (st : RefitState) (hinv : RefitInv env T st)
    (tid : ℕ) (htid : tid < env.n) (h : st.phase tid = .start) :
    RefitInv env T (threadStep env st tid) := by
  rw [threadStep_start env st tid h]
  have hLf : BTree.leaf tid ∈ subTs T := hleafmem tid htid
  have hnidLf : nid env.n (BTree.leaf tid) = env.n - 1 + tid := rfl
  have hnotc : ¬ completeF st.flags st.phase (BTree.leaf tid) := by
    simp [completeF, h]
  have hnc : ¬ carriedF st.phase env.n (env.n - 1 + tid) := by
    intro ⟨tid', h1, par, box, h2⟩
    obtain ⟨S', hS', hid', _, _, _, hcmp'⟩ := hinv.run_ok tid' h1 _ _ _ h2
    have hSe : S' = BTree.leaf tid :=
      subTs_id_inj hnd S' hS' _ hLf (by rw [hid', hnidLf])
    rw [hSe] at hcmp'
    exact hnotc hcmp'
  have hcompl := @completeF_phase_init st.flags st.phase tid
    (ThreadPhase.run (env.n - 1 + tid) (env.pa (env.n - 1 + tid))
      ⟨env.lowb (env.leaf_arr tid).toNat, env.upb (env.leaf_arr tid).toNat⟩)
    h (by simp)
  have hcar : ∀ u, u ≠ env.n - 1 + tid →
      (carriedF (Function.update st.phase tid
          (.run (env.n - 1 + tid) (env.pa (env.n - 1 + tid))
            ⟨env.lowb (env.leaf_arr tid).toNat,
              env.upb (env.leaf_arr tid).toNat⟩)) env.n u ↔
        carriedF st.phase env.n u) := by
    intro u hu
    refine carriedF_update_iff (fun p b he => ?_) (fun p b he => ?_)
    · rw [h] at he
      exact ThreadPhase.noConfusion he
    · injection he with e1 e2 e3
      exact hu e1.symm
  have hcond : ∀ c ∈ subTs T,
      (if completeF st.flags (Function.update st.phase tid
          (.run (env.n - 1 + tid) (env.pa (env.n - 1 + tid))
            ⟨env.lowb (env.leaf_arr tid).toNat,
              env.upb (env.leaf_arr tid).toNat⟩)) c ∧
        ¬ carriedF (Function.update st.phase tid
          (.run (env.n - 1 + tid) (env.pa (env.n - 1 + tid))
            ⟨env.lowb (env.leaf_arr tid).toNat,
              env.upb (env.leaf_arr tid).toNat⟩)) env.n (nid env.n c)
        then 1 else 0) =
      (if completeF st.flags st.phase c ∧
          ¬ carriedF st.phase env.n (nid env.n c) then 1 else 0) := by
    intro c hc
    by_cases hce : c = BTree.leaf tid
    · subst hce
      rw [if_neg (fun hh => hh.2 (carriedF_intro htid _ _ _)),
        if_neg (fun hh => hnotc hh.1)]
    · have hne2 : nid env.n c ≠ env.n - 1 + tid := fun he =>
        hce (subTs_id_inj hnd c hc _ hLf (by rw [he, hnidLf]))
      refine if_congr (and_congr ?_ (not_congr (hcar _ hne2))) rfl rfl
      rw [hcompl c]
      constructor
      · intro hh
        rcases hh with hh | hh
        · exact hh
        · exact absurd hh hce
      · exact Or.inl
  refine ⟨?_, ?_, ?_, ?_, ?_, ?_⟩
  · -- run_ok
    intro tid' h1 cur par box hph
    dsimp only at hph ⊢
    by_cases he : tid' = tid
    · subst he
      rw [Function.update_apply, if_pos rfl] at hph
      injection hph with e1 e2 e3
      refine ⟨BTree.leaf tid', hLf, ?_, ?_, ?_, ?_, ?_⟩
      · rw [hnidLf, e1]
      · rw [← e2, ← e1]
      · rw [← e3]
        rfl
      · rw [← e1]
        rw [Function.update_apply, if_pos rfl]
        rfl
      · simp only [completeF, Function.update_apply, if_pos rfl]
        simp
    · rw [Function.update_apply, if_neg he] at hph
      obtain ⟨S, hS, hid, hpar, hbox, hbxm, hcmp⟩ :=
        hinv.run_ok tid' h1 _ _ _ hph
      have hcurne : cur ≠ env.n - 1 + tid := by
        intro hcc
        have hSe : S = BTree.leaf tid :=
          subTs_id_inj hnd S hS _ hLf (by rw [hid, hcc, hnidLf])
        rw [hSe] at hcmp
        exact hnotc hcmp
      refine ⟨S, hS, hid, hpar, hbox, ?_, ?_⟩
      · rw [Function.update_apply, if_neg hcurne]
        exact hbxm
      · rw [hcompl S]
        exact Or.inl hcmp
  · -- uniq
    intro tid1 h1 tid2 h2 cur par box par' box' hp1 hp2
    dsimp only at hp1 hp2
    by_cases he1 : tid1 = tid <;> by_cases he2 : tid2 = tid
    · rw [he1, he2]
    · subst he1
      rw [Function.update_apply, if_pos rfl] at hp1
      rw [Function.update_apply, if_neg he2] at hp2
      injection hp1 with e1 e2 e3
      exfalso
      exact hnc (e1 ▸ ⟨tid2, h2, par', box', hp2⟩)
    · subst he2
      rw [Function.update_apply, if_pos rfl] at hp2
      rw [Function.update_apply, if_neg he1] at hp1
      injection hp2 with e1 e2 e3
      exfalso
      exact hnc (e1 ▸ ⟨tid1, h1, par, box, hp1⟩)
    · rw [Function.update_apply, if_neg he1] at hp1
      rw [Function.update_apply, if_neg he2] at hp2
      exact hinv.uniq tid1 h1 tid2 h2 cur par box par' box' hp1 hp2
  · -- flags_eq
    intro i l r hm
    obtain ⟨hl, hr⟩ := subTs_children T _ hm i l r rfl
    dsimp only
    rw [hcond l hl, hcond r hr]
    exact hinv.flags_eq i l r hm
  · -- boxes_ok
    intro S hS hc'
    dsimp only at hc' ⊢
    by_cases hce : S = BTree.leaf tid
    · subst hce
      rw [hnidLf, Function.update_apply, if_pos rfl]
      rfl
    · have hold : completeF st.flags st.phase S := by
        rw [hcompl S] at hc'
        rcases hc' with hh | hh
        · exact hh
        · exact absurd hh hce
      have hne2 : nid env.n S ≠ env.n - 1 + tid := fun he =>
        hce (subTs_id_inj hnd S hS _ hLf (by rw [he, hnidLf]))
      rw [Function.update_apply, if_neg hne2]
      exact hinv.boxes_ok S hS hold
  · -- wcount_ok
    intro S hS
    dsimp only
    by_cases hce : S = BTree.leaf tid
    · subst hce
      rw [hnidLf, Function.update_apply, if_pos rfl]
      have := hinv.wcount_ok _ hLf
      rw [if_neg hnotc] at this
      rw [hnidLf] at this
      rw [this]
      rw [if_pos]
      simp only [completeF, Function.update_apply, if_pos rfl]
      simp
    · have hne2 : nid env.n S ≠ env.n - 1 + tid := fun he =>
        hce (subTs_id_inj hnd S hS _ hLf (by rw [he, hnidLf]))
      rw [Function.update_apply, if_neg hne2]
      have := hinv.wcount_ok S hS
      rw [this]
      refine (if_congr ?_ rfl rfl).symm
      rw [hcompl S]
      constructor
      · intro hh
        rcases hh with hh | hh
        · exact hh
        · exact absurd hh hce
      · exact Or.inl
  · -- carried_compl
    intro S hS hcar'
    dsimp only at hcar' ⊢
    by_cases hce : S = BTree.leaf tid
    · subst hce
      simp only [completeF, Function.update_apply, if_pos rfl]
      simp
    · have hne2 : nid env.n S ≠ env.n - 1 + tid := fun he =>
        hce (subTs_id_inj hnd S hS _ hLf (by rw [he, hnidLf]))
      rw [hcar _ hne2] at hcar'
      rw [hcompl S]
      exact Or.inl (hinv.carried_compl S hS hcar')

include hnd in
theorem node_ids_ne : ∀ j a b, BTree.node j a b ∈ subTs T →
    nid env.n a ≠ nid env.n b ∧ j ≠ nid env.n a ∧ j ≠ nid env.n b := by
  intro j a b hm
  have hsub := @subTs_ids_sublist env.n T _ hm
  have hnodV : (idsT env.n (BTree.node j a b)).Nodup :=
    List.Nodup.sublist hsub hnd
  simp only [idsT, List.nodup_cons, List.nodup_append, List.mem_append] at hnodV
  obtain ⟨hj, hna, hnb, hdisj⟩ := hnodV
  have hma := @nid_mem_ids env.n a
  have hmb := @nid_mem_ids env.n b
  refine ⟨?_, ?_, ?_⟩
  · intro he
    exact hdisj hma (he ▸ hmb)
  · intro he
    exact hj (Or.inl (he ▸ hma))
  · intro he
    exact hj (Or.inr (he ▸ hmb))

include hnd hpa_root hpa_child in
theorem inv_step_root (st : RefitState) (hinv : RefitInv env T st)
    (tid : ℕ) (htid : tid < env.n) (cur : ℕ) (box : Aabb)
    (h : st.phase tid = .run cur (-1) box) :
    RefitInv env T (threadStep env st tid) := by
  rw [threadStep_run_root env st tid cur box h]
  obtain ⟨S, hS, hid, hparS, hbox, hbxm, hcmp⟩ := hinv.run_ok tid htid _ _ _ h
  -- the cursor is at the root
  have hST : S = T := by
    by_contra hne
    obtain ⟨j, a, b, hV, hside⟩ := non_root_child T S hS hne
    have hpc := hpa_child j a b hV
    rcases hside with hSa | hSb
    · rw [hSa] at hid
      rw [← hid] at hparS
      rw [hpc.1] at hparS
      omega
    · rw [hSb] at hid
      rw [← hid] at hparS
      rw [hpc.2] at hparS
      omega
  -- nobody else carries `cur`
  have hnccur : ∀ tid', tid' < env.n → tid' ≠ tid →
      ∀ p b, st.phase tid' ≠ .run cur p b := by
    intro tid' h1 hne p b hp
    exact hne (hinv.uniq tid' h1 tid htid cur p b (-1) box hp h)
  have hcompl : ∀ X, completeF st.flags
      (Function.update st.phase tid .halt) X ↔
      completeF st.flags st.phase X :=
    completeF_phase_ne (by rw [h]; simp) (by simp)
  have hcar : ∀ u, u ≠ cur →
      (carriedF (Function.update st.phase tid .halt) env.n u ↔
        carriedF st.phase env.n u) := by
    intro u hu
    refine carriedF_update_iff (fun p b he => ?_) (fun p b he => ?_)
    · rw [h] at he
      injection he with e1 e2 e3
      exact hu e1.symm
    · exact ThreadPhase.noConfusion he
  have hnc' : ¬ carriedF (Function.update st.phase tid .halt) env.n cur := by
    intro hcc
    rcases carriedF_elim hcc with ⟨p, b, he, _⟩ | ⟨tid', h1, h2, p, b, h3⟩
    · exact ThreadPhase.noConfusion he
    · exact hnccur tid' h1 h2 p b h3
  -- `cur` (the root id) is no node's child id
  have hnotchild : ∀ i l r, BTree.node i l r ∈ subTs T →
      nid env.n l ≠ cur ∧ nid env.n r ≠ cur := by
    intro i l r hm
    obtain ⟨hl, hr⟩ := subTs_children T _ hm i l r rfl
    obtain ⟨hlT, hrT⟩ := root_not_child T hm
    constructor
    · intro he
      exact hlT (subTs_id_inj hnd l hl T (subTs_self T)
        (by rw [he, ← hid, hST]))
    · intro he
      exact hrT (subTs_id_inj hnd r hr T (subTs_self T)
        (by rw [he, ← hid, hST]))
  refine ⟨?_, ?_, ?_, ?_, ?_, ?_⟩
  · intro tid' h1 cur' par' box' hph
    dsimp only at hph ⊢
    by_cases he : tid' = tid
    · subst he
      rw [Function.update_apply, if_pos rfl] at hph
      exact ThreadPhase.noConfusion hph
    · rw [Function.update_apply, if_neg he] at hph
      obtain ⟨S', hS', hid', hpar', hbox', hbxm', hcmp'⟩ :=
        hinv.run_ok tid' h1 _ _ _ hph
      exact ⟨S', hS', hid', hpar', hbox', hbxm', (hcompl S').mpr hcmp'⟩
  · intro tid1 h1 tid2 h2 cur' par box1 par' box2 hp1 hp2
    dsimp only at hp1 hp2
    by_cases he1 : tid1 = tid
    · subst he1
      rw [Function.update_apply, if_pos rfl] at hp1
      exact ThreadPhase.noConfusion hp1
    · by_cases he2 : tid2 = tid
      · subst he2
        rw [Function.update_apply, if_pos rfl] at hp2
        exact ThreadPhase.noConfusion hp2
      · rw [Function.update_apply, if_neg he1] at hp1
        rw [Function.update_apply, if_neg he2] at hp2
        exact hinv.uniq tid1 h1 tid2 h2 cur' par box1 par' box2 hp1 hp2
  · intro i l r hm
    obtain ⟨hl, hr⟩ := subTs_children T _ hm i l r rfl
    obtain ⟨hnl, hnr⟩ := hnotchild i l r hm
    dsimp only
    rw [if_congr (and_congr (hcompl l) (not_congr (hcar _ hnl))) rfl rfl,
      if_congr (and_congr (hcompl r) (not_congr (hcar _ hnr))) rfl rfl]
    exact hinv.flags_eq i l r hm
  · intro S' hS' hc'
    dsimp only at hc' ⊢
    exact hinv.boxes_ok S' hS' ((hcompl S').mp hc')
  · intro S' hS'
    dsimp only
    rw [if_congr (hcompl S') rfl rfl]
    exact hinv.wcount_ok S' hS'
  · intro S' hS' hcar'
    dsimp only at hcar' ⊢
    by_cases he : nid env.n S' = cur
    · rw [he] at hcar'
      exact absurd hcar' hnc'
    · rw [hcar _ he] at hcar'
      exact (hcompl S').mpr (hinv.carried_compl S' hS' hcar')

include hnd hch hpa_root hpa_child in
theorem inv_step_climb (st : RefitState) (hinv : RefitInv env T st)
    (tid : ℕ) (htid : tid < env.n) (cur : ℕ) (par : ℤ) (box : Aabb)
    (h : st.phase tid = .run cur par box) (hpar : par ≠ -1) :
    RefitInv env T (threadStep env st tid) := by
  obtain ⟨S, hS, hid, hparS, hbox, hbxm, hcmp⟩ := hinv.run_ok tid htid _ _ _ h
  have hST : S ≠ T := by
    intro he
    rw [he] at hid
    rw [← hid, hpa_root] at hparS
    exact hpar hparS
  obtain ⟨j, a, b, hV, hside⟩ := non_root_child T S hS hST
  obtain ⟨hpaa, hpab⟩ := hpa_child j a b hV
  obtain ⟨hla, hra⟩ := hch j a b hV
  obtain ⟨haT, hbT⟩ := subTs_children T _ hV j a b rfl
  obtain ⟨hab, hja, hjb⟩ := node_ids_ne hnd j a b hV
  have hparj : par = (j : ℤ) := by
    rcases hside with hSa | hSb
    · rw [hSa] at hid
      rw [hparS, ← hid]
      exact hpaa
    · rw [hSb] at hid
      rw [hparS, ← hid]
      exact hpab
  have hjt : par.toNat = j := by
    rw [hparj]
    exact Int.toNat_natCast j
  have hcurab : cur = nid env.n a ∨ cur = nid env.n b := by
    rcases hside with hSa | hSb
    · exact Or.inl (by rw [← hid, hSa])
    · exact Or.inr (by rw [← hid, hSb])
  have hcarcur : carriedF st.phase env.n cur := ⟨tid, htid, par, box, h⟩
  have hcurj : cur ≠ j := by
    rcases hcurab with hc | hc
    · rw [hc]
      exact fun he => hja he.symm
    · rw [hc]
      exact fun he => hjb he.symm
  have hfe := hinv.flags_eq j a b hV
  have hourside0 : ∀ X : BTree, nid env.n X = cur →
      (if completeF st.flags st.phase X ∧
          ¬ carriedF st.phase env.n (nid env.n X) then 1 else 0) = 0 := by
    intro X hX
    rw [if_neg]
    intro hh
    exact hh.2 (hX ▸ hcarcur)
  have hpS : (j, S) ∈ chPairs T := by
    rcases hside with hSa | hSb
    · rw [hSa]
      exact (child_in_chPairs T _ hV j a b rfl).1
    · rw [hSb]
      exact (child_in_chPairs T _ hV j a b rfl).2
  -- a child of a node other than V never has id `cur`
  have hother_child : ∀ i l r, BTree.node i l r ∈ subTs T → i ≠ j →
      nid env.n l ≠ cur ∧ nid env.n r ≠ cur := by
    intro i l r hm hij
    obtain ⟨hcl, hcr⟩ := child_in_chPairs T _ hm i l r rfl
    constructor
    · intro he
      have := chPairs_inj hnd (i, l) hcl (j, S) hpS (by
        show nid env.n l = nid env.n S
        rw [he, hid])
      injection this with e1 e2
      exact hij e1
    · intro he
      have := chPairs_inj hnd (i, r) hcr (j, S) hpS (by
        show nid env.n r = nid env.n S
        rw [he, hid])
      injection this with e1 e2
      exact hij e1
  -- nobody but `tid` is at `cur`
  have hnccur : ∀ tid', tid' < env.n → tid' ≠ tid →
      ∀ p b0, st.phase tid' ≠ .run cur p b0 := by
    intro tid' h1 hne p b0 hp
    exact hne (hinv.uniq tid' h1 tid htid cur p b0 par box hp h)
  by_cases hf : st.flags par.toNat = 1
  · -- winning arrival: merge, write the parent box, continue
    rw [hjt] at hf
    have hVnc : ¬ completeF st.flags st.phase (BTree.node j a b) := by
      simp only [completeF, hf]
      omega
    have hVncar : ¬ carriedF st.phase env.n j := by
      intro hcc
      exact hVnc (hinv.carried_compl (BTree.node j a b) hV hcc)
    have hsibfact : ∀ X, (X = a ∨ X = b) → nid env.n X ≠ cur →
        completeF st.flags st.phase X ∧
          ¬ carriedF st.phase env.n (nid env.n X) := by
      intro X hX hne
      rcases hcurab with hc | hc
      · have hXb : X = b := by
          rcases hX with h1 | h1
          · exact absurd (by rw [h1, ← hc]) hne
          · exact h1
        have h0 := hourside0 a hc.symm
        rw [h0, hf] at hfe
        subst hXb
        by_contra hcon
        rw [if_neg hcon] at hfe
        omega
      · have hXa : X = a := by
          rcases hX with h1 | h1
          · exact h1
          · exact absurd (by rw [h1, ← hc]) hne
        have h0 := hourside0 b hc.symm
        rw [h0, hf] at hfe
        subst hXa
        by_contra hcon
        rw [if_neg hcon] at hfe
        omega
    have hcomp_ab : completeF st.flags st.phase a ∧
        completeF st.flags st.phase b := by
      rcases hside with hSa | hSb
      · refine ⟨hSa ▸ hcmp, ?_⟩
        by_cases hb : nid env.n b = cur
        · exfalso
          have hac : nid env.n a = cur := by rw [← hid, hSa]
          exact hab (by rw [hac, hb])
        · exact (hsibfact b (Or.inr rfl) hb).1
      · refine ⟨?_, hSb ▸ hcmp⟩
        by_cases ha : nid env.n a = cur
        · exfalso
          have hbc : nid env.n b = cur := by rw [← hid, hSb]
          exact hab (by rw [ha, hbc])
        · exact (hsibfact a (Or.inl rfl) ha).1
    -- the merged box is the subtree box of V
    have hbox' : (if (cur : ℤ) = env.la par.toNat then
          aabb_merge box (st.boxes (env.ra par.toNat).toNat)
        else if (cur : ℤ) = env.ra par.toNat then
          aabb_merge box (st.boxes (env.la par.toNat).toNat)
        else box) = sbox env (BTree.node j a b) := by
      rw [hjt, hla, hra, Int.toNat_natCast, Int.toNat_natCast]
      rcases hside with hSa | hSb
      · have hc : cur = nid env.n a := by rw [← hid, hSa]
        rw [if_pos (by rw [hc])]
        have hsb : st.boxes (nid env.n b) = sbox env b := by
          by_cases hbcur : nid env.n b = cur
          · exact absurd (by rw [← hc, hbcur]) hab.symm
          · exact hinv.boxes_ok b hbT (hsibfact b (Or.inr rfl) hbcur).1
        rw [hsb, hbox, hSa]
        rfl
      · have hc : cur = nid env.n b := by rw [← hid, hSb]
        have hne : ¬ ((cur : ℤ) = (nid env.n a : ℤ)) := by
          rw [hc]
          intro he
          exact hab (by exact_mod_cast he.symm)
        rw [if_neg hne, if_pos (by rw [hc])]
        have hsa : st.boxes (nid env.n a) = sbox env a := by
          by_cases hacur : nid env.n a = cur
          · exact absurd (by rw [← hc, hacur]) hab
          · exact hinv.boxes_ok a haT (hsibfact a (Or.inl rfl) hacur).1
        rw [hsa, hbox, hSb]
        show aabb_merge (sbox env b) (sbox env a) = _
        rw [aabb_merge_comm]
        rfl
    rw [threadStep_run_win env st tid cur par box h hpar (by rw [hjt]; exact hf)]
    rw [hbox']
    rw [hjt]
    have hflagup : Function.update st.flags j (st.flags j + 1) =
        Function.update st.flags j 2 := by
      rw [hf]
    rw [hflagup]
    -- transfers
    have hcompl : ∀ X ∈ subTs T,
        (completeF (Function.update st.flags j 2)
          (Function.update st.phase tid
            (.run j (env.pa j) (sbox env (BTree.node j a b)))) X ↔
        (completeF st.flags st.phase X ∨ X = BTree.node j a b)) := by
      intro X hX
      rw [completeF_phase_ne (by rw [h]; simp) (by simp)]
      rw [completeF_flags_two]
      constructor
      · intro hh
        rcases hh with hh | ⟨l', r', he⟩
        · exact Or.inl hh
        · refine Or.inr (subTs_id_inj hnd X hX _ hV ?_)
          rw [he]
          rfl
      · intro hh
        rcases hh with hh | hh
        · exact Or.inl hh
        · exact Or.inr ⟨a, b, hh⟩
    have hcar : ∀ u, u ≠ cur → u ≠ j →
        (carriedF (Function.update st.phase tid
            (.run j (env.pa j) (sbox env (BTree.node j a b)))) env.n u ↔
          carriedF st.phase env.n u) := by
      intro u hu huj
      refine carriedF_update_iff (fun p b0 he => ?_) (fun p b0 he => ?_)
      · rw [h] at he
        injection he with e1 e2 e3
        exact hu e1.symm
      · injection he with e1 e2 e3
        exact huj e1.symm
    have hcarj' : carriedF (Function.update st.phase tid
        (.run j (env.pa j) (sbox env (BTree.node j a b)))) env.n j :=
      carriedF_intro htid _ _ _
    have hnccur' : ¬ carriedF (Function.update st.phase tid
        (.run j (env.pa j) (sbox env (BTree.node j a b)))) env.n cur := by
      intro hcc
      rcases carriedF_elim hcc with ⟨p, b0, he, _⟩ | ⟨tid', h1, h2, p, b0, h3⟩
      · injection he with e1 e2 e3
        exact hcurj e1.symm
      · exact hnccur tid' h1 h2 p b0 h3
    refine ⟨?_, ?_, ?_, ?_, ?_, ?_⟩
    · intro tid' h1 cur' par' box' hph
      dsimp only at hph ⊢
      by_cases he : tid' = tid
      · subst he
        rw [Function.update_apply, if_pos rfl] at hph
        injection hph with e1 e2 e3
        refine ⟨BTree.node j a b, hV, ?_, ?_, ?_, ?_, ?_⟩
        · rw [← e1]
          rfl
        · rw [← e2, ← e1]
        · rw [← e3]
        · rw [← e1, Function.update_apply, if_pos rfl]
        · rw [completeF_phase_ne (by rw [h]; simp) (by simp)]
          simp only [completeF, Function.update_apply, if_pos rfl]
          simp
      · rw [Function.update_apply, if_neg he] at hph
        obtain ⟨S', hS', hid', hpar', hbox2, hbxm', hcmp'⟩ :=
          hinv.run_ok tid' h1 _ _ _ hph
        have hcurne : cur' ≠ j := by
          intro hcc
          have hSV : S' = BTree.node j a b :=
            subTs_id_inj hnd S' hS' _ hV (by rw [hid', hcc]; rfl)
          rw [hSV] at hcmp'
          exact hVnc hcmp'
        refine ⟨S', hS', hid', hpar', hbox2, ?_, ?_⟩
        · rw [Function.update_apply, if_neg hcurne]
          exact hbxm'
        · rw [hcompl S' hS']
          exact Or.inl hcmp'
    · intro tid1 h1 tid2 h2 cur' par1 box1 par2 box2 hp1 hp2
      dsimp only at hp1 hp2
      by_cases he1 : tid1 = tid <;> by_cases he2 : tid2 = tid
      · rw [he1, he2]
      · subst he1
        rw [Function.update_apply, if_pos rfl] at hp1
        rw [Function.update_apply, if_neg he2] at hp2
        injection hp1 with e1 e2 e3
        exfalso
        exact hVncar (e1 ▸ ⟨tid2, h2, par2, box2, hp2⟩)
      · subst he2
        rw [Function.update_apply, if_pos rfl] at hp2
        rw [Function.update_apply, if_neg he1] at hp1
        injection hp2 with e1 e2 e3
        exfalso
        exact hVncar (e1 ▸ ⟨tid1, h1, par1, box1, hp1⟩)
      · rw [Function.update_apply, if_neg he1] at hp1
        rw [Function.update_apply, if_neg he2] at hp2
        exact hinv.uniq tid1 h1 tid2 h2 cur' par1 box1 par2 box2 hp1 hp2
    · intro i l r hm
      dsimp only
      by_cases hij : i = j
      · subst hij
        have hVe : BTree.node i l r = BTree.node i a b :=
          subTs_id_inj hnd _ hm _ hV rfl
        injection hVe with e1 e2 e3
        have e2' : a = l := e2.symm
        have e3' : b = r := e3.symm
        subst e2'
        subst e3'
        rw [Function.update_apply, if_pos rfl]
        have hcna : ¬ carriedF (Function.update st.phase tid
            (.run i (env.pa i) (sbox env (BTree.node i a b)))) env.n
            (nid env.n a) := by
          by_cases hac : nid env.n a = cur
          · rw [hac]
            exact hnccur'
          · rw [hcar _ hac (fun he => hja he.symm)]
            exact (hsibfact a (Or.inl rfl) hac).2
        have hcnb : ¬ carriedF (Function.update st.phase tid
            (.run i (env.pa i) (sbox env (BTree.node i a b)))) env.n
            (nid env.n b) := by
          by_cases hbc : nid env.n b = cur
          · rw [hbc]
            exact hnccur'
          · rw [hcar _ hbc (fun he => hjb he.symm)]
            exact (hsibfact b (Or.inr rfl) hbc).2
        rw [if_pos ⟨(hcompl a haT).mpr (Or.inl hcomp_ab.1), hcna⟩,
          if_pos ⟨(hcompl b hbT).mpr (Or.inl hcomp_ab.2), hcnb⟩]
      · obtain ⟨hcl, hcr⟩ := subTs_children T _ hm i l r rfl
        obtain ⟨hnl, hnr⟩ := hother_child i l r hm hij
        rw [Function.update_apply, if_neg hij]
        have hcnt : ∀ c, c ∈ subTs T → nid env.n c ≠ cur →
            (if completeF (Function.update st.flags j 2)
                (Function.update st.phase tid
                  (.run j (env.pa j) (sbox env (BTree.node j a b)))) c ∧
              ¬ carriedF (Function.update st.phase tid
                  (.run j (env.pa j) (sbox env (BTree.node j a b)))) env.n
                (nid env.n c) then 1 else 0) =
            (if completeF st.flags st.phase c ∧
              ¬ carriedF st.phase env.n (nid env.n c) then 1 else 0) := by
          intro c hc hnc
          by_cases hcV : c = BTree.node j a b
          · subst hcV
            rw [if_neg (fun hh => hh.2 hcarj'),
              if_neg (fun hh => hVnc hh.1)]
          · have hnj : nid env.n c ≠ j := by
              intro he
              exact hcV (subTs_id_inj hnd c hc _ hV (by rw [he]; rfl))
            refine if_congr (and_congr ?_ (not_congr (hcar _ hnc hnj))) rfl rfl
            rw [hcompl c hc]
            constructor
            · intro hh
              rcases hh with hh | hh
              · exact hh
              · exact absurd hh hcV
            · exact Or.inl
        rw [hcnt l hcl hnl, hcnt r hcr hnr]
        exact hinv.flags_eq i l r hm
    · intro X hX hc'
      dsimp only at hc' ⊢
      by_cases hXV : X = BTree.node j a b
      · subst hXV
        show Function.update st.boxes j _ (nid env.n (BTree.node j a b)) = _
        rw [show nid env.n (BTree.node j a b) = j from rfl,
          Function.update_apply, if_pos rfl]
      · have hold : completeF st.flags st.phase X := by
          rw [hcompl X hX] at hc'
          rcases hc' with hh | hh
          · exact hh
          · exact absurd hh hXV
        have hnj : nid env.n X ≠ j := by
          intro he
          exact hXV (subTs_id_inj hnd X hX _ hV (by rw [he]; rfl))
        rw [Function.update_apply, if_neg hnj]
        exact hinv.boxes_ok X hX hold
    · intro X hX
      dsimp only
      by_cases hXV : X = BTree.node j a b
      · subst hXV
        rw [show nid env.n (BTree.node j a b) = j from rfl,
          Function.update_apply, if_pos rfl]
        have hw := hinv.wcount_ok _ hV
        rw [if_neg hVnc] at hw
        rw [show nid env.n (BTree.node j a b) = j from rfl] at hw
        rw [hw, if_pos ((hcompl _ hV).mpr (Or.inr rfl))]
      · have hnj : nid env.n X ≠ j := by
          intro he
          exact hXV (subTs_id_inj hnd X hX _ hV (by rw [he]; rfl))
        rw [Function.update_apply, if_neg hnj]
        have hw := hinv.wcount_ok X hX
        rw [hw]
        refine (if_congr ?_ rfl rfl).symm
        rw [hcompl X hX]
        constructor
        · intro hh
          rcases hh with hh | hh
          · exact hh
          · exact absurd hh hXV
        · exact Or.inl
    · intro X hX hcar'
      dsimp only at hcar' ⊢
      by_cases hXV : X = BTree.node j a b
      · subst hXV
        exact (hcompl _ hV).mpr (Or.inr rfl)
      · have hnj : nid env.n X ≠ j := by
          intro he
          exact hXV (subTs_id_inj hnd X hX _ hV (by rw [he]; rfl))
        by_cases hnc : nid env.n X = cur
        · rw [hnc] at hcar'
          exact absurd hcar' hnccur'
        · rw [hcar _ hnc hnj] at hcar'
          exact (hcompl X hX).mpr
            (Or.inl (hinv.carried_compl X hX hcar'))
  · -- losing arrival: bump the flag and return
    rw [hjt] at hf
    have hf0 : st.flags j = 0 := by
      rcases hcurab with hc | hc
      · rw [hourside0 a hc.symm] at hfe
        by_cases hcb : completeF st.flags st.phase b ∧
            ¬ carriedF st.phase env.n (nid env.n b)
        · rw [if_pos hcb] at hfe
          omega
        · rw [if_neg hcb] at hfe
          omega
      · rw [hourside0 b hc.symm] at hfe
        by_cases hca : completeF st.flags st.phase a ∧
            ¬ carriedF st.phase env.n (nid env.n a)
        · rw [if_pos hca] at hfe
          omega
        · rw [if_neg hca] at hfe
          omega
    rw [threadStep_run_lose env st tid cur par box h hpar (by rw [hjt]; exact hf)]
    rw [hjt]
    have hcompl : ∀ X, completeF (Function.update st.flags j (st.flags j + 1))
        (Function.update st.phase tid .halt) X ↔
        completeF st.flags st.phase X := by
      intro X
      rw [completeF_phase_ne (by rw [h]; simp) (by simp)]
      exact completeF_flags_ne2 (by omega) (by omega) X
    have hcar : ∀ u, u ≠ cur →
        (carriedF (Function.update st.phase tid .halt) env.n u ↔
          carriedF st.phase env.n u) := by
      intro u hu
      refine carriedF_update_iff (fun p b0 he => ?_) (fun p b0 he => ?_)
      · rw [h] at he
        injection he with e1 e2 e3
        exact hu e1.symm
      · exact ThreadPhase.noConfusion he
    have hnccur' : ¬ carriedF (Function.update st.phase tid .halt) env.n
        cur := by
      intro hcc
      rcases carriedF_elim hcc with ⟨p, b0, he, _⟩ | ⟨tid', h1, h2, p, b0, h3⟩
      · exact ThreadPhase.noConfusion he
      · exact hnccur tid' h1 h2 p b0 h3
    refine ⟨?_, ?_, ?_, ?_, ?_, ?_⟩
    · intro tid' h1 cur' par' box' hph
      dsimp only at hph ⊢
      by_cases he : tid' = tid
      · subst he
        rw [Function.update_apply, if_pos rfl] at hph
        exact ThreadPhase.noConfusion hph
      · rw [Function.update_apply, if_neg he] at hph
        obtain ⟨S', hS', hid', hpar', hbox2, hbxm', hcmp'⟩ :=
          hinv.run_ok tid' h1 _ _ _ hph
        exact ⟨S', hS', hid', hpar', hbox2, hbxm', (hcompl S').mpr hcmp'⟩
    · intro tid1 h1 tid2 h2 cur' par1 box1 par2 box2 hp1 hp2
      dsimp only at hp1 hp2
      by_cases he1 : tid1 = tid
      · subst he1
        rw [Function.update_apply, if_pos rfl] at hp1
        exact ThreadPhase.noConfusion hp1
      · by_cases he2 : tid2 = tid
        · subst he2
          rw [Function.update_apply, if_pos rfl] at hp2
          exact ThreadPhase.noConfusion hp2
        · rw [Function.update_apply, if_neg he1] at hp1
          rw [Function.update_apply, if_neg he2] at hp2
          exact hinv.uniq tid1 h1 tid2 h2 cur' par1 box1 par2 box2 hp1 hp2
    · intro i l r hm
      dsimp only
      by_cases hij : i = j
      · subst hij
        have hVe : BTree.node i l r = BTree.node i a b :=
          subTs_id_inj hnd _ hm _ hV rfl
        injection hVe with e1 e2 e3
        have e2' : a = l := e2.symm
        have e3' : b = r := e3.symm
        subst e2'
        subst e3'
        rw [Function.update_apply, if_pos rfl]
        rcases hcurab with hc | hc
        · have hSa : S = a := subTs_id_inj hnd S hS a haT (by rw [hid, hc])
          have hbne : nid env.n b ≠ cur := by
            rw [hc]
            exact fun he => hab he.symm
          rw [if_pos ⟨(hcompl a).mpr (hSa ▸ hcmp), by
              rw [← hc]
              exact hnccur'⟩]
          rw [hourside0 a hc.symm, hf0] at hfe
          have hb0 : ¬ (completeF st.flags st.phase b ∧
              ¬ carriedF st.phase env.n (nid env.n b)) := by
            intro hcb
            rw [if_pos hcb] at hfe
            omega
          rw [if_neg (fun hh => hb0 ⟨(hcompl b).mp hh.1,
            fun hcc => hh.2 ((hcar _ hbne).mpr hcc)⟩)]
          omega
        · have hSb : S = b := subTs_id_inj hnd S hS b hbT (by rw [hid, hc])
          have hane : nid env.n a ≠ cur := by
            rw [hc]
            exact fun he => hab he
          rw [hourside0 b hc.symm, hf0] at hfe
          have ha0 : ¬ (completeF st.flags st.phase a ∧
              ¬ carriedF st.phase env.n (nid env.n a)) := by
            intro hca
            rw [if_pos hca] at hfe
            omega
          rw [if_neg (fun hh => ha0 ⟨(hcompl a).mp hh.1,
            fun hcc => hh.2 ((hcar _ hane).mpr hcc)⟩)]
          rw [if_pos ⟨(hcompl b).mpr (hSb ▸ hcmp), by
              rw [← hc]
              exact hnccur'⟩]
          omega
      · obtain ⟨hcl, hcr⟩ := subTs_children T _ hm i l r rfl
        obtain ⟨hnl, hnr⟩ := hother_child i l r hm hij
        rw [Function.update_apply, if_neg hij]
        rw [if_congr (and_congr (hcompl l) (not_congr (hcar _ hnl))) rfl rfl,
          if_congr (and_congr (hcompl r) (not_congr (hcar _ hnr))) rfl rfl]
        exact hinv.flags_eq i l r hm
    · intro X hX hc'
      dsimp only at hc' ⊢
      exact hinv.boxes_ok X hX ((hcompl X).mp hc')
    · intro X hX
      dsimp only
      rw [if_congr (hcompl X) rfl rfl]
      exact hinv.wcount_ok X hX
    · intro X hX hcar'
      dsimp only at hcar' ⊢
      by_cases hnc : nid env.n X = cur
      · rw [hnc] at hcar'
        exact absurd hcar' hnccur'
      · rw [hcar _ hnc] at hcar'
        exact (hcompl X).mpr (hinv.carried_compl X hX hcar')

include hnd hch hpa_root hpa_child hleafmem in
theorem inv_step_any (st : RefitState) (hinv : RefitInv env T st)
    (tid : ℕ) (htid : tid < env.n) :
    RefitInv env T (threadStep env st tid) := by
  cases hph : st.phase tid with
  | start => exact inv_step_start hnd hleafmem st hinv tid htid hph
  | run cur par box =>
    by_cases hpar : par = -1
    · subst hpar
      exact inv_step_root hnd hpa_root hpa_child st hinv tid htid cur box hph
    · exact inv_step_climb hnd hch hpa_root hpa_child st hinv tid htid
        cur par box hph hpar
  | halt =>
    rw [threadStep_halt env st tid hph]
    exact hinv

include hnd hch hpa_root hpa_child hleafmem in
theorem inv_run : ∀ (sched : List ℕ), (∀ t ∈ sched, t < env.n) →
    ∀ st : RefitState, RefitInv env T st →
      RefitInv env T (runSched env sched st) := by
  intro sched
  induction sched with
  | nil =>
    intro _ st hinv
    exact hinv
  | cons t rest ih =>
    intro hb st hinv
    have h1 : t < env.n := hb t (List.mem_cons_self t rest)
    exact ih (fun u hu => hb u (List.mem_cons_of_mem t hu))
      (threadStep env st t)
      (inv_step_any hnd hch hpa_root hpa_child hleafmem st hinv t h1)

theorem all_complete {st : RefitState}
    (hleafbound : ∀ k, BTree.leaf k ∈ subTs T → k < env.n)
    (hinv : RefitInv env T st)
    (hdone : ∀ tid, tid < env.n → st.phase tid = .halt) :
    ∀ S, S ∈ subTs T → completeF st.flags st.phase S := by
  have hnocar : ∀ v, ¬ carriedF st.phase env.n v := by
    intro v ⟨tid, h1, p, b, h2⟩
    rw [hdone tid h1] at h2
    exact ThreadPhase.noConfusion h2
  intro S
  induction S with
  | leaf k =>
    intro hS
    show st.phase k ≠ .start
    rw [hdone k (hleafbound k hS)]
    simp
  | node i l r ihl ihr =>
    intro hS
    obtain ⟨hl, hr⟩ := subTs_children T _ hS i l r rfl
    have hfe := hinv.flags_eq i l r hS
    rw [if_pos ⟨ihl hl, hnocar _⟩, if_pos ⟨ihr hr, hnocar _⟩] at hfe
    show st.flags i = 2
    omega

include hnd hch hpa_root hpa_child hleafmem in
/-- Master theorem for the refit kernel: after any complete interleaving
(every thread has returned), every tree node's box holds its subtree
merge, it was written exactly once, and every internal flag is 2 (both
children arrived; the box was written by the second arrival). -/
theorem refit_master
    (hleafbound : ∀ k, BTree.leaf k ∈ subTs T → k < env.n)
    (b0 : ℕ → Aabb) (sched : List ℕ) (hsched : ∀ t ∈ sched, t < env.n)
    (hdone : ∀ tid, tid < env.n →
      (runSched env sched (initState b0)).phase tid = .halt) :
    ∀ S ∈ subTs T,
      (runSched env sched (initState b0)).boxes (nid env.n S) = sbox env S ∧
      (runSched env sched (initState b0)).wcount (nid env.n S) = 1 ∧
      (∀ i l r, S = BTree.node i l r →
        (runSched env sched (initState b0)).flags i = 2) := by
  have hinv := inv_run hnd hch hpa_root hpa_child hleafmem sched hsched
    (initState b0) (inv_init env T b0)
  have hcompl := all_complete hleafbound hinv hdone
  intro S hS
  refine ⟨hinv.boxes_ok S hS (hcompl S hS), ?_, ?_⟩
  · rw [hinv.wcount_ok S hS, if_pos (hcompl S hS)]
  · intro i l r he
    have := hcompl S hS
    rw [he] at this
    exact this

include hnd hch hpa_root hpa_child hleafmem in
/-- **C1.** After the bottom-up kernel completes (every thread returned)
on a valid topology with the flags zeroed at entry, every internal node
`i` holds `box[i] = aabb_merge(box[left[i]], box[right[i]])`, its box was
written exactly once (ghost counter 1), and its flag is 2 — the write was
performed by the second thread to arrive (in the model, only the arrival
that reads flag value 1 writes an internal box). -/
theorem claim_C1
    (hleafbound : ∀ k, BTree.leaf k ∈ subTs T → k < env.n)
    (hn2 : 2 ≤ env.n)
    (b0 : ℕ → Aabb) (sched : List ℕ) (hsched : ∀ t ∈ sched, t < env.n)
    (hdone : ∀ tid, tid < env.n →
      (runSched env sched (initState b0)).phase tid = .halt) :
    ∀ i l r, BTree.node i l r ∈ subTs T →
      (runSched env sched (initState b0)).boxes i =
        aabb_merge
          ((runSched env sched (initState b0)).boxes (env.la i).toNat)
          ((runSched env sched (initState b0)).boxes (env.ra i).toNat) ∧
      (runSched env sched (initState b0)).wcount i = 1 ∧
      (runSched env sched (initState b0)).flags i = 2 := by
  intro i l r hm
  obtain ⟨hl, hr⟩ := subTs_children T _ hm i l r rfl
  have hmV := refit_master hnd hch hpa_root hpa_child hleafmem hleafbound
    b0 sched hsched hdone _ hm
  have hmL := refit_master hnd hch hpa_root hpa_child hleafmem hleafbound
    b0 sched hsched hdone _ hl
  have hmR := refit_master hnd hch hpa_root hpa_child hleafmem hleafbound
    b0 sched hsched hdone _ hr
  obtain ⟨hla2, hra2⟩ := hch i l r hm
  refine ⟨?_, hmV.2.1, hmV.2.2 i l r rfl⟩
  have hbi : (runSched env sched (initState b0)).boxes i =
      sbox env (BTree.node i l r) := hmV.1
  rw [hbi, hla2, hra2, Int.toNat_natCast, Int.toNat_natCast,
    hmL.1, hmR.1]
  rfl

include hnd hch hpa_root hpa_child hleafmem in
/-- **C7.** The final boxes are a function of the topology and the input
AABBs alone: two complete runs — any schedules, any previous box-buffer
contents — produce identical boxes at every tree node.  Hence `refit`
after an input mutation that keeps the topology yields exactly the boxes
a fresh build on the mutated inputs would produce (both run this kernel
on the same topology and inputs). -/
theorem claim_C7
    (hleafbound : ∀ k, BTree.leaf k ∈ subTs T → k < env.n)
    (b0 b0' : ℕ → Aabb) (sched sched' : List ℕ)
    (hsched : ∀ t ∈ sched, t < env.n) (hsched' : ∀ t ∈ sched', t < env.n)
    (hdone : ∀ tid, tid < env.n →
      (runSched env sched (initState b0)).phase tid = .halt)
    (hdone' : ∀ tid, tid < env.n →
      (runSched env sched' (initState b0')).phase tid = .halt) :
    ∀ S ∈ subTs T,
      (runSched env sched (initState b0)).boxes (nid env.n S) =
      (runSched env sched' (initState b0')).boxes (nid env.n S) := by
  intro S hS
  have h1 := refit_master hnd hch hpa_root hpa_child hleafmem hleafbound
    b0 sched hsched hdone S hS
  have h2 := refit_master hnd hch hpa_root hpa_child hleafmem hleafbound
    b0' sched' hsched' hdone' S hS
  rw [h1.1, h2.1]

end RefitProof

/-- Concrete two-leaf refit environment for witnesses. -/
def envW : RefitEnv :=
  ⟨2, fun _ => 1, fun _ => 2, fun v => if v = 0 then -1 else 0,
    fun k => (k : ℤ), fun j => ⟨(j : ℤ), 0, 0⟩, fun j => ⟨(j : ℤ) + 1, 1, 1⟩⟩

/-- The two-leaf topology for witnesses. -/
def treeW : BTree := .node 0 (.leaf 0) (.leaf 1)

/-- Witness for C1: a concrete complete interleaving on two leaves. -/
theorem claim_C1_witness :
    ((idsT envW.n treeW).Nodup ∧
     (∀ t ∈ [0, 0, 1, 1, 1], t < envW.n) ∧
     (∀ tid, tid < envW.n →
       (runSched envW [0, 0, 1, 1, 1]
         (initState (fun _ => ⟨⟨5, 5, 5⟩, ⟨6, 6, 6⟩⟩))).phase tid =
           .halt)) ∧
    (∀ i l r, BTree.node i l r ∈ subTs treeW →
      (runSched envW [0, 0, 1, 1, 1]
        (initState (fun _ => ⟨⟨5, 5, 5⟩, ⟨6, 6, 6⟩⟩))).boxes i =
        aabb_merge
          ((runSched envW [0, 0, 1, 1, 1]
            (initState (fun _ => ⟨⟨5, 5, 5⟩, ⟨6, 6, 6⟩⟩))).boxes
              (envW.la i).toNat)
          ((runSched envW [0, 0, 1, 1, 1]
            (initState (fun _ => ⟨⟨5, 5, 5⟩, ⟨6, 6, 6⟩⟩))).boxes
              (envW.ra i).toNat) ∧
      (runSched envW [0, 0, 1, 1, 1]
        (initState (fun _ => ⟨⟨5, 5, 5⟩, ⟨6, 6, 6⟩⟩))).wcount i = 1 ∧
      (runSched envW [0, 0, 1, 1, 1]
        (initState (fun _ => ⟨⟨5, 5, 5⟩, ⟨6, 6, 6⟩⟩))).flags i = 2) :=
  ⟨⟨by decide, by decide, by decide⟩,
   claim_C1 (by decide)
     (by
       intro i l r hm
       simp only [treeW, subTs, List.mem_cons, List.mem_append,
         List.mem_singleton, List.not_mem_nil, or_false] at hm
       rcases hm with hm | hm | hm
       · injection hm with e1 e2 e3
         subst e1
         subst e2
         subst e3
         exact ⟨rfl, rfl⟩
       · exact absurd hm (by simp)
       · exact absurd hm (by simp))
     (by decide)
     (by
       intro i l r hm
       simp only [treeW, subTs, List.mem_cons, List.mem_append,
         List.mem_singleton, List.not_mem_nil, or_false] at hm
       rcases hm with hm | hm | hm
       · injection hm with e1 e2 e3
         subst e1
         subst e2
         subst e3
         exact ⟨rfl, rfl⟩
       · exact absurd hm (by simp)
       · exact absurd hm (by simp))
     (by decide)
     (by
       intro k hk
       simp only [treeW, subTs] at hk
       rcases List.mem_cons.mp hk with hk1 | hk1
       · exact absurd hk1 (by simp)
       · rcases List.mem_cons.mp hk1 with hk2 | hk2
         · injection hk2 with e1
           subst e1
           decide
         · rcases List.mem_cons.mp hk2 with hk3 | hk3
           · injection hk3 with e1
             subst e1
             decide
           · exact absurd hk3 (by simp))
     (by decide)
     (fun _ => ⟨⟨5, 5, 5⟩, ⟨6, 6, 6⟩⟩) [0, 0, 1, 1, 1]
     (by decide) (by decide)⟩

/-- Witness for C7: two different complete schedules and two different
previous box buffers produce the same boxes on the two-leaf topology. -/
theorem claim_C7_witness :
    ((∀ tid, tid < envW.n →
       (runSched envW [0, 0, 1, 1, 1]
         (initState (fun _ => ⟨⟨5, 5, 5⟩, ⟨6, 6, 6⟩⟩))).phase tid = .halt) ∧
     (∀ tid, tid < envW.n →
       (runSched envW [1, 1, 0, 0, 0]
         (initState (fun _ => ⟨⟨9, 9, 9⟩, ⟨9, 9, 9⟩⟩))).phase tid =
           .halt)) ∧
    (∀ S ∈ subTs treeW,
      (runSched envW [0, 0, 1, 1, 1]
        (initState (fun _ => ⟨⟨5, 5, 5⟩, ⟨6, 6, 6⟩⟩))).boxes
          (nid envW.n S) =
      (runSched envW [1, 1, 0, 0, 0]
        (initState (fun _ => ⟨⟨9, 9, 9⟩, ⟨9, 9, 9⟩⟩))).boxes
          (nid envW.n S)) :=
  ⟨⟨by decide, by decide⟩,
   claim_C7 (by decide)
     (by
       intro i l r hm
       simp only [treeW, subTs, List.mem_cons, List.mem_append,
         List.mem_singleton, List.not_mem_nil, or_false] at hm
       rcases hm with hm | hm | hm
       · injection hm with e1 e2 e3
         subst e1
         subst e2
         subst e3
         exact ⟨rfl, rfl⟩
       · exact absurd hm (by simp)
       · exact absurd hm (by simp))
     (by decide)
     (by
       intro i l r hm
       simp only [treeW, subTs, List.mem_cons, List.mem_append,
         List.mem_singleton, List.not_mem_nil, or_false] at hm
       rcases hm with hm | hm | hm
       · injection hm with e1 e2 e3
         subst e1
         subst e2
         subst e3
         exact ⟨rfl, rfl⟩
       · exact absurd hm (by simp)
       · exact absurd hm (by simp))
     (by decide)
     (by
       intro k hk
       simp only [treeW, subTs] at hk
       rcases List.mem_cons.mp hk with hk1 | hk1
       · exact absurd hk1 (by simp)
       · rcases List.mem_cons.mp hk1 with hk2 | hk2
         · injection hk2 with e1
           subst e1
           decide
         · rcases List.mem_cons.mp hk2 with hk3 | hk3
           · injection hk3 with e1
             subst e1
             decide
           · exact absurd hk3 (by simp))
     (fun _ => ⟨⟨5, 5, 5⟩, ⟨6, 6, 6⟩⟩) (fun _ => ⟨⟨9, 9, 9⟩, ⟨9, 9, 9⟩⟩)
     [0, 0, 1, 1, 1] [1, 1, 0, 0, 0]
     (by decide) (by decide) (by decide) (by decide)⟩

/-! ## Claim C5: the root box is the merge of all input AABBs -/

/-- Leaf positions of a tree, left to right. -/
def leavesOf : BTree → List ℕ
  | .leaf k => [k]
  | .node _ l r => leavesOf l ++ leavesOf r

/-- Running merge over an optional accumulator (`none` before the first
box). -/
def mergeO (acc : Option Aabb) (x : Aabb) : Option Aabb :=
  some (match acc with
    | none => x
    | some a => aabb_merge a x)

/-- The merge of every box of a list (`none` for the empty list): the
component-wise min of the lowers with the component-wise max of the
uppers. -/
def mergeAllO (l : List Aabb) : Option Aabb := l.foldl mergeO none

/-- The input leaf AABBs, in input order. -/
def inputBoxes (lowb upb : ℕ → V3) (n : ℕ) : List Aabb :=
  (List.range n).map (fun j => ⟨lowb j, upb j⟩)

/-- The `parent_nodes` array `Bvh.rebuild` produces: the construction
kernel's writes for `N > 1`, `fill_(-1)` for a single leaf. -/
def pipelineParent (codes : ℕ → ℕ) (n : ℕ) (p0 : ℕ → ℤ) : ℕ → ℤ :=
  if 2 ≤ n then buildParent codes n p0 else fun _ => -1

theorem aabb_merge_assoc (x y z : Aabb) :
    aabb_merge (aabb_merge x y) z = aabb_merge x (aabb_merge y z) := by
  simp [aabb_merge, vmin, vmax, min_assoc, max_assoc]

theorem foldl_merge_assoc :
    ∀ (l : List Aabb) (a b : Aabb),
      l.foldl aabb_merge (aabb_merge a b) =
        aabb_merge a (l.foldl aabb_merge b) := by
  intro l
  induction l with
  | nil => intro a b; rfl
  | cons c rest ih =>
    intro a b
    simp only [List.foldl_cons]
    rw [aabb_merge_assoc, ih]

theorem foldl_mergeO_some :
    ∀ (l : List Aabb) (a : Aabb),
      l.foldl mergeO (some a) = some (l.foldl aabb_merge a) := by
  intro l
  induction l with
  | nil => intro a; rfl
  | cons c rest ih =>
    intro a
    simp only [List.foldl_cons]
    exact ih (aabb_merge a c)

theorem mergeO_leftcomm (acc : Option Aabb) (x y : Aabb) :
    mergeO (mergeO acc x) y = mergeO (mergeO acc y) x := by
  cases acc with
  | none =>
    simp only [mergeO]
    rw [aabb_merge_comm]
  | some a =>
    simp only [mergeO]
    rw [aabb_merge_assoc, aabb_merge_assoc, aabb_merge_comm x y]

theorem foldl_mergeO_perm {l1 l2 : List Aabb} (h : l1.Perm l2) :
    ∀ acc, l1.foldl mergeO acc = l2.foldl mergeO acc := by
  induction h with
  | nil => intro acc; rfl
  | cons x _ ih =>
    intro acc
    simp only [List.foldl_cons]
    exact ih _
  | swap x y rest =>
    intro acc
    simp only [List.foldl_cons]
    rw [mergeO_leftcomm]
  | trans _ _ ih1 ih2 =>
    intro acc
    rw [ih1 acc, ih2 acc]

theorem leavesOf_ne_nil : ∀ S : BTree, leavesOf S ≠ [] := by
  intro S
  cases S with
  | leaf k => simp [leavesOf]
  | node i l r =>
    simp only [leavesOf]
    intro he
    obtain ⟨h1, _⟩ := List.append_eq_nil.mp he
    exact leavesOf_ne_nil l h1

theorem mergeAllO_sbox (env : RefitEnv) :
    ∀ S : BTree,
      mergeAllO ((leavesOf S).map (fun k =>
        ⟨env.lowb (env.leaf_arr k).toNat, env.upb (env.leaf_arr k).toNat⟩))
        = some (sbox env S) := by
  intro S
  induction S with
  | leaf k => rfl
  | node i l r ihl ihr =>
    simp only [leavesOf, List.map_append]
    unfold mergeAllO at *
    rw [List.foldl_append, ihl]
    cases hB : (leavesOf r).map (fun k =>
        (⟨env.lowb (env.leaf_arr k).toNat,
          env.upb (env.leaf_arr k).toNat⟩ : Aabb)) with
    | nil => exact absurd (List.map_eq_nil_iff.mp hB) (leavesOf_ne_nil r)
    | cons x B2 =>
      rw [hB] at ihr
      simp only [List.foldl_cons] at ihr ⊢
      have hx : (mergeO none x) = some x := rfl
      rw [hx] at ihr
      rw [foldl_mergeO_some] at ihr
      have hr2 : B2.foldl aabb_merge x = sbox env r :=
        Option.some.injEq _ _ ▸ ihr
      have hO : mergeO (some (sbox env l)) x =
          some (aabb_merge (sbox env l) x) := rfl
      rw [hO, foldl_mergeO_some, foldl_merge_assoc, hr2]
      rfl

theorem RepT_sub {codes : ℕ → ℕ} {n : ℕ} :
    ∀ T : BTree, RepT codes n T → ∀ S ∈ subTs T, RepT codes n S := by
  intro T
  induction T with
  | leaf k =>
    intro hrep S hS
    simp only [subTs, List.mem_singleton] at hS
    rw [hS]
    exact hrep
  | node i l r ihl ihr =>
    intro hrep S hS
    simp only [subTs, List.mem_cons, List.mem_append] at hS
    rcases hS with h | h | h
    · rw [h]
      exact hrep
    · exact ihl hrep.2.2.2.1 S h
    · exact ihr hrep.2.2.2.2 S h

theorem idsT_count_leaf {codes : ℕ → ℕ} {n : ℕ} :
    ∀ T : BTree, RepT codes n T → ∀ k : ℕ,
      (idsT n T).count (n - 1 + k) = (leavesOf T).count k := by
  intro T
  induction T with
  | leaf k' =>
    intro hrep k
    have hk' : k' < n := hrep
    simp only [idsT, leavesOf]
    by_cases h : k = k'
    · subst h
      simp [List.count_cons]
    · rw [List.count_cons, List.count_cons, List.count_nil]
      simp only [beq_iff_eq]
      rw [if_neg (by omega), if_neg (by omega)]
      simp
  | node i l r ihl ihr =>
    intro hrep k
    have hi : i < n - 1 := hrep.1
    simp only [idsT, leavesOf]
    rw [List.count_cons, List.count_append, List.count_append,
      ihl hrep.2.2.2.1 k, ihr hrep.2.2.2.2 k]
    simp only [beq_iff_eq]
    rw [if_neg (by omega)]
    omega

theorem leaves_perm {codes : ℕ → ℕ} {n : ℕ} {T : BTree} (hn1 : 1 ≤ n)
    (hrep : RepT codes n T)
    (hcnt : ∀ v, (idsT n T).count v = if v ≤ 2 * n - 2 then 1 else 0) :
    (leavesOf T).Perm (List.range n) := by
  rw [List.perm_iff_count]
  intro k
  rw [← idsT_count_leaf T hrep k, hcnt (n - 1 + k), count_range_eq]
  split_ifs <;> omega

theorem leaf_mem_sub {codes : ℕ → ℕ} {n : ℕ} {T : BTree}
    (hrep : RepT codes n T)
    (hcnt : ∀ v, (idsT n T).count v = if v ≤ 2 * n - 2 then 1 else 0) :
    ∀ k, k < n → BTree.leaf k ∈ subTs T := by
  intro k hk
  have h1 : (n - 1 + k) ∈ idsT n T := by
    have := hcnt (n - 1 + k)
    rw [if_pos (by omega)] at this
    exact List.count_pos_iff.mp (by omega)
  rw [idsT_eq_subTs] at h1
  obtain ⟨S, hS, hid⟩ := List.mem_map.mp h1
  have hrs := RepT_sub T hrep S hS
  cases S with
  | leaf k' =>
    have he : k' = k := by
      have hk' : k' < n := hrs
      simp only [nid] at hid
      omega
    rw [← he]
    exact hS
  | node i l r =>
    exfalso
    have hlt : i < n - 1 := hrs.1
    simp only [nid] at hid
    omega

/-- **C5.** For every completed build with `N ≥ 1` — sorted Morton keys,
a leaf permutation from the sorter, the parent/child arrays produced by
the construction kernel (`fill_(-1)` when `N = 1`), and a complete run of
the bottom-up box kernel — `box[0]` equals the merge of all input leaf
AABBs, i.e. the component-wise min of all lower bounds paired with the
component-wise max of all upper bounds (for `N = 1` node 0 is the single
leaf). -/
theorem claim_C5 (codes : ℕ → ℕ) (n : ℕ) (hn : n ≤ 2 ^ 30)
    (hc : ∀ a, a < n → codes a < 2 ^ 30)
    (hs : ∀ a b, a ≤ b → b < n → codes a ≤ codes b)
    (hn1 : 1 ≤ n) (p0 : ℕ → ℤ) (leaf_arr : ℕ → ℤ) (lowb upb : ℕ → V3)
    (hperm : ((List.range n).map (fun k => (leaf_arr k).toNat)).Perm
      (List.range n))
    (b0 : ℕ → Aabb) (sched : List ℕ) (hsched : ∀ t ∈ sched, t < n)
    (hdone : ∀ tid, tid < n →
      (runSched ⟨n, left_nodes codes n, right_nodes codes n,
        pipelineParent codes n p0, leaf_arr, lowb, upb⟩ sched
        (initState b0)).phase tid = .halt) :
    mergeAllO (inputBoxes lowb upb n) =
      some ((runSched ⟨n, left_nodes codes n, right_nodes codes n,
        pipelineParent codes n p0, leaf_arr, lowb, upb⟩ sched
        (initState b0)).boxes 0) := by
  by_cases hn2 : 2 ≤ n
  · obtain ⟨hrep, hroot, hcnt⟩ := root_tree hn hc hs hn2
    have hpp : pipelineParent codes n p0 = buildParent codes n p0 :=
      if_pos hn2
    have hnd : (idsT n (canonSub codes .low 0 (n - 1))).Nodup :=
      List.nodup_iff_count_le_one.mpr (fun v => by
        rw [hcnt v]
        split_ifs <;> omega)
    have hch2 : ∀ i l r,
        BTree.node i l r ∈ subTs (canonSub codes .low 0 (n - 1)) →
        left_nodes codes n i = ((nid n l : ℕ) : ℤ) ∧
        right_nodes codes n i = ((nid n r : ℕ) : ℤ) := by
      intro i l r hm
      have h := RepT_sub _ hrep _ hm
      exact ⟨h.2.1, h.2.2.1⟩
    have hpar2 : ∀ i l r,
        BTree.node i l r ∈ subTs (canonSub codes .low 0 (n - 1)) →
        pipelineParent codes n p0 (nid n l) = (i : ℤ) ∧
        pipelineParent codes n p0 (nid n r) = (i : ℤ) := by
      intro i l r hm
      have h := RepT_sub _ hrep _ hm
      have hi : i < n - 1 := h.1
      rw [hpp]
      constructor
      · exact buildParent_child hn hc hs hn2 hi
          (Or.inl (by rw [h.2.1, Int.toNat_natCast])) p0
      · exact buildParent_child hn hc hs hn2 hi
          (Or.inr (by rw [h.2.2.1, Int.toNat_natCast])) p0
    have hparoot : pipelineParent codes n p0
        (nid n (canonSub codes .low 0 (n - 1))) = -1 := by
      rw [hroot, hpp]
      exact buildParent_zero hn hc hs hn2 p0
    have hleafmem2 := leaf_mem_sub hrep hcnt
    have hleafbound : ∀ k,
        BTree.leaf k ∈ subTs (canonSub codes .low 0 (n - 1)) → k < n :=
      fun k hk => RepT_sub _ hrep _ hk
    have hm := @refit_master
      ⟨n, left_nodes codes n, right_nodes codes n,
        pipelineParent codes n p0, leaf_arr, lowb, upb⟩
      (canonSub codes .low 0 (n - 1))
      hnd hch2 hparoot hpar2 hleafmem2 hleafbound b0 sched hsched hdone
      _ (subTs_self _)
    have hbox0 : (runSched ⟨n, left_nodes codes n, right_nodes codes n,
        pipelineParent codes n p0, leaf_arr, lowb, upb⟩ sched
        (initState b0)).boxes 0 =
        sbox ⟨n, left_nodes codes n, right_nodes codes n,
          pipelineParent codes n p0, leaf_arr, lowb, upb⟩
          (canonSub codes .low 0 (n - 1)) := by
      have h1 := hm.1
      rw [hroot] at h1
      exact h1
    have htree := mergeAllO_sbox
      ⟨n, left_nodes codes n, right_nodes codes n,
        pipelineParent codes n p0, leaf_arr, lowb, upb⟩
      (canonSub codes .low 0 (n - 1))
    have hlp := leaves_perm hn1 hrep hcnt
    have hperm2 : ((leavesOf (canonSub codes .low 0 (n - 1))).map
        (fun k => (leaf_arr k).toNat)).Perm (List.range n) :=
      (hlp.map _).trans hperm
    have h3 := hperm2.map (fun j => (⟨lowb j, upb j⟩ : Aabb))
    rw [List.map_map] at h3
    have hcomp : ((fun j => (⟨lowb j, upb j⟩ : Aabb)) ∘
        fun k => (leaf_arr k).toNat) =
        fun k => (⟨lowb (leaf_arr k).toNat,
          upb (leaf_arr k).toNat⟩ : Aabb) := rfl
    rw [hcomp] at h3
    rw [hbox0]
    rw [show mergeAllO (inputBoxes lowb upb n) =
      mergeAllO ((leavesOf (canonSub codes .low 0 (n - 1))).map
        (fun k => (⟨lowb (leaf_arr k).toNat,
          upb (leaf_arr k).toNat⟩ : Aabb))) from
      (foldl_mergeO_perm h3 none).symm]
    exact htree
  · have hne : n = 1 := by omega
    subst hne
    have hnd : (idsT 1 (BTree.leaf 0)).Nodup := by decide
    have hch2 : ∀ i l r, BTree.node i l r ∈ subTs (BTree.leaf 0) →
        left_nodes codes 1 i = ((nid 1 l : ℕ) : ℤ) ∧
        right_nodes codes 1 i = ((nid 1 r : ℕ) : ℤ) := by
      intro i l r hm
      simp [subTs] at hm
    have hpar2 : ∀ i l r, BTree.node i l r ∈ subTs (BTree.leaf 0) →
        pipelineParent codes 1 p0 (nid 1 l) = (i : ℤ) ∧
        pipelineParent codes 1 p0 (nid 1 r) = (i : ℤ) := by
      intro i l r hm
      simp [subTs] at hm
    have hparoot : pipelineParent codes 1 p0 (nid 1 (BTree.leaf 0)) =
        -1 := rfl
    have hleafmem2 : ∀ k, k < 1 → BTree.leaf k ∈ subTs (BTree.leaf 0) := by
      intro k hk
      have hk0 : k = 0 := by omega
      subst hk0
      exact subTs_self _
    have hleafbound : ∀ k, BTree.leaf k ∈ subTs (BTree.leaf 0) →
        k < 1 := by
      intro k hk
      simp only [subTs, List.mem_singleton] at hk
      injection hk with e1
      omega
    have hm := @refit_master
      ⟨1, left_nodes codes 1, right_nodes codes 1,
        pipelineParent codes 1 p0, leaf_arr, lowb, upb⟩
      (BTree.leaf 0)
      hnd hch2 hparoot hpar2 hleafmem2 hleafbound b0 sched hsched hdone
      _ (subTs_self _)
    have hp0 : ((List.range 1).map (fun k => (leaf_arr k).toNat)) =
        [(leaf_arr 0).toNat] := rfl
    have hr1 : List.range 1 = [0] := rfl
    rw [hp0, hr1] at hperm
    have he := List.perm_singleton.mp hperm
    injection he with e1 e2
    have hbox0 := hm.1
    rw [show nid 1 (BTree.leaf 0) = 0 from rfl] at hbox0
    rw [hbox0]
    show mergeAllO [⟨lowb 0, upb 0⟩] =
      some ⟨lowb (leaf_arr 0).toNat, upb (leaf_arr 0).toNat⟩
    rw [e1]
    rfl

/-- Witness for C5: the full two-leaf pipeline (identity keys, identity
permutation, construction-kernel parents, one complete schedule). -/
theorem claim_C5_witness :
    (((List.range 2).map (fun k => ((fun j : ℕ => (j : ℤ)) k).toNat)).Perm
        (List.range 2) ∧
     (∀ tid, tid < 2 →
       (runSched ⟨2, left_nodes (fun a => a) 2, right_nodes (fun a => a) 2,
         pipelineParent (fun a => a) 2 (fun _ => 0), fun j => (j : ℤ),
         fun j => ⟨(j : ℤ), 0, 0⟩, fun j => ⟨(j : ℤ) + 1, 1, 1⟩⟩
         [0, 0, 1, 1, 1]
         (initState (fun _ => ⟨⟨5, 5, 5⟩, ⟨6, 6, 6⟩⟩))).phase tid =
           .halt)) ∧
    mergeAllO (inputBoxes (fun j => ⟨(j : ℤ), 0, 0⟩)
        (fun j => ⟨(j : ℤ) + 1, 1, 1⟩) 2) =
      some ((runSched ⟨2, left_nodes (fun a => a) 2,
        right_nodes (fun a => a) 2,
        pipelineParent (fun a => a) 2 (fun _ => 0), fun j => (j : ℤ),
        fun j => ⟨(j : ℤ), 0, 0⟩, fun j => ⟨(j : ℤ) + 1, 1, 1⟩⟩
        [0, 0, 1, 1, 1]
        (initState (fun _ => ⟨⟨5, 5, 5⟩, ⟨6, 6, 6⟩⟩))).boxes 0) :=
  ⟨⟨by decide, by decide⟩,
   claim_C5 (fun a => a) 2 (by norm_num)
     (fun a ha => lt_of_lt_of_le ha (by norm_num))
     (fun a b hab _ => hab) (by norm_num) (fun _ => 0) (fun j => (j : ℤ))
     (fun j => ⟨(j : ℤ), 0, 0⟩) (fun j => ⟨(j : ℤ) + 1, 1, 1⟩)
     (by decide) (fun _ => ⟨⟨5, 5, 5⟩, ⟨6, 6, 6⟩⟩) [0, 0, 1, 1, 1]
     (by decide) (by decide)⟩
